import Mathlib

/-!
Verification of the search-algorithm core of the `ai-pathfinder` repository:
the five search strategies (BFS, DFS, UCS, A*, Greedy best-first) from
`js/algorithms.js`, the binary min-heap `PriorityQueue` they share, and the
graph-query surface of `js/graph.js`.

Modelling conventions:
* JS numbers are modelled as `Nat` (every quantity the program manipulates is a
  non-negative integer: edge costs, heuristic values, accumulated path costs,
  heap priorities).
* JS `Map` objects are modelled as association lists.  `Map.set` for the
  traversal-local maps (`parent`, `cost`, `gScore`) is modelled by consing the
  new binding to the front, so that `lookup` (first match) sees the latest
  binding — observationally the same as `Map.get`/`Map.has`, which are the only
  operations the algorithms use on these maps.  The graph's `nodes`/`edges`
  maps are built with update-or-append, matching JS `Map` insertion-order
  semantics.
* JS `Set` objects (`visited`) are modelled as lists queried by membership.
* Unbounded `while` loops are modelled by structural recursion on an explicit
  fuel parameter; the top-level entry points supply a fuel value that is proved
  sufficient (the loop is shown to return `some` before fuel runs out).
* `performance.now()` timing (`timeTaken`) is wall-clock and is not modelled;
  no claim mentions it.
-/

namespace PathFinder

/-- First-match association-list lookup, the model of JS `Map.get`
(`none` = `undefined`). -/
def alookup {β : Type} : List (String × β) → String → Option β
  | [], _ => none
  | (k, v) :: rest, x => if k = x then some v else alookup rest x

/-! ## PriorityQueue (`js/algorithms.js`, class `PriorityQueue`)

An array-backed binary min-heap.  Items pair an element with a numeric
priority; the element type is a parameter (JS is untyped; the program only
ever stores vertex-name strings). -/

/-- One heap entry: `{ element, priority }`. -/
structure PQItem (α : Type) where
  element : α
  priority : Nat
deriving DecidableEq

/-- The heap: `this.items = []`. -/
structure PQueue (α : Type) where
  items : List (PQItem α)
deriving DecidableEq

/-- A fresh `new PriorityQueue()`. -/
def PQueue.empty {α : Type} : PQueue α := ⟨[]⟩

/-- The body of `bubbleUp`'s `while` loop.  `item` is the value captured by
`const item = this.items[index]` before the loop; the loop repeatedly moves the
parent slot down and finishes by writing `item` at the final index.  The loop
index strictly decreases, so recursion is structural on a fuel parameter kept
`≥ index`; at `fuel = 0` the only reachable index is `0`, where the fallback
`items.set index item` coincides with the source's loop exit. -/
def bubbleLoop {α : Type} :
    Nat → (items : List (PQItem α)) → PQItem α → (index : Nat) →
      index < items.length → List (PQItem α)
  | 0, items, item, index, _ => items.set index item
  | fuel + 1, items, item, index, hidx =>
    if h0 : 0 < index then
      have hp : (index - 1) / 2 < items.length := by omega
      let parent := items.get ⟨(index - 1) / 2, hp⟩
      if parent.priority ≤ item.priority then
        -- `if (item.priority >= parent.priority) break;` then `this.items[index] = item`
        items.set index item
      else
        bubbleLoop fuel (items.set index parent) item ((index - 1) / 2)
          (by rw [List.length_set]; exact hp)
    else
      items.set index item

/-- `bubbleUp(index)`: captures `item = this.items[index]` and runs the loop
(`index` iterations always suffice since the loop index strictly decreases). -/
def bubbleUp {α : Type} (items : List (PQItem α)) (index : Nat)
    (hidx : index < items.length) : List (PQItem α) :=
  bubbleLoop index items (items.get ⟨index, hidx⟩) index hidx

/-- `enqueue(element, priority)`: push `{element, priority}` then
`bubbleUp(this.items.length - 1)`. -/
def PQueue.enqueue {α : Type} (q : PQueue α) (element : α) (priority : Nat) : PQueue α :=
  ⟨bubbleUp (q.items ++ [PQItem.mk element priority])
    ((q.items ++ [PQItem.mk element priority]).length - 1)
    (by simp only [List.length_append, List.length_cons, List.length_nil]; omega)⟩

/-- One round of `sinkDown`'s swap-index selection (`swapIndex` stays `null`,
becomes the left child, or becomes the right child), returned with the bounds
the source's range guards establish.  The nested conditionals spell out the
source's two sequential `if`s: `swapIndex = leftChildIndex` when the left
child beats `item`; then the right child replaces it when it beats the current
candidate (`item` if none, else the left child). -/
def pickSwap {α : Type} (items : List (PQItem α)) (item : PQItem α) (index : Nat) :
    Option {j : Nat // index < j ∧ j < items.length} :=
  if h1 : 2 * index + 1 < items.length then
    if (items.get ⟨2 * index + 1, h1⟩).priority < item.priority then
      if h2 : 2 * index + 2 < items.length then
        if (items.get ⟨2 * index + 2, h2⟩).priority <
            (items.get ⟨2 * index + 1, h1⟩).priority then
          some ⟨2 * index + 2, by omega⟩
        else some ⟨2 * index + 1, by omega⟩
      else some ⟨2 * index + 1, by omega⟩
    else
      if h2 : 2 * index + 2 < items.length then
        if (items.get ⟨2 * index + 2, h2⟩).priority < item.priority then
          some ⟨2 * index + 2, by omega⟩
        else none
      else none
  else
    if h2 : 2 * index + 2 < items.length then
      if (items.get ⟨2 * index + 2, h2⟩).priority < item.priority then
        some ⟨2 * index + 2, by omega⟩
      else none
    else none

/-- The body of `sinkDown`'s `while (true)` loop.  `item` is captured once at
entry (`const item = this.items[index]`); each iteration either finds no swap
index and writes `item` at `index`, or moves the chosen child up and continues
from the child's slot.  The loop index strictly increases and stays below the
(fixed) length, so recursion is structural on a fuel parameter kept
`≥ length - index`; at `fuel = 0` the index is already out of range, both
children are missing, and the fallback coincides with the no-swap exit. -/
def sinkLoop {α : Type} :
    Nat → List (PQItem α) → PQItem α → Nat → List (PQItem α)
  | 0, items, item, index => items.set index item
  | fuel + 1, items, item, index =>
    match pickSwap items item index with
    | none => items.set index item
    | some s => sinkLoop fuel (items.set index (items.get ⟨s.val, s.2.2⟩)) item s.val

/-- `sinkDown(index)` with the captured `item` passed explicitly
(`length` iterations always suffice). -/
def sinkDown {α : Type} (items : List (PQItem α)) (item : PQItem α) (index : Nat) :
    List (PQItem α) :=
  sinkLoop items.length items item index

/-- `dequeue()`: returns `null` on an empty heap; otherwise removes and returns
the root element, moving the popped last element to the root and sinking it. -/
def PQueue.dequeue {α : Type} (q : PQueue α) : Option α × PQueue α :=
  match h : q.items with
  | [] => (none, q)
  | mn :: _ =>
    -- `const min = this.items[0]; const end = this.items.pop();`
    let e := q.items.getLast (by simp [h])
    let rest := q.items.dropLast
    if rest.isEmpty then
      (some mn.element, ⟨rest⟩)
    else
      -- `this.items[0] = end; this.sinkDown(0);`
      (some mn.element, ⟨sinkDown (rest.set 0 e) e 0⟩)

/-- `isEmpty()`. -/
def PQueue.isEmpty {α : Type} (q : PQueue α) : Bool := q.items.length == 0

/-! ## Graph store (`js/graph.js`, class `Graph`)

Vertices carry a name, presentational coordinates and a heuristic value; edges
are directed `(target, cost)` entries kept per source vertex in insertion
order. -/

/-- A vertex record as stored by `addNode`. -/
structure GNode where
  name : String
  x : Nat
  y : Nat
  h : Nat
deriving DecidableEq

/-- The graph store: `nodes` maps a name to its vertex record, `edges` maps a
name to its ordered adjacency list of `(to, cost)` pairs. -/
structure Graph where
  nodes : List (String × GNode)
  edges : List (String × List (String × Nat))
deriving DecidableEq

/-- `getNode(name)`: the node record, or `none` (JS `null`). -/
def getNode (g : Graph) (name : String) : Option GNode := alookup g.nodes name

/-- The heuristic of a vertex as the algorithms read it (`node.h`).  On a
well-formed graph the lookup always succeeds; the `0` default stands in for
the runtime fault the source would hit on a dangling name. -/
def hFor (g : Graph) (name : String) : Nat := ((getNode g name).map GNode.h).getD 0

/-- `getNeighbors(nodeName)`: the adjacency entries, each paired with the
target's heuristic.  The source returns `{node, cost}` records; the algorithms
read exactly `node.name` (= the stored edge target), `cost`, and `node.h`,
which is what this triple `(target, cost, target's h)` provides. -/
def getNeighbors (g : Graph) (n : String) : List (String × Nat × Nat) :=
  ((alookup g.edges n).getD []).map (fun e => (e.1, e.2, hFor g e.1))

/-- Update-or-append for the `nodes` map (JS `Map.set` keeps insertion order). -/
def setNode (nodes : List (String × GNode)) (k : String) (v : GNode) :
    List (String × GNode) :=
  if (alookup nodes k).isSome then
    nodes.map (fun p => if p.1 = k then (k, v) else p)
  else nodes ++ [(k, v)]

/-- `addNode(name, x, y, h)`. -/
def addNode (g : Graph) (name : String) (x y h : Nat) : Graph :=
  { nodes := setNode g.nodes name ⟨name, x, y, h⟩
    edges := if (alookup g.edges name).isSome then g.edges else g.edges ++ [(name, [])] }

/-- The edge-list update inside `addEdge`: update the cost of an existing
entry for `dst`, otherwise push a fresh `{to, cost}` entry. -/
def pushEdge (adj : List (String × Nat)) (dst : String) (cost : Nat) :
    List (String × Nat) :=
  if (alookup adj dst).isSome then
    adj.map (fun e => if e.1 = dst then (e.1, cost) else e)
  else adj ++ [(dst, cost)]

/-- Apply `pushEdge` to the adjacency list of `src`. -/
def updAdj (edges : List (String × List (String × Nat))) (src dst : String) (cost : Nat) :
    List (String × List (String × Nat)) :=
  edges.map (fun p => if p.1 = src then (p.1, pushEdge p.2 dst cost) else p)

/-- `addEdge(from, to, cost, bidirectional)`: no-op (after `console.error`)
when either endpoint is missing, otherwise add/update the forward edge and,
if bidirectional, the reverse edge. -/
def addEdge (g : Graph) (src dst : String) (cost : Nat) (bidir : Bool) : Graph :=
  if (getNode g src).isNone || (getNode g dst).isNone then g
  else
    let g1 : Graph := { g with edges := updAdj g.edges src dst cost }
    if bidir then { g1 with edges := updAdj g1.edges dst src cost } else g1

/-- The fixture built by `initializeDefaultGraph`: eight named vertices with
heuristics, and eleven bidirectional edges. -/
def defaultGraph : Graph :=
  let gn :=
    [("A", 100, 100, 7), ("B", 250, 80, 6), ("C", 150, 200, 5), ("D", 300, 200, 4),
     ("E", 400, 150, 2), ("F", 200, 300, 3), ("G", 350, 320, 1), ("Goal", 450, 280, 0)]
      |>.foldl (fun g n => addNode g n.1 n.2.1 n.2.2.1 n.2.2.2) ⟨[], []⟩
  [("A", "B", 2), ("A", "C", 3), ("B", "D", 3), ("B", "E", 4), ("C", "D", 2),
   ("C", "F", 4), ("D", "E", 1), ("D", "G", 3), ("E", "Goal", 2), ("F", "G", 2),
   ("G", "Goal", 3)]
    |>.foldl (fun g e => addEdge g e.1 e.2.1 e.2.2 true) gn

/-! ## Search engine (`js/algorithms.js`, class `SearchAlgorithms`) -/

/-- The uniform result record each strategy returns.  `timeTaken` (wall-clock
milliseconds) is not modelled. -/
structure SearchResult where
  found : Bool
  path : List String
  pathCost : Nat
  nodesExplored : Nat
  exploredOrder : List String
deriving DecidableEq

instance : Inhabited SearchResult := ⟨⟨false, [], 0, 0, []⟩⟩

/-- The path-reconstruction loop of `buildResult`:
`while (current !== null) { path.unshift(current); current = parent.get(current); }`.
A binding of `none` is the `null` sentinel recorded for the start vertex and
stops the walk.  An absent binding would make the source read `undefined` and
loop forever; the searches never produce such a map (proved below), and the
model stops there.  Fuel bounds the iteration count; `parent.length + 1` is
proved sufficient for the maps the searches build. -/
def walkChain (parent : List (String × Option String)) :
    Nat → String → List String → List String
  | 0, _, acc => acc
  | fuel + 1, current, acc =>
    match alookup parent current with
    | some (some p) => walkChain parent fuel p (current :: acc)
    | some none => current :: acc
    | none => current :: acc

/-- The post-hoc cost computation of `buildResult` (used when no cost map is
supplied): for each consecutive path pair, find the matching neighbor entry and
add its cost (silently skipping a missing edge, as the source's
`if (neighbor)` does). -/
def pathCostSum (g : Graph) (path : List String) : Nat :=
  (path.zip path.tail).foldl
    (fun acc q =>
      match (getNeighbors g q.1).find? (fun nb => nb.1 == q.2) with
      | some nb => acc + nb.2.1
      | none => acc)
    0

/-- `buildResult(start, goal, parent, exploredOrder, timeTaken, found, costMap)`.
The `start` argument is unused by the source as well (the walk stops at the
`null` sentinel). -/
def buildResult (g : Graph) (start goal : String)
    (parent : List (String × Option String)) (exploredOrder : List String)
    (found : Bool) (costMap : Option (List (String × Nat))) : SearchResult :=
  if found && (alookup parent goal).isSome then
    let path := walkChain parent (parent.length + 1) goal []
    let pathCost :=
      match costMap with
      | some m => (alookup m goal).getD 0    -- `costMap.get(goal) || 0` (0 is falsy)
      | none => pathCostSum g path
    ⟨found, path, pathCost, exploredOrder.length, exploredOrder⟩
  else
    ⟨found, [], 0, exploredOrder.length, exploredOrder⟩

/-- All vertex names a search starting at `start` can ever enqueue: the start
itself plus every edge target.  Used only for the fuel bound. -/
def candList (g : Graph) (start : String) : List String :=
  start :: g.edges.foldr (fun p acc => p.2.map Prod.fst ++ acc) []

/-- Total number of adjacency entries, an upper bound on the frontier growth of
one expansion.  Used only for the fuel bound. -/
def edgeTotal (g : Graph) : Nat := (g.edges.map (fun p => p.2.length)).sum

/-- Fuel supplied to every search loop; proved sufficient below. -/
def searchFuel (g : Graph) (start : String) : Nat :=
  (edgeTotal g + 2) * ((candList g start).dedup.length + 2) + 2

/-! ### BFS -/

/-- The traversal-local state of `bfs`. -/
structure BfsState where
  queue : List String
  visited : List String
  parent : List (String × Option String)
  exploredOrder : List String

/-- The neighbor-processing step of `bfs`'s inner `for` loop: an unvisited
neighbor is marked visited, gets its predecessor recorded, and is enqueued. -/
def bfsVisit (current : String) (acc : BfsState) (nb : String × Nat × Nat) :
    BfsState :=
  if nb.1 ∈ acc.visited then acc
  else
    { acc with
      visited := nb.1 :: acc.visited
      parent := (nb.1, some current) :: acc.parent
      queue := acc.queue ++ [nb.1] }

/-- The `while (queue.length > 0)` loop of `bfs`.  Neighbors of the dequeued
vertex are marked visited and enqueued at discovery time. -/
def bfsLoop (g : Graph) (start goal : String) :
    Nat → BfsState → Option SearchResult
  | 0, _ => none
  | fuel + 1, st =>
    match st.queue with
    | [] => some (buildResult g start goal st.parent st.exploredOrder false none)
    | current :: rest =>
      let explored' := st.exploredOrder ++ [current]
      if current = goal then
        some (buildResult g start goal st.parent explored' true none)
      else
        bfsLoop g start goal fuel
          ((getNeighbors g current).foldl (bfsVisit current)
            { st with queue := rest, exploredOrder := explored' })

/-- `bfs(start, goal)`. -/
def bfs (g : Graph) (start goal : String) : SearchResult :=
  (bfsLoop g start goal (searchFuel g start)
    ⟨[start], [start], [(start, none)], []⟩).getD default

/-! ### DFS -/

/-- The traversal-local state of `dfs`; the stack's head is its top. -/
structure DfsState where
  stack : List String
  visited : List String
  parent : List (String × Option String)
  exploredOrder : List String

/-- The neighbor-processing step of `dfs`'s inner (downward) `for` loop: an
unvisited neighbor is pushed; the predecessor is recorded only when the
neighbor has none yet. -/
def dfsVisit (current : String) (acc : DfsState) (nb : String × Nat × Nat) :
    DfsState :=
  if nb.1 ∈ acc.visited then acc
  else
    { acc with
      parent :=
        if (alookup acc.parent nb.1).isSome then acc.parent
        else (nb.1, some current) :: acc.parent
      stack := nb.1 :: acc.stack }

/-- The `while (stack.length > 0)` loop of `dfs`.  Visited is marked at pop
time; an already-visited pop is skipped.  Neighbors are pushed in reverse
native order (the source's downward `for` loop), the predecessor being
recorded only on first discovery. -/
def dfsLoop (g : Graph) (start goal : String) :
    Nat → DfsState → Option SearchResult
  | 0, _ => none
  | fuel + 1, st =>
    match st.stack with
    | [] => some (buildResult g start goal st.parent st.exploredOrder false none)
    | current :: rest =>
      if current ∈ st.visited then
        dfsLoop g start goal fuel { st with stack := rest }
      else
        let explored' := st.exploredOrder ++ [current]
        if current = goal then
          some (buildResult g start goal st.parent explored' true none)
        else
          dfsLoop g start goal fuel
            ((getNeighbors g current).reverse.foldl (dfsVisit current)
              { st with
                stack := rest
                visited := current :: st.visited
                exploredOrder := explored' })

/-- `dfs(start, goal)`. -/
def dfs (g : Graph) (start goal : String) : SearchResult :=
  (dfsLoop g start goal (searchFuel g start)
    ⟨[start], [], [(start, none)], []⟩).getD default

/-! ### UCS and A* (one parameterized best-first loop)

`ucs` and `astar` share their entire loop structure; they differ only in the
priority attached to a pushed entry: `newCost` for UCS and
`tentativeGScore + neighbor.node.h` for A*.  This is captured by the key
function `hf`: a relaxation to cost `c` pushes priority `c + hf v`, with
`hf = fun _ => 0` for UCS (so the priority is definitionally `newCost`) and
`hf = hFor g` for A*.  A*'s `fScore` map is written but — apart from
`fScore.get(start)` at the initial enqueue, which has just been set to
`startNode.h` — never read, so it is not part of the state. -/

/-- The traversal-local state shared by `ucs`/`astar` (and `greedy`). -/
structure BestState where
  pq : PQueue String
  visited : List String
  parent : List (String × Option String)
  cost : List (String × Nat)
  exploredOrder : List String

/-- The neighbor-relaxation loop of `ucs`/`astar`: for each neighbor, if no
cost is known or the new cost strictly improves, record cost and predecessor
and push a fresh frontier entry. -/
def bestImproves (acc : BestState) (current : String)
    (nb : String × Nat × Nat) : Bool :=
  match alookup acc.cost nb.1 with
  | none => true
  | some c => (alookup acc.cost current).getD 0 + nb.2.1 < c

def bestVisit (hf : String → Nat) (current : String) (acc : BestState)
    (nb : String × Nat × Nat) : BestState :=
  if bestImproves acc current nb then
    { acc with
      cost := (nb.1, (alookup acc.cost current).getD 0 + nb.2.1) :: acc.cost
      parent := (nb.1, some current) :: acc.parent
      pq := acc.pq.enqueue nb.1
        ((alookup acc.cost current).getD 0 + nb.2.1 + hf nb.1) }
  else acc

def bestRelax (g : Graph) (hf : String → Nat) (current : String) (st : BestState) :
    BestState :=
  (getNeighbors g current).foldl (bestVisit hf current) st

/-- The `while (!pQueue.isEmpty())` loop of `ucs`/`astar`: pop the minimum, skip
it if already visited (lazy deletion), test the goal at pop time, otherwise
relax the neighbors. -/
def bestLoop (g : Graph) (hf : String → Nat) (start goal : String) :
    Nat → BestState → Option SearchResult
  | 0, _ => none
  | fuel + 1, st =>
    match st.pq.dequeue with
    | (none, _) => some (buildResult g start goal st.parent st.exploredOrder false none)
    | (some current, pq') =>
      if current ∈ st.visited then
        bestLoop g hf start goal fuel { st with pq := pq' }
      else
        let explored' := st.exploredOrder ++ [current]
        if current = goal then
          some (buildResult g start goal st.parent explored' true (some st.cost))
        else
          bestLoop g hf start goal fuel
            (bestRelax g hf current
              { st with
                pq := pq'
                visited := current :: st.visited
                exploredOrder := explored' })

/-- `ucs(start, goal)`: initial entry `(start, 0)`, `cost(start) = 0`,
`parent(start) = null`. -/
def ucs (g : Graph) (start goal : String) : SearchResult :=
  (bestLoop g (fun _ => 0) start goal (searchFuel g start)
    ⟨PQueue.empty.enqueue start 0, [], [(start, none)], [(start, 0)], []⟩).getD default

/-- `astar(start, goal)`: initial entry `(start, startNode.h)` (the initial
`fScore`), `gScore(start) = 0`, `parent(start) = null`. -/
def astar (g : Graph) (start goal : String) : SearchResult :=
  (bestLoop g (hFor g) start goal (searchFuel g start)
    ⟨PQueue.empty.enqueue start (hFor g start), [], [(start, none)], [(start, 0)],
      []⟩).getD default

/-! ### Greedy best-first -/

/-- The neighbor loop of `greedy`: unvisited neighbors always get a frontier
entry keyed by their heuristic alone; predecessor and accumulated cost are
recorded only on first discovery (`if (!parent.has(neighborName))`). -/
def greedyVisit (current : String) (acc : BestState)
    (nb : String × Nat × Nat) : BestState :=
  if nb.1 ∈ acc.visited then acc
  else
    let acc' :=
      if (alookup acc.parent nb.1).isSome then acc
      else
        { acc with
          parent := (nb.1, some current) :: acc.parent
          cost := (nb.1, (alookup acc.cost current).getD 0 + nb.2.1) :: acc.cost }
    { acc' with pq := acc'.pq.enqueue nb.1 nb.2.2 }

def greedyRelax (g : Graph) (current : String) (st : BestState) : BestState :=
  (getNeighbors g current).foldl (greedyVisit current) st

/-- The `while (!pQueue.isEmpty())` loop of `greedy`; identical skeleton to
`ucs`/`astar` but with `greedyRelax`. -/
def greedyLoop (g : Graph) (start goal : String) :
    Nat → BestState → Option SearchResult
  | 0, _ => none
  | fuel + 1, st =>
    match st.pq.dequeue with
    | (none, _) => some (buildResult g start goal st.parent st.exploredOrder false none)
    | (some current, pq') =>
      if current ∈ st.visited then
        greedyLoop g start goal fuel { st with pq := pq' }
      else
        let explored' := st.exploredOrder ++ [current]
        if current = goal then
          some (buildResult g start goal st.parent explored' true (some st.cost))
        else
          greedyLoop g start goal fuel
            (greedyRelax g current
              { st with
                pq := pq'
                visited := current :: st.visited
                exploredOrder := explored' })

/-- `greedy(start, goal)`: initial entry `(start, startNode.h)`,
`parent(start) = null`, `cost(start) = 0`. -/
def greedy (g : Graph) (start goal : String) : SearchResult :=
  (greedyLoop g start goal (searchFuel g start)
    ⟨PQueue.empty.enqueue start (hFor g start), [], [(start, none)], [(start, 0)],
      []⟩).getD default

/-! ## Specification-side notions

Paths, path weights, reachability and the heuristic contracts, phrased over
the graph store's query surface. -/

/-- The cost of the directed edge `u → v` as the store records it (`none` when
absent).  On graphs built through `addEdge` the adjacency keys are unique, so
this first-match lookup is the edge. -/
def edgeCost? (g : Graph) (u v : String) : Option Nat :=
  alookup ((alookup g.edges u).getD []) v

/-- The directed edge `u → v` is present in the store. -/
def hasEdge (g : Graph) (u v : String) : Prop := (edgeCost? g u v).isSome = true

instance (g : Graph) (u v : String) : Decidable (hasEdge g u v) :=
  inferInstanceAs (Decidable ((edgeCost? g u v).isSome = true))

/-- `p` is a path from `s` to `t`: nonempty, starts at `s`, ends at `t`, and
every consecutive pair is an edge of the store. -/
def IsPath (g : Graph) (s t : String) (p : List String) : Prop :=
  p.head? = some s ∧ p.getLast? = some t ∧ p.Chain' (fun a b => hasEdge g a b)

instance (g : Graph) (s t : String) (p : List String) :
    Decidable (IsPath g s t p) :=
  inferInstanceAs (Decidable (p.head? = some s ∧ p.getLast? = some t ∧
    p.Chain' (fun a b => hasEdge g a b)))

/-- Total edge-cost of a vertex sequence (missing edges count 0; on genuine
paths every lookup succeeds). -/
def pathWeight (g : Graph) : List String → Nat
  | [] => 0
  | [_] => 0
  | a :: b :: rest => (edgeCost? g a b).getD 0 + pathWeight g (b :: rest)

/-- `t` is reachable from `s` along directed edges. -/
def Reachable (g : Graph) (s t : String) : Prop :=
  Relation.ReflTransGen (fun a b => hasEdge g a b) s t

/-- `w` is the minimum total cost over all `s → t` paths. -/
def IsMinCost (g : Graph) (s t : String) (w : Nat) : Prop :=
  (∃ p, IsPath g s t p ∧ pathWeight g p = w) ∧
  ∀ p, IsPath g s t p → w ≤ pathWeight g p

/-- The heuristic never overestimates the true cost to `goal`: it is a lower
bound on the weight of every path to `goal`. -/
def Admissible (g : Graph) (goal : String) : Prop :=
  ∀ v p, IsPath g v goal p → hFor g v ≤ pathWeight g p

/-- The heuristic is consistent: it decreases by at most the edge cost along
every edge. -/
def Consistent (g : Graph) : Prop :=
  ∀ u v c, edgeCost? g u v = some c → hFor g u ≤ c + hFor g v

/-- Well-formedness maintained by the (out-of-scope) mutation API: the node
and edge maps have unique keys, every vertex with an adjacency list exists,
adjacency targets are unique per list, and every edge target exists. -/
def Wf (g : Graph) : Prop :=
  (g.nodes.map Prod.fst).Nodup ∧ (g.edges.map Prod.fst).Nodup ∧
  ∀ p ∈ g.edges, (alookup g.nodes p.1).isSome = true ∧ (p.2.map Prod.fst).Nodup ∧
    ∀ e ∈ p.2, (alookup g.nodes e.1).isSome = true

instance (g : Graph) : Decidable (Wf g) := by
  unfold Wf
  infer_instance

/-- A vertex name present in the node map. -/
def hasNode (g : Graph) (v : String) : Prop := (alookup g.nodes v).isSome = true

instance (g : Graph) (v : String) : Decidable (hasNode g v) :=
  inferInstanceAs (Decidable ((alookup g.nodes v).isSome = true))

/-! ## Concrete graphs used as counterexamples -/

/-- A graph on which A*'s lack of re-expansion bites: the heuristic is
admissible but not consistent (`h(A) = 4` while the edge `A → B` has cost `1`
and `h(B) = 0`).  `B` is expanded via the direct `S → B` edge (cost 4,
`f = 4`) before the cheaper route through `A` (`f(A) = 5`) is considered, and
is never re-expanded, so the goal's `gScore` keeps the stale value `7` while
the true minimum is `5`. -/
def cexGraph : Graph :=
  { nodes := [("S", ⟨"S", 0, 0, 0⟩), ("A", ⟨"A", 0, 0, 4⟩),
              ("B", ⟨"B", 0, 0, 0⟩), ("G", ⟨"G", 0, 0, 0⟩)]
    edges := [("S", [("A", 1), ("B", 4)]), ("A", [("B", 1)]),
              ("B", [("G", 3)]), ("G", [])] }

/-- A graph on which greedy best-first returns a non-minimal cost: the
heuristic lures it through `B` (cost `1 + 10 = 11`) although the route through
`A` costs `2`. -/
def grGraph : Graph :=
  { nodes := [("S", ⟨"S", 0, 0, 0⟩), ("A", ⟨"A", 0, 0, 5⟩),
              ("B", ⟨"B", 0, 0, 0⟩), ("G", ⟨"G", 0, 0, 0⟩)]
    edges := [("S", [("A", 1), ("B", 1)]), ("A", [("G", 1)]),
              ("B", [("G", 10)]), ("G", [])] }

/-- A two-vertex graph with no edges, used for unreachability witnesses. -/
def twoGraph : Graph :=
  { nodes := [("X", ⟨"X", 0, 0, 0⟩), ("Y", ⟨"Y", 0, 0, 0⟩)]
    edges := [("X", []), ("Y", [])] }

/-- The vertex names of the node map. -/
def nodeKeys (g : Graph) : List String := g.nodes.map Prod.fst

/-- A grounded predecessor chain: `ChainTo g parent start v w l` says that
following the `parent` map backward from `v` reaches the `null`-sentinel entry
of `start` and that, read forward, the visited vertices form the list `l`
(from `start` to `v`), whose consecutive pairs are store edges of total cost
`w`.  Such a derivation exists exactly when `buildResult`'s reconstruction
walk terminates; the searches are proved to keep every recorded vertex
grounded. -/
inductive ChainTo (g : Graph) (parent : List (String × Option String))
    (start : String) : String → Nat → List String → Prop
  | base : alookup parent start = some none → ChainTo g parent start start 0 [start]
  | step {u v : String} {c w : Nat} {l : List String} :
      ChainTo g parent start u w l → alookup parent v = some (some u) →
      edgeCost? g u v = some c → ChainTo g parent start v (w + c) (l ++ [v])

/-- Number of candidate vertices not yet visited; the potential part of every
loop measure. -/
def unvisitedCount (g : Graph) (start : String) (visited : List String) : Nat :=
  (((candList g start).dedup).filter (fun x => decide (x ∉ visited))).length

/-- Loop measure for `bfs`: every iteration strictly decreases it. -/
def bfsMeasure (g : Graph) (start : String) (st : BfsState) : Nat :=
  st.queue.length + 2 * unvisitedCount g start st.visited

/-- The parts of the `bfs` loop invariant that the inner neighbor loop
preserves step by step. -/
structure BfsCore (g : Graph) (start goal : String) (st : BfsState) : Prop where
  queue_sub : ∀ x ∈ st.queue, x ∈ st.visited
  visited_eq : ∀ x, x ∈ st.visited ↔ x ∈ st.exploredOrder ∨ x ∈ st.queue
  explored_nodup : st.exploredOrder.Nodup
  queue_nodup : st.queue.Nodup
  disj : ∀ x ∈ st.exploredOrder, x ∉ st.queue
  reach : ∀ x ∈ st.visited, Reachable g start x
  node : ∀ x ∈ st.visited, hasNode g x
  goal_not : goal ∉ st.exploredOrder
  dom : ∀ x, x ∈ st.visited ↔ (alookup st.parent x).isSome = true
  start_vis : start ∈ st.visited
  chain : ∀ x ∈ st.visited, ∃ w l, ChainTo g st.parent start x w l

/-- The full `bfs` loop invariant: the preserved core plus closure of the
explored set under neighbor discovery. -/
def BfsInv (g : Graph) (start goal : String) (st : BfsState) : Prop :=
  BfsCore g start goal st ∧
  ∀ x ∈ st.exploredOrder, ∀ nb ∈ getNeighbors g x, nb.1 ∈ st.visited

/-- Loop measure for `dfs`: the stack can hold duplicates, so one expansion is
paid for by the drop in unvisited vertices, weighted by the largest possible
number of pushes. -/
def dfsMeasure (g : Graph) (start : String) (st : DfsState) : Nat :=
  st.stack.length + (edgeTotal g + 1) * unvisitedCount g start st.visited

/-- The parts of the `dfs` loop invariant that the inner neighbor loop
preserves step by step.  Unlike BFS, `visited` is marked at pop time, so it
coincides with the explored order, and the stack may hold duplicates. -/
structure DfsCore (g : Graph) (start goal : String) (st : DfsState) : Prop where
  stack_reach : ∀ x ∈ st.stack, Reachable g start x
  stack_node : ∀ x ∈ st.stack, hasNode g x
  stack_cand : ∀ x ∈ st.stack, x ∈ candList g start
  stack_dom : ∀ x ∈ st.stack, (alookup st.parent x).isSome = true
  visited_eq : ∀ x, x ∈ st.visited ↔ x ∈ st.exploredOrder
  explored_nodup : st.exploredOrder.Nodup
  exp_reach : ∀ x ∈ st.exploredOrder, Reachable g start x
  exp_node : ∀ x ∈ st.exploredOrder, hasNode g x
  goal_not : goal ∉ st.exploredOrder
  start_in : start ∈ st.visited ∨ start ∈ st.stack
  chain_dom : ∀ x, (alookup st.parent x).isSome = true →
    ∃ w l, ChainTo g st.parent start x w l

/-- The full `dfs` loop invariant: the preserved core plus closure of the
explored set under neighbor discovery (a discovered neighbor is visited or
still waiting on the stack). -/
def DfsInv (g : Graph) (start goal : String) (st : DfsState) : Prop :=
  DfsCore g start goal st ∧
  ∀ x ∈ st.exploredOrder, ∀ nb ∈ getNeighbors g x,
    nb.1 ∈ st.visited ∨ nb.1 ∈ st.stack

/-- Loop measure shared by the three priority-queue searches: the frontier can
hold duplicates, so an expansion is paid for by the drop in unvisited
vertices. -/
def bestMeasure (g : Graph) (start : String) (st : BestState) : Nat :=
  st.pq.items.length + (edgeTotal g + 1) * unvisitedCount g start st.visited

/-- The parts of the `greedy` loop invariant that `greedyRelax` preserves step
by step.  Parent and accumulated cost are first-write-wins, so every binding's
predecessor chain carries exactly the recorded cost. -/
structure GreedyCore (g : Graph) (start goal : String) (st : BestState) : Prop where
  pq_reach : ∀ it ∈ st.pq.items, Reachable g start it.element
  pq_node : ∀ it ∈ st.pq.items, hasNode g it.element
  pq_cand : ∀ it ∈ st.pq.items, it.element ∈ candList g start
  pq_dom : ∀ it ∈ st.pq.items, (alookup st.parent it.element).isSome = true
  visited_eq : ∀ x, x ∈ st.visited ↔ x ∈ st.exploredOrder
  explored_nodup : st.exploredOrder.Nodup
  exp_reach : ∀ x ∈ st.exploredOrder, Reachable g start x
  exp_node : ∀ x ∈ st.exploredOrder, hasNode g x
  goal_not : goal ∉ st.exploredOrder
  start_in : start ∈ st.visited ∨ ∃ it ∈ st.pq.items, it.element = start
  chain_cost : ∀ x, (alookup st.parent x).isSome = true →
    ∃ w l, ChainTo g st.parent start x w l ∧ alookup st.cost x = some w

/-- The full `greedy` loop invariant: the preserved core plus closure of the
explored set under neighbor discovery. -/
def GreedyInv (g : Graph) (start goal : String) (st : BestState) : Prop :=
  GreedyCore g start goal st ∧
  ∀ x ∈ st.exploredOrder, ∀ nb ∈ getNeighbors g x,
    nb.1 ∈ st.visited ∨ ∃ it ∈ st.pq.items, it.element = nb.1

/-- The parts of the `ucs`/`astar` loop invariant that `bestRelax` preserves
step by step, independent of the priority function.  Unlike greedy, relaxation
overwrites predecessor and cost on strict improvement, so groundedness of the
predecessor map rests on the cost entries being monotone along recorded
bindings (`edge_mono`), which rules out binding cycles. -/
structure BestCore (g : Graph) (start goal : String) (st : BestState) : Prop where
  pq_reach : ∀ it ∈ st.pq.items, Reachable g start it.element
  pq_node : ∀ it ∈ st.pq.items, hasNode g it.element
  pq_cand : ∀ it ∈ st.pq.items, it.element ∈ candList g start
  pq_dom : ∀ it ∈ st.pq.items, (alookup st.parent it.element).isSome = true
  visited_eq : ∀ x, x ∈ st.visited ↔ x ∈ st.exploredOrder
  explored_nodup : st.exploredOrder.Nodup
  exp_reach : ∀ x ∈ st.exploredOrder, Reachable g start x
  exp_node : ∀ x ∈ st.exploredOrder, hasNode g x
  goal_not : goal ∉ st.exploredOrder
  start_in : start ∈ st.visited ∨ ∃ it ∈ st.pq.items, it.element = start
  start_parent : alookup st.parent start = some none
  start_cost : alookup st.cost start = some 0
  dom_eq : ∀ x, (alookup st.parent x).isSome = true ↔
    (alookup st.cost x).isSome = true
  edge_mono : ∀ x u, alookup st.parent x = some (some u) →
    ∃ gx gu c, alookup st.cost x = some gx ∧ alookup st.cost u = some gu ∧
      edgeCost? g u x = some c ∧ gu + c ≤ gx
  grounded : ∀ x gx, alookup st.cost x = some gx →
    ∃ w l, ChainTo g st.parent start x w l ∧ w ≤ gx
  cost_cov : ∀ x, (alookup st.cost x).isSome = true →
    x ∈ st.visited ∨ ∃ it ∈ st.pq.items, it.element = x

/-- The full `ucs`/`astar` loop invariant: the preserved core plus closure of
the explored set under neighbor discovery (a discovered neighbor always keeps
a cost entry, and `cost_cov` turns that into frontier coverage). -/
def BestInv (g : Graph) (start goal : String) (st : BestState) : Prop :=
  BestCore g start goal st ∧
  ∀ x ∈ st.exploredOrder, ∀ nb ∈ getNeighbors g x,
    (alookup st.cost nb.1).isSome = true

/-! ## Heap specification notions -/

/-- The binary-heap ordering invariant of the item array: every non-root slot
is at least its parent slot `(i - 1) / 2`. -/
def heapProp {α : Type} (l : List (PQItem α)) : Prop :=
  ∀ i : Nat, 0 < i → ∀ x y : PQItem α, l[i]? = some x → l[(i - 1) / 2]? = some y →
    y.priority ≤ x.priority

/-- The extra `ucs`/`astar` invariants that make the classical Dijkstra/A*
optimality argument go through when the priority key is consistent: the heap
order is intact, every frontier entry's priority dominates its element's
current cost plus key, visited costs are lower bounds on every path weight,
expanded vertices have relaxed all their neighbors, and every discovered but
unvisited vertex keeps a frontier entry priced at its current cost plus key. -/
structure BestOpt (g : Graph) (hf : String → Nat) (start : String)
    (st : BestState) : Prop where
  heap : heapProp st.pq.items
  entries_lb : ∀ it ∈ st.pq.items, ∃ gx, alookup st.cost it.element = some gx ∧
    gx + hf it.element ≤ it.priority
  visited_lb : ∀ x ∈ st.visited, ∃ gx, alookup st.cost x = some gx ∧
    ∀ p, IsPath g start x p → gx ≤ pathWeight g p
  relaxed : ∀ x ∈ st.visited, ∀ nb ∈ getNeighbors g x,
    ∃ gx gn, alookup st.cost x = some gx ∧ alookup st.cost nb.1 = some gn ∧
      gn ≤ gx + nb.2.1
  unvisited_entry : ∀ x gx, alookup st.cost x = some gx → x ∉ st.visited →
    ∃ it ∈ st.pq.items, it.element = x ∧ it.priority = gx + hf x

/-- The trace of `n` successive `dequeue()` calls, logging for each call the
root item — whose element is exactly what `dequeue` returns — together with
the priority it was enqueued with. -/
def drainPairs {α : Type} : Nat → PQueue α → List (α × Nat)
  | 0, _ => []
  | n + 1, q =>
    match q.items with
    | [] => []
    | mn :: _ => (mn.element, mn.priority) :: drainPairs n q.dequeue.2

/-- The elements returned by `n` successive `dequeue()` calls (stopping at the
first `null`). -/
def dequeueSeq {α : Type} : Nat → PQueue α → List α
  | 0, _ => []
  | n + 1, q =>
    match q.dequeue with
    | (none, _) => []
    | (some a, q') => a :: dequeueSeq n q'

/-- The queue state after `n` `dequeue()` calls. -/
def dequeueN {α : Type} : Nat → PQueue α → PQueue α
  | 0, q => q
  | n + 1, q => dequeueN n q.dequeue.2

/-- A fresh queue after a sequence of `enqueue(element, priority)` calls. -/
def buildQueue {α : Type} (ps : List (α × Nat)) : PQueue α :=
  ps.foldl (fun q ep => q.enqueue ep.1 ep.2) PQueue.empty

/-! ## Theorems -/

/-! ### Heap: multiset preservation -/

theorem set_cons_perm {β : Type} (t : List β) :
    ∀ (k : Nat) (hk : k < t.length) (x : β),
      List.Perm (t.get ⟨k, hk⟩ :: t.set k x) (x :: t) := by
  induction t with
  | nil => intro k hk x; simp at hk
  | cons a t ih =>
    intro k hk x
    cases k with
    | zero => exact List.Perm.swap x a t
    | succ k =>
      have hk' : k < t.length := by simpa using hk
      exact ((List.Perm.swap a _ _).trans ((ih k hk' x).cons a)).trans (List.Perm.swap x a t)

theorem set_cross_perm {β : Type} (t : List β) :
    ∀ (n : Nat) (hn : n < t.length) (a x : β),
      List.Perm (x :: t.set n a) (a :: t.set n x) := by
  induction t with
  | nil => intro n hn; simp at hn
  | cons b t ih =>
    intro n hn a x
    cases n with
    | zero => exact List.Perm.swap a x t
    | succ n =>
      have hn' : n < t.length := by simpa using hn
      exact ((List.Perm.swap b _ _).trans ((ih n hn' a x).cons b)).trans (List.Perm.swap a b _)

theorem set_set_perm {β : Type} (l : List β) :
    ∀ (i j : Nat) (hi : i < l.length) (hj : j < l.length) (x : β), i ≠ j →
      List.Perm ((l.set i (l.get ⟨j, hj⟩)).set j x) (l.set i x) := by
  induction l with
  | nil => intro i j hi; simp at hi
  | cons a t ih =>
    intro i j hi hj x hij
    cases i with
    | zero =>
      cases j with
      | zero => exact absurd rfl hij
      | succ m =>
        have hm : m < t.length := by simpa using hj
        exact set_cons_perm t m hm x
    | succ n =>
      cases j with
      | zero =>
        have hn : n < t.length := by simpa using hi
        exact set_cross_perm t n hn a x
      | succ m =>
        have hn : n < t.length := by simpa using hi
        have hm : m < t.length := by simpa using hj
        exact (ih n m hn hm x (by omega)).cons a

theorem bubbleLoop_perm {α : Type} :
    ∀ (fuel : Nat) (l : List (PQItem α)) (item : PQItem α) (idx : Nat)
      (hidx : idx < l.length), idx ≤ fuel →
      List.Perm (bubbleLoop fuel l item idx hidx) (l.set idx item) := by
  intro fuel
  induction fuel with
  | zero =>
    intro l item idx hidx hle
    have : idx = 0 := by omega
    subst this
    simp [bubbleLoop]
  | succ fuel ih =>
    intro l item idx hidx hle
    by_cases h0 : 0 < idx
    · have hp : (idx - 1) / 2 < l.length := by omega
      by_cases hbr : (l.get ⟨(idx - 1) / 2, hp⟩).priority ≤ item.priority
      · simp only [bubbleLoop, dif_pos h0, if_pos hbr]
        exact List.Perm.refl _
      · simp only [bubbleLoop, dif_pos h0, if_neg hbr]
        refine (ih _ item ((idx - 1) / 2) ?_ ?_).trans ?_
        · omega
        · exact set_set_perm l idx ((idx - 1) / 2) hidx hp item (by omega)
    · simp only [bubbleLoop, dif_neg h0]
      exact List.Perm.refl _

theorem sinkLoop_perm {α : Type} :
    ∀ (fuel : Nat) (l : List (PQItem α)) (item : PQItem α) (idx : Nat),
      l.length ≤ idx + fuel →
      List.Perm (sinkLoop fuel l item idx) (l.set idx item) := by
  intro fuel
  induction fuel with
  | zero =>
    intro l item idx hle
    simp [sinkLoop]
  | succ fuel ih =>
    intro l item idx hle
    match hps : pickSwap l item idx with
    | none =>
      simp only [sinkLoop, hps]
      exact List.Perm.refl _
    | some s =>
      simp only [sinkLoop, hps]
      refine (ih _ item s.val ?_).trans ?_
      · simp only [List.length_set]; omega
      · exact set_set_perm l idx s.val (by omega) s.2.2 item (by omega)


/-! ### Heap: ordering invariant -/

theorem getq_lt {β : Type} {l : List β} {j : Nat} {x : β} (h : l[j]? = some x) :
    j < l.length := by
  by_contra hc
  rw [List.getElem?_eq_none (by omega)] at h
  exact Option.noConfusion h

theorem getq_of_lt {β : Type} (l : List β) (j : Nat) (h : j < l.length) :
    l[j]? = some (l.get ⟨j, h⟩) := by
  rw [List.get_eq_getElem]
  exact List.getElem?_eq_getElem h

/-- When `sinkDown` selects no swap index, both children (where present) are at
least `item`. -/
theorem pickSwap_none_spec {α : Type} {items : List (PQItem α)} {item : PQItem α}
    {index : Nat} (h : pickSwap items item index = none) :
    ∀ j (x : PQItem α), 0 < j → (j - 1) / 2 = index → items[j]? = some x →
      item.priority ≤ x.priority := by
  intro j x hj0 hpj hx
  have hjr : j < items.length := getq_lt hx
  have hj : j = 2 * index + 1 ∨ j = 2 * index + 2 := by omega
  unfold pickSwap at h
  split_ifs at h with h1 hl h2 hr h2 hr h2 hr
  · -- left in range, item ≤ left, right in range, item ≤ right
    rcases hj with hj | hj <;> subst hj <;>
      (rw [getq_of_lt items _ (by omega)] at hx
       obtain rfl : _ = x := Option.some.inj hx
       omega)
  · -- left in range, item ≤ left, right out of range
    rcases hj with hj | hj
    · subst hj
      rw [getq_of_lt items _ (by omega)] at hx
      obtain rfl : _ = x := Option.some.inj hx
      omega
    · exact absurd hjr (by omega)
  · -- left out of range but right in range: impossible
    exact absurd h2 (by omega)
  · -- both children out of range
    exact absurd hjr (by omega)

/-- When `sinkDown` selects a swap index, the selected child is strictly below
`item` and is minimal among the children. -/
theorem pickSwap_some_spec {α : Type} {items : List (PQItem α)} {item : PQItem α}
    {index : Nat} {s : {j : Nat // index < j ∧ j < items.length}}
    (h : pickSwap items item index = some s) :
    (s.val - 1) / 2 = index ∧
    (items.get ⟨s.val, s.2.2⟩).priority < item.priority ∧
    ∀ j (x : PQItem α), 0 < j → (j - 1) / 2 = index → items[j]? = some x →
      (items.get ⟨s.val, s.2.2⟩).priority ≤ x.priority := by
  unfold pickSwap at h
  split_ifs at h with h1 hl h2 hr h2 hr h2 hr
  · -- s = right child, right < left < item
    obtain rfl : _ = s := Option.some.inj h
    refine ⟨show (2 * index + 2 - 1) / 2 = index by omega, ?_, ?_⟩
    · show (items.get ⟨2 * index + 2, h2⟩).priority < item.priority
      exact lt_trans hr hl
    · intro j x hj0 hpj hx
      have hjr : j < items.length := getq_lt hx
      have hj : j = 2 * index + 1 ∨ j = 2 * index + 2 := by omega
      show (items.get ⟨2 * index + 2, h2⟩).priority ≤ x.priority
      rcases hj with hj | hj <;> subst hj <;>
        (rw [getq_of_lt items _ (by omega)] at hx
         obtain rfl : _ = x := Option.some.inj hx
         omega)
  · -- s = left child, left < item, left ≤ right
    obtain rfl : _ = s := Option.some.inj h
    refine ⟨show (2 * index + 1 - 1) / 2 = index by omega, ?_, ?_⟩
    · show (items.get ⟨2 * index + 1, h1⟩).priority < item.priority
      exact hl
    · intro j x hj0 hpj hx
      have hjr : j < items.length := getq_lt hx
      have hj : j = 2 * index + 1 ∨ j = 2 * index + 2 := by omega
      show (items.get ⟨2 * index + 1, h1⟩).priority ≤ x.priority
      rcases hj with hj | hj <;> subst hj <;>
        (rw [getq_of_lt items _ (by omega)] at hx
         obtain rfl : _ = x := Option.some.inj hx
         omega)
  · -- s = left child, left < item, right out of range
    obtain rfl : _ = s := Option.some.inj h
    refine ⟨show (2 * index + 1 - 1) / 2 = index by omega, ?_, ?_⟩
    · show (items.get ⟨2 * index + 1, h1⟩).priority < item.priority
      exact hl
    · intro j x hj0 hpj hx
      have hjr : j < items.length := getq_lt hx
      have hj : j = 2 * index + 1 ∨ j = 2 * index + 2 := by omega
      show (items.get ⟨2 * index + 1, h1⟩).priority ≤ x.priority
      rcases hj with hj | hj
      · subst hj
        rw [getq_of_lt items _ (by omega)] at hx
        obtain rfl : _ = x := Option.some.inj hx
        omega
      · exact absurd hjr (by omega)
  · -- s = right child, item ≤ left, right < item
    obtain rfl : _ = s := Option.some.inj h
    refine ⟨show (2 * index + 2 - 1) / 2 = index by omega, ?_, ?_⟩
    · show (items.get ⟨2 * index + 2, h2⟩).priority < item.priority
      exact hr
    · intro j x hj0 hpj hx
      have hjr : j < items.length := getq_lt hx
      have hj : j = 2 * index + 1 ∨ j = 2 * index + 2 := by omega
      show (items.get ⟨2 * index + 2, h2⟩).priority ≤ x.priority
      rcases hj with hj | hj <;> subst hj <;>
        (rw [getq_of_lt items _ (by omega)] at hx
         obtain rfl : _ = x := Option.some.inj hx
         omega)
  · -- left out of range but right in range: impossible
    exact absurd h2 (by omega)

/-- `bubbleUp`'s loop restores the heap invariant.  The preconditions describe
the "hole" at `idx`: all parent/child pairs not reading the hole are ordered;
the hole's children (if any) are at least the pending `item`; and they are at
least the hole's parent. -/
theorem bubbleLoop_heapProp {α : Type} :
    ∀ (fuel : Nat) (l : List (PQItem α)) (item : PQItem α) (idx : Nat)
      (hidx : idx < l.length), idx ≤ fuel →
      (∀ i x y, 0 < i → i ≠ idx → l[i]? = some x → l[(i - 1) / 2]? = some y →
        y.priority ≤ x.priority) →
      (∀ j x, 0 < j → (j - 1) / 2 = idx → l[j]? = some x →
        item.priority ≤ x.priority) →
      (∀ j x y, 0 < j → (j - 1) / 2 = idx → 0 < idx → l[j]? = some x →
        l[(idx - 1) / 2]? = some y → y.priority ≤ x.priority) →
      heapProp (bubbleLoop fuel l item idx hidx) := by
  intro fuel
  induction fuel with
  | zero =>
    intro l item idx hidx hle hA hB hC
    have h0 : idx = 0 := by omega
    subst h0
    show heapProp (l.set 0 item)
    intro i hi x y hx hy
    rw [List.getElem?_set_ne (by omega : (0 : Nat) ≠ i)] at hx
    by_cases hpi : (i - 1) / 2 = 0
    · rw [hpi, List.getElem?_set_eq_of_lt item (by omega)] at hy
      obtain rfl : item = y := Option.some.inj hy
      exact hB i x hi hpi hx
    · rw [List.getElem?_set_ne (fun hc => hpi hc.symm)] at hy
      exact hA i x y hi (by omega) hx hy
  | succ fuel ih =>
    intro l item idx hidx hle hA hB hC
    by_cases h0 : 0 < idx
    · have hp : (idx - 1) / 2 < l.length := by omega
      by_cases hbr : (l.get ⟨(idx - 1) / 2, hp⟩).priority ≤ item.priority
      · -- loop break: write item at idx
        simp only [bubbleLoop, dif_pos h0, if_pos hbr]
        intro i hi x y hx hy
        by_cases hii : i = idx
        · subst hii
          rw [List.getElem?_set_eq_of_lt item hidx] at hx
          obtain rfl : item = x := Option.some.inj hx
          rw [List.getElem?_set_ne (by omega : i ≠ (i - 1) / 2)] at hy
          rw [getq_of_lt l _ hp] at hy
          obtain rfl : _ = y := Option.some.inj hy
          exact hbr
        · rw [List.getElem?_set_ne (fun hc => hii hc.symm)] at hx
          by_cases hpi : (i - 1) / 2 = idx
          · rw [hpi, List.getElem?_set_eq_of_lt item hidx] at hy
            obtain rfl : item = y := Option.some.inj hy
            exact hB i x hi hpi hx
          · rw [List.getElem?_set_ne (fun hc => hpi hc.symm)] at hy
            exact hA i x y hi hii hx hy
      · -- swap the parent down and continue from the parent slot
        simp only [bubbleLoop, dif_pos h0, if_neg hbr]
        apply ih
        · omega
        · intro i x y hi hip hx hy
          by_cases hii : i = idx
          · subst hii
            rw [List.getElem?_set_eq_of_lt _ hidx] at hx
            obtain rfl := Option.some.inj hx
            rw [List.getElem?_set_ne (by omega : i ≠ (i - 1) / 2)] at hy
            rw [getq_of_lt l _ hp] at hy
            obtain rfl := Option.some.inj hy
            exact le_refl _
          · rw [List.getElem?_set_ne (fun hc => hii hc.symm)] at hx
            by_cases hpi : (i - 1) / 2 = idx
            · rw [hpi, List.getElem?_set_eq_of_lt _ hidx] at hy
              obtain rfl := Option.some.inj hy
              show (l.get ⟨(idx - 1) / 2, hp⟩).priority ≤ x.priority
              exact hC i x _ hi hpi h0 hx (getq_of_lt l _ hp)
            · rw [List.getElem?_set_ne (fun hc => hpi hc.symm)] at hy
              exact hA i x y hi hii hx hy
        · intro j x hj0 hpj hx
          by_cases hji : j = idx
          · subst hji
            rw [List.getElem?_set_eq_of_lt _ hidx] at hx
            obtain rfl := Option.some.inj hx
            show item.priority ≤ (l.get ⟨(j - 1) / 2, hp⟩).priority
            omega
          · rw [List.getElem?_set_ne (fun hc => hji hc.symm)] at hx
            have h1 : (l.get ⟨(idx - 1) / 2, hp⟩).priority ≤ x.priority := by
              apply hA j x _ hj0 hji hx
              rw [hpj]
              exact getq_of_lt l _ hp
            omega
        · intro j x y hj0 hpj hpp0 hx hy
          rw [List.getElem?_set_ne (by omega : idx ≠ ((idx - 1) / 2 - 1) / 2)] at hy
          by_cases hji : j = idx
          · subst hji
            rw [List.getElem?_set_eq_of_lt _ hidx] at hx
            obtain rfl := Option.some.inj hx
            show y.priority ≤ (l.get ⟨(j - 1) / 2, hp⟩).priority
            exact hA ((j - 1) / 2) _ y hpp0 (by omega) (getq_of_lt l _ hp) hy
          · rw [List.getElem?_set_ne (fun hc => hji hc.symm)] at hx
            have h1 : y.priority ≤ (l.get ⟨(idx - 1) / 2, hp⟩).priority :=
              hA ((idx - 1) / 2) _ y hpp0 (by omega) (getq_of_lt l _ hp) hy
            have h2 : (l.get ⟨(idx - 1) / 2, hp⟩).priority ≤ x.priority := by
              apply hA j x _ hj0 hji hx
              rw [hpj]
              exact getq_of_lt l _ hp
            omega
    · -- idx = 0: write item at the root
      simp only [bubbleLoop, dif_neg h0]
      have hidx0 : idx = 0 := by omega
      subst hidx0
      intro i hi x y hx hy
      rw [List.getElem?_set_ne (by omega : (0 : Nat) ≠ i)] at hx
      by_cases hpi : (i - 1) / 2 = 0
      · rw [hpi, List.getElem?_set_eq_of_lt item (by omega)] at hy
        obtain rfl := Option.some.inj hy
        exact hB i x hi hpi hx
      · rw [List.getElem?_set_ne (fun hc => hpi hc.symm)] at hy
        exact hA i x y hi (by omega) hx hy

/-- `sinkDown`'s loop restores the heap invariant.  The preconditions describe
the "hole" at `idx`: all pairs not reading the hole as parent are ordered; the
hole's children are at least the hole's parent; and the hole's parent is at
most the pending `item`. -/
theorem sinkLoop_heapProp {α : Type} :
    ∀ (fuel : Nat) (l : List (PQItem α)) (item : PQItem α) (idx : Nat),
      l.length ≤ idx + fuel →
      (∀ i x y, 0 < i → (i - 1) / 2 ≠ idx → l[i]? = some x → l[(i - 1) / 2]? = some y →
        y.priority ≤ x.priority) →
      (∀ c x y, 0 < c → (c - 1) / 2 = idx → 0 < idx → l[c]? = some x →
        l[(idx - 1) / 2]? = some y → y.priority ≤ x.priority) →
      (∀ y, 0 < idx → l[(idx - 1) / 2]? = some y → y.priority ≤ item.priority) →
      heapProp (sinkLoop fuel l item idx) := by
  intro fuel
  induction fuel with
  | zero =>
    intro l item idx hle hA hD hB
    show heapProp (l.set idx item)
    intro i hi x y hx hy
    have hir : i < (l.set idx item).length := getq_lt hx
    rw [List.length_set] at hir
    rw [List.getElem?_set_ne (by omega : idx ≠ i)] at hx
    rw [List.getElem?_set_ne (by omega : idx ≠ (i - 1) / 2)] at hy
    exact hA i x y hi (by omega) hx hy
  | succ fuel ih =>
    intro l item idx hle hA hD hB
    cases hps : pickSwap l item idx with
    | none =>
      have hnone := pickSwap_none_spec hps
      simp only [sinkLoop, hps]
      intro i hi x y hx hy
      by_cases hii : i = idx
      · subst hii
        have hir : i < l.length := by
          have := getq_lt hx
          simpa [List.length_set] using this
        rw [List.getElem?_set_eq_of_lt item hir] at hx
        obtain rfl := Option.some.inj hx
        rw [List.getElem?_set_ne (by omega : i ≠ (i - 1) / 2)] at hy
        exact hB y hi hy
      · rw [List.getElem?_set_ne (fun hc => hii hc.symm)] at hx
        by_cases hpi : (i - 1) / 2 = idx
        · have hidxlen : idx < l.length := by
            have hir := getq_lt hx
            omega
          rw [hpi, List.getElem?_set_eq_of_lt item hidxlen] at hy
          obtain rfl := Option.some.inj hy
          exact hnone i x hi hpi hx
        · rw [List.getElem?_set_ne (fun hc => hpi hc.symm)] at hy
          exact hA i x y hi hpi hx hy
    | some s =>
      obtain ⟨hs_par, hs_lt, hs_min⟩ := pickSwap_some_spec hps
      have hs1 : idx < s.val := s.2.1
      have hs2 : s.val < l.length := s.2.2
      simp only [sinkLoop, hps]
      apply ih
      · simp only [List.length_set]; omega
      · intro i x y hi hpi hx hy
        by_cases hii : i = idx
        · subst hii
          rw [List.getElem?_set_eq_of_lt _ (by omega)] at hx
          obtain rfl := Option.some.inj hx
          rw [List.getElem?_set_ne (by omega : i ≠ (i - 1) / 2)] at hy
          show y.priority ≤ (l.get ⟨s.val, s.2.2⟩).priority
          exact hD s.val _ y (by omega) hs_par hi (getq_of_lt l _ s.2.2) hy
        · rw [List.getElem?_set_ne (fun hc => hii hc.symm)] at hx
          by_cases hqi : (i - 1) / 2 = idx
          · rw [hqi, List.getElem?_set_eq_of_lt _ (by omega)] at hy
            obtain rfl := Option.some.inj hy
            show (l.get ⟨s.val, s.2.2⟩).priority ≤ x.priority
            exact hs_min i x hi hqi hx
          · rw [List.getElem?_set_ne (fun hc => hqi hc.symm)] at hy
            exact hA i x y hi hqi hx hy
      · intro c x y hc0 hpc hs0 hx hy
        rw [show (s.val - 1) / 2 = idx from hs_par,
          List.getElem?_set_eq_of_lt _ (by omega)] at hy
        obtain rfl := Option.some.inj hy
        rw [List.getElem?_set_ne (by omega : idx ≠ c)] at hx
        show (l.get ⟨s.val, s.2.2⟩).priority ≤ x.priority
        apply hA c x _ hc0 (by omega) hx
        rw [hpc]
        exact getq_of_lt l _ s.2.2
      · intro y hs0 hy
        rw [show (s.val - 1) / 2 = idx from hs_par,
          List.getElem?_set_eq_of_lt _ (by omega)] at hy
        obtain rfl := Option.some.inj hy
        show (l.get ⟨s.val, s.2.2⟩).priority ≤ item.priority
        exact le_of_lt hs_lt

theorem set_append_last {β : Type} (l : List β) (a b : β) :
    (l ++ [a]).set l.length b = l ++ [b] := by
  induction l with
  | nil => rfl
  | cons c t ih => simp [List.set_cons_succ, ih]

/-- `enqueue` adds exactly the new item to the heap's multiset of entries. -/
theorem enqueue_items_perm {α : Type} (q : PQueue α) (e : α) (p : Nat) :
    List.Perm (q.enqueue e p).items (PQItem.mk e p :: q.items) := by
  unfold PQueue.enqueue bubbleUp
  refine (bubbleLoop_perm _ _ _ _ _ (le_refl _)).trans ?_
  have hg : (q.items ++ [PQItem.mk e p]).get
      ⟨(q.items ++ [PQItem.mk e p]).length - 1, by simp⟩ = PQItem.mk e p := by
    rw [List.get_eq_getElem]
    simp [List.getElem_concat_length]
  rw [hg, show (q.items ++ [PQItem.mk e p]).length - 1 = q.items.length by simp,
    set_append_last]
  exact List.perm_append_singleton _ _

theorem enqueue_length {α : Type} (q : PQueue α) (e : α) (p : Nat) :
    (q.enqueue e p).items.length = q.items.length + 1 := by
  have := (enqueue_items_perm q e p).length_eq
  simpa using this

/-- `enqueue` preserves the heap ordering invariant. -/
theorem enqueue_heapProp {α : Type} (q : PQueue α) (e : α) (p : Nat)
    (h : heapProp q.items) : heapProp (q.enqueue e p).items := by
  unfold PQueue.enqueue bubbleUp
  apply bubbleLoop_heapProp _ _ _ _ _ (le_refl _)
  · intro i x y hi hii hx hy
    have hir := getq_lt hx
    simp only [List.length_append, List.length_cons, List.length_nil] at hir hii
    have hilen : i < q.items.length := by omega
    rw [List.getElem?_append, if_pos hilen] at hx
    rw [List.getElem?_append, if_pos (by omega : (i - 1) / 2 < q.items.length)] at hy
    exact h i hi x y hx hy
  · intro j x hj0 hpj hx
    have := getq_lt hx
    simp only [List.length_append, List.length_cons, List.length_nil] at this hpj
    omega
  · intro j x y hj0 hpj hj1 hx hy
    have := getq_lt hx
    simp only [List.length_append, List.length_cons, List.length_nil] at this hpj
    omega

/-- A nonempty `dequeue` returns the root's element and its remaining entries
are a permutation of the original entries minus the root. -/
theorem dequeue_shape {α : Type} (q : PQueue α) (mn : PQItem α) (tl : List (PQItem α))
    (h : q.items = mn :: tl) :
    q.dequeue.1 = some mn.element ∧ List.Perm q.dequeue.2.items tl := by
  obtain ⟨items⟩ := q
  simp only at h
  subst h
  rcases tl with _ | ⟨b, t⟩
  · exact ⟨rfl, List.Perm.refl _⟩
  · refine ⟨rfl, ?_⟩
    show List.Perm
      (sinkDown (((mn :: b :: t).dropLast).set 0 ((mn :: b :: t).getLast (by simp)))
        ((mn :: b :: t).getLast (by simp)) 0) (b :: t)
    unfold sinkDown
    refine (sinkLoop_perm _ _ _ 0 (by omega)).trans ?_
    rw [List.set_set]
    show List.Perm
      (((mn :: b :: t).getLast (by simp)) :: (b :: t).dropLast) (b :: t)
    rw [List.getLast_cons (by simp)]
    have hdg : (b :: t).dropLast ++ [(b :: t).getLast (by simp)] = b :: t :=
      List.dropLast_append_getLast (by simp)
    conv_rhs => rw [← hdg]
    exact (List.perm_append_singleton _ _).symm

/-- A `dequeue` on an empty heap is the identity. -/
theorem dequeue_nil {α : Type} (q : PQueue α) (h : q.items = []) :
    q.dequeue = (none, q) := by
  obtain ⟨items⟩ := q
  cases items with
  | nil => rfl
  | cons a l => simp at h

/-- `dequeue` preserves the heap ordering invariant. -/
theorem dequeue_heapProp {α : Type} (q : PQueue α) (h : heapProp q.items) :
    heapProp q.dequeue.2.items := by
  obtain ⟨items⟩ := q
  rcases items with _ | ⟨mn, _ | ⟨b, t⟩⟩
  · exact h
  · show heapProp ([] : List (PQItem α))
    intro i hi x y hx hy
    simp at hx
  · show heapProp (sinkDown (((mn :: b :: t).dropLast).set 0
      ((mn :: b :: t).getLast (by simp))) ((mn :: b :: t).getLast (by simp)) 0)
    unfold sinkDown
    apply sinkLoop_heapProp _ _ _ 0 (by omega)
    · intro i x y hi hpi hx hy
      have hkey : ∀ k (z : PQItem α), 0 < k →
          (((mn :: b :: t).dropLast).set 0 ((mn :: b :: t).getLast (by simp)))[k]? =
            some z → (mn :: b :: t)[k]? = some z := by
        intro k z hk hkz
        have hkl := getq_lt hkz
        rw [List.length_set] at hkl
        rw [List.getElem?_set_ne (by omega : (0 : Nat) ≠ k)] at hkz
        rw [List.getElem?_dropLast, if_pos (by simpa using hkl)] at hkz
        exact hkz
      exact h i hi x y (hkey i x hi hx) (hkey ((i - 1) / 2) y (by omega) hy)
    · intro c x y hc0 hpc h0 hx hy
      omega
    · intro y h0 hy
      omega

/-- In a heap the root slot is minimal (by slot index). -/
theorem heapProp_root_le {α : Type} {l : List (PQItem α)} (h : heapProp l) :
    ∀ (i : Nat) (x y : PQItem α), l[(0 : Nat)]? = some y → l[i]? = some x →
      y.priority ≤ x.priority := by
  intro i
  induction i using Nat.strong_induction_on with
  | _ i ih =>
    intro x y h0 hx
    rcases Nat.eq_zero_or_pos i with rfl | hi
    · rw [h0] at hx
      obtain rfl := Option.some.inj hx
      exact le_refl _
    · have hil := getq_lt hx
      have hpl : (i - 1) / 2 < l.length := by omega
      have hz := getq_of_lt l _ hpl
      have h1 : (l.get ⟨(i - 1) / 2, hpl⟩).priority ≤ x.priority := h i hi x _ hx hz
      have h2 : y.priority ≤ (l.get ⟨(i - 1) / 2, hpl⟩).priority :=
        ih ((i - 1) / 2) (by omega) _ y h0 hz
      omega

/-- In a heap the root is minimal (by membership). -/
theorem heapProp_root_min {α : Type} {mn : PQItem α} {tl : List (PQItem α)}
    (h : heapProp (mn :: tl)) : ∀ it ∈ mn :: tl, mn.priority ≤ it.priority := by
  intro it hit
  obtain ⟨i, hi⟩ := List.mem_iff_getElem?.mp hit
  exact heapProp_root_le h i it mn (by simp) hi

theorem heapProp_nil {α : Type} : heapProp ([] : List (PQItem α)) := by
  intro i hi x y hx hy
  simp at hx

theorem foldl_enqueue_heapProp {α : Type} :
    ∀ (ps : List (α × Nat)) (q : PQueue α), heapProp q.items →
      heapProp (ps.foldl (fun q ep => q.enqueue ep.1 ep.2) q).items := by
  intro ps
  induction ps with
  | nil => intro q h; exact h
  | cons ep ps ih => intro q h; exact ih _ (enqueue_heapProp q ep.1 ep.2 h)

theorem foldl_enqueue_length {α : Type} :
    ∀ (ps : List (α × Nat)) (q : PQueue α),
      (ps.foldl (fun q ep => q.enqueue ep.1 ep.2) q).items.length =
        q.items.length + ps.length := by
  intro ps
  induction ps with
  | nil => intro q; rfl
  | cons ep ps ih =>
    intro q
    rw [List.foldl_cons, ih, enqueue_length]
    simp only [List.length_cons]
    omega

theorem buildQueue_heapProp {α : Type} (ps : List (α × Nat)) :
    heapProp (buildQueue ps).items :=
  foldl_enqueue_heapProp ps PQueue.empty heapProp_nil

theorem buildQueue_length {α : Type} (ps : List (α × Nat)) :
    (buildQueue ps).items.length = ps.length := by
  have := foldl_enqueue_length ps (PQueue.empty : PQueue α)
  simpa [PQueue.empty] using this

/-- Successive roots of a heap are logged in non-decreasing priority order. -/
theorem drainPairs_sorted {α : Type} :
    ∀ (n : Nat) (q : PQueue α), heapProp q.items →
      List.Chain' (fun a b : α × Nat => a.2 ≤ b.2) (drainPairs n q) := by
  intro n
  induction n with
  | zero => intro q h; exact List.chain'_nil
  | succ n ih =>
    intro q h
    cases hq : q.items with
    | nil => simp only [drainPairs, hq]; exact List.chain'_nil
    | cons mn tl =>
      simp only [drainPairs, hq]
      refine List.chain'_cons'.mpr ⟨?_, ih q.dequeue.2 (dequeue_heapProp q h)⟩
      intro y hy
      cases n with
      | zero => simp [drainPairs] at hy
      | succ m =>
        cases hq' : q.dequeue.2.items with
        | nil => simp [drainPairs, hq'] at hy
        | cons mn' tl' =>
          simp only [drainPairs, hq', List.head?_cons, Option.mem_some_iff] at hy
          subst hy
          have hperm := (dequeue_shape q mn tl hq).2
          have hmem : mn' ∈ tl := hperm.mem_iff.mp (by rw [hq']; exact List.mem_cons_self _ _)
          exact heapProp_root_min (hq ▸ h) mn' (List.mem_cons_of_mem _ hmem)

/-- The elements successive `dequeue()` calls return are exactly the elements
of the logged root items. -/
theorem dequeueSeq_eq_drainPairs {α : Type} :
    ∀ (n : Nat) (q : PQueue α),
      dequeueSeq n q = (drainPairs n q).map Prod.fst := by
  intro n
  induction n with
  | zero => intro q; rfl
  | succ n ih =>
    intro q
    cases hq : q.items with
    | nil =>
      have hd := dequeue_nil q hq
      simp only [dequeueSeq, drainPairs, hq, hd, List.map_nil]
    | cons mn tl =>
      have hd1 := (dequeue_shape q mn tl hq).1
      rcases hdq : q.dequeue with ⟨o, q'⟩
      rw [hdq] at hd1
      simp only at hd1
      subst hd1
      simp only [dequeueSeq, drainPairs, hq, hdq, List.map_cons]
      refine congrArg _ ?_
      have : q.dequeue.2 = q' := by rw [hdq]
      rw [← this, ih]

/-- Each nonempty `dequeue` shrinks the heap by one; `n` dequeues empty a heap
of `n` items. -/
theorem dequeueN_items_nil {α : Type} :
    ∀ (n : Nat) (q : PQueue α), q.items.length = n → (dequeueN n q).items = [] := by
  intro n
  induction n with
  | zero =>
    intro q h
    exact List.length_eq_zero.mp h
  | succ n ih =>
    intro q h
    cases hq : q.items with
    | nil => rw [hq] at h; simp at h
    | cons mn tl =>
      show (dequeueN n q.dequeue.2).items = []
      apply ih
      have hperm := (dequeue_shape q mn tl hq).2
      rw [hperm.length_eq]
      rw [hq] at h
      simpa using h

/-! ### Association-list lemmas -/

theorem alookup_mem {β : Type} :
    ∀ {l : List (String × β)} {x : String} {v : β},
      alookup l x = some v → (x, v) ∈ l := by
  intro l
  induction l with
  | nil => intro x v h; exact Option.noConfusion h
  | cons kv rest ih =>
    intro x v h
    rw [alookup] at h
    split_ifs at h with hk
    · obtain rfl := Option.some.inj h
      subst hk
      exact List.mem_cons_self _ _
    · exact List.mem_cons_of_mem _ (ih h)

theorem alookup_isSome_mem {β : Type} :
    ∀ {l : List (String × β)} {x : String},
      (alookup l x).isSome = true → x ∈ l.map Prod.fst := by
  intro l x h
  obtain ⟨v, hv⟩ := Option.isSome_iff_exists.mp h
  have := alookup_mem hv
  exact List.mem_map_of_mem Prod.fst this

theorem alookup_eq_of_mem_nodup {β : Type} :
    ∀ {l : List (String × β)} {x : String} {v : β},
      (l.map Prod.fst).Nodup → (x, v) ∈ l → alookup l x = some v := by
  intro l
  induction l with
  | nil => intro x v _ h; simp at h
  | cons kv rest ih =>
    intro x v hnd h
    rw [List.map_cons, List.nodup_cons] at hnd
    rw [alookup]
    rcases List.mem_cons.mp h with rfl | hmem
    · simp
    · have hne : kv.1 ≠ x := by
        intro hc
        exact hnd.1 (hc ▸ List.mem_map_of_mem Prod.fst hmem)
      rw [if_neg hne]
      exact ih hnd.2 hmem

theorem alookup_mem_isSome {β : Type} {l : List (String × β)} {x : String} {v : β}
    (h : (x, v) ∈ l) : (alookup l x).isSome = true := by
  induction l with
  | nil => simp at h
  | cons kv rest ih =>
    rw [alookup]
    split_ifs with hk
    · rfl
    · rcases List.mem_cons.mp h with rfl | hmem
      · exact absurd rfl hk
      · exact ih hmem

theorem alookup_cons_ne {β : Type} {k x : String} {v : β} {l : List (String × β)}
    (h : k ≠ x) : alookup ((k, v) :: l) x = alookup l x := by
  rw [alookup, if_neg h]

theorem alookup_cons_self {β : Type} {k : String} {v : β} {l : List (String × β)} :
    alookup ((k, v) :: l) k = some v := by
  rw [alookup, if_pos rfl]

/-! ### Path and reachability lemmas -/

theorem pathWeight_append_last (g : Graph) :
    ∀ (l : List String) (u v : String), l.getLast? = some u →
      pathWeight g (l ++ [v]) = pathWeight g l + (edgeCost? g u v).getD 0 := by
  intro l
  induction l with
  | nil => intro u v h; exact Option.noConfusion h
  | cons a t ih =>
    intro u v h
    cases t with
    | nil =>
      simp only [List.getLast?_singleton] at h
      obtain rfl := Option.some.inj h
      simp [pathWeight]
    | cons b t' =>
      have h' : (b :: t').getLast? = some u := by simpa using h
      show pathWeight g (a :: b :: (t' ++ [v])) = _
      rw [pathWeight, show b :: (t' ++ [v]) = (b :: t') ++ [v] by simp,
        ih u v h', pathWeight]
      omega

theorem isPath_singleton (g : Graph) (v : String) : IsPath g v v [v] :=
  ⟨rfl, rfl, List.chain'_singleton v⟩

theorem isPath_append_edge {g : Graph} {s u v : String} {l : List String} {c : Nat}
    (hp : IsPath g s u l) (he : edgeCost? g u v = some c) :
    IsPath g s v (l ++ [v]) := by
  obtain ⟨hh, hl, hc⟩ := hp
  refine ⟨?_, by simp, ?_⟩
  · cases l with
    | nil => exact Option.noConfusion hh
    | cons a t => simpa using hh
  · rw [List.chain'_append]
    refine ⟨hc, List.chain'_singleton v, ?_⟩
    intro x hx y hy
    simp only [List.head?_cons, Option.mem_some_iff] at hy
    subst hy
    rw [hl] at hx
    simp only [Option.mem_some_iff] at hx
    rw [← hx]
    show (edgeCost? g u v).isSome = true
    rw [he]
    rfl

theorem isPath_ne_nil {g : Graph} {s t : String} {l : List String}
    (h : IsPath g s t l) : l ≠ [] := by
  intro hc
  subst hc
  exact Option.noConfusion h.1

theorem reachable_refl (g : Graph) (v : String) : Reachable g v v :=
  Relation.ReflTransGen.refl

theorem reachable_step {g : Graph} {s u v : String} (h : Reachable g s u)
    (he : hasEdge g u v) : Reachable g s v :=
  Relation.ReflTransGen.tail h he

theorem isPath_reachable {g : Graph} :
    ∀ {l : List String} {s t : String}, IsPath g s t l → Reachable g s t := by
  intro l
  induction l with
  | nil => intro s t h; exact absurd rfl (isPath_ne_nil h)
  | cons a rest ih =>
    intro s t h
    obtain ⟨hh, hl, hc⟩ := h
    have has : a = s := by simpa using hh
    cases rest with
    | nil =>
      have hat : a = t := by simpa using hl
      rw [← has, ← hat]
      exact reachable_refl g a
    | cons b rest' =>
      have hc' := List.chain'_cons.mp hc
      have hp2 : IsPath g b t (b :: rest') := ⟨rfl, by simpa using hl, hc'.2⟩
      rw [← has]
      exact Relation.ReflTransGen.head hc'.1 (ih hp2)

theorem reachable_isPath {g : Graph} {s t : String} (h : Reachable g s t) :
    ∃ l, IsPath g s t l := by
  induction h with
  | refl => exact ⟨[s], isPath_singleton g s⟩
  | tail hr he ih =>
    obtain ⟨l, hl⟩ := ih
    obtain ⟨c, hc⟩ := Option.isSome_iff_exists.mp he
    exact ⟨l ++ [_], isPath_append_edge hl hc⟩

/-! ### Predecessor-chain lemmas -/

theorem chainTo_isPath {g : Graph} {parent : List (String × Option String)}
    {start : String} :
    ∀ {v w l}, ChainTo g parent start v w l →
      IsPath g start v l ∧ pathWeight g l = w := by
  intro v w l h
  induction h with
  | base hb => exact ⟨isPath_singleton g start, rfl⟩
  | step hch hlk hec ih =>
    obtain ⟨hp, hw⟩ := ih
    refine ⟨isPath_append_edge hp hec, ?_⟩
    rw [pathWeight_append_last g _ _ _ hp.2.1, hw, hec]
    rfl

theorem chainTo_mem_dom {g : Graph} {parent : List (String × Option String)}
    {start : String} :
    ∀ {v w l}, ChainTo g parent start v w l →
      ∀ x ∈ l, (alookup parent x).isSome = true := by
  intro v w l h
  induction h with
  | base hb =>
    intro x hx
    obtain rfl : x = start := by simpa using hx
    rw [hb]; rfl
  | step hch hlk hec ih =>
    intro x hx
    rcases List.mem_append.mp hx with hx | hx
    · exact ih x hx
    · obtain rfl := by simpa using hx
      rw [hlk]; rfl

theorem chainTo_unique {g : Graph} {parent : List (String × Option String)}
    {start : String} :
    ∀ {v w₁ l₁}, ChainTo g parent start v w₁ l₁ →
      ∀ {w₂ l₂}, ChainTo g parent start v w₂ l₂ → w₁ = w₂ ∧ l₁ = l₂ := by
  intro v w₁ l₁ h₁
  induction h₁ with
  | base hb =>
    intro w₂ l₂ h₂
    cases h₂ with
    | base hb₂ => exact ⟨rfl, rfl⟩
    | step hch₂ hlk₂ hec₂ =>
      rw [hb] at hlk₂
      exact Option.noConfusion (Option.some.inj hlk₂)
  | step hch hlk hec ih =>
    intro w₂ l₂ h₂
    cases h₂ with
    | base hb₂ =>
      rw [hb₂] at hlk
      exact Option.noConfusion (Option.some.inj hlk)
    | step hch₂ hlk₂ hec₂ =>
      rw [hlk] at hlk₂
      obtain rfl := Option.some.inj (Option.some.inj hlk₂)
      rw [hec] at hec₂
      obtain rfl := Option.some.inj hec₂
      obtain ⟨rfl, rfl⟩ := ih hch₂
      exact ⟨rfl, rfl⟩

theorem chainTo_mem_chain {g : Graph} {parent : List (String × Option String)}
    {start : String} :
    ∀ {v w l}, ChainTo g parent start v w l →
      ∀ x ∈ l, ∃ w' l', ChainTo g parent start x w' l' ∧ l' <+: l := by
  intro v w l h
  induction h with
  | base hb =>
    intro x hx
    obtain rfl : x = start := by simpa using hx
    exact ⟨0, [x], ChainTo.base hb, List.prefix_refl _⟩
  | step hch hlk hec ih =>
    intro x hx
    rcases List.mem_append.mp hx with hx | hx
    · obtain ⟨w', l', hc', hpre⟩ := ih x hx
      exact ⟨w', l', hc', hpre.trans (List.prefix_append _ _)⟩
    · obtain rfl := by simpa using hx
      exact ⟨_, _, ChainTo.step hch hlk hec, List.prefix_refl _⟩

theorem chainTo_nodup {g : Graph} {parent : List (String × Option String)}
    {start : String} :
    ∀ {v w l}, ChainTo g parent start v w l → l.Nodup := by
  intro v w l h
  induction h with
  | base hb => simp
  | step hch hlk hec ih =>
    rename_i u v c w l
    rw [List.nodup_append]
    refine ⟨ih, List.nodup_singleton v, ?_⟩
    intro x hx hx'
    obtain rfl : x = v := by simpa using hx'
    obtain ⟨w', l', hc', hpre⟩ := chainTo_mem_chain hch x hx
    have := chainTo_unique hc' (ChainTo.step hch hlk hec)
    obtain ⟨-, rfl⟩ := this
    have hle := hpre.length_le
    simp at hle

/-- The reconstruction walk reproduces a grounded chain whenever the fuel is at
least the chain's length. -/
theorem walkChain_eq {g : Graph} {parent : List (String × Option String)}
    {start : String} :
    ∀ {v w l}, ChainTo g parent start v w l →
      ∀ (fuel : Nat) (acc : List String), l.length ≤ fuel →
        walkChain parent fuel v acc = l ++ acc := by
  intro v w l h
  induction h with
  | base hb =>
    intro fuel acc hf
    cases fuel with
    | zero => simp at hf
    | succ f =>
      rw [walkChain, hb]
      rfl
  | step hch hlk hec ih =>
    rename_i u' v' c' w' l'
    intro fuel acc hf
    cases fuel with
    | zero => simp at hf
    | succ f =>
      have hlen : l'.length ≤ f := by
        simp only [List.length_append, List.length_cons, List.length_nil] at hf
        omega
      rw [walkChain, hlk]
      show walkChain parent f u' (v' :: acc) = (l' ++ [v']) ++ acc
      rw [ih f _ hlen]
      simp

/-- A grounded chain has length at most the number of parent entries. -/
theorem chainTo_length_le {g : Graph} {parent : List (String × Option String)}
    {start : String} {v : String} {w : Nat} {l : List String}
    (h : ChainTo g parent start v w l) : l.length ≤ parent.length := by
  have hnd := chainTo_nodup h
  have hsub : l ⊆ parent.map Prod.fst := by
    intro x hx
    exact alookup_isSome_mem (chainTo_mem_dom h x hx)
  have := (List.subperm_of_subset hnd hsub).length_le
  simpa using this

/-- Adding a binding for a fresh key preserves every grounded chain. -/
theorem chainTo_cons_fresh {g : Graph} {parent : List (String × Option String)}
    {start : String} {k : String} {o : Option String}
    (hk : alookup parent k = none) :
    ∀ {v w l}, ChainTo g parent start v w l →
      ChainTo g ((k, o) :: parent) start v w l := by
  intro v w l h
  induction h with
  | base hb =>
    refine ChainTo.base ?_
    rw [alookup_cons_ne ?_, hb]
    intro hc
    rw [hc, hb] at hk
    exact Option.noConfusion hk
  | step hch hlk hec ih =>
    refine ChainTo.step ih ?_ hec
    rw [alookup_cons_ne ?_, hlk]
    intro hc
    rw [hc, hlk] at hk
    exact Option.noConfusion hk

theorem chainTo_self_mem {g : Graph} {parent : List (String × Option String)}
    {start : String} :
    ∀ {v w l}, ChainTo g parent start v w l → v ∈ l := by
  intro v w l h
  cases h with
  | base hb => simp
  | step hch hlk hec => simp

/-! ### Neighbor-list lemmas -/

theorem mem_getNeighbors_edge {g : Graph} {u : String} {nb : String × Nat × Nat}
    (h : nb ∈ getNeighbors g u) :
    (nb.1, nb.2.1) ∈ (alookup g.edges u).getD [] ∧ nb.2.2 = hFor g nb.1 := by
  unfold getNeighbors at h
  obtain ⟨e, he, heq⟩ := List.mem_map.mp h
  obtain rfl := heq.symm
  simpa using he

theorem mem_getNeighbors_hasEdge {g : Graph} {u : String} {nb : String × Nat × Nat}
    (h : nb ∈ getNeighbors g u) : hasEdge g u nb.1 := by
  have := (mem_getNeighbors_edge h).1
  exact alookup_mem_isSome this

theorem edges_entry_of_hasEdge {g : Graph} {u v : String} (h : hasEdge g u v) :
    ∃ adjl, alookup g.edges u = some adjl ∧ (alookup adjl v).isSome = true := by
  unfold hasEdge edgeCost? at h
  cases ha : alookup g.edges u with
  | none => rw [ha] at h; simp [alookup] at h
  | some adjl => rw [ha] at h; exact ⟨adjl, rfl, h⟩

theorem hasEdge_node {g : Graph} (hwf : Wf g) {u v : String} (h : hasEdge g u v) :
    hasNode g v := by
  obtain ⟨adjl, hadj, hv⟩ := edges_entry_of_hasEdge h
  obtain ⟨c, hc⟩ := Option.isSome_iff_exists.mp hv
  have hmem := alookup_mem hadj
  have hvmem := alookup_mem hc
  exact (hwf.2.2 (u, adjl) hmem).2.2 (v, c) hvmem

/-- Under well-formedness, the cost carried by a neighbor entry is the store's
edge cost. -/
theorem mem_getNeighbors_cost {g : Graph} (hwf : Wf g) {u : String}
    {nb : String × Nat × Nat} (h : nb ∈ getNeighbors g u) :
    edgeCost? g u nb.1 = some nb.2.1 := by
  have hmem := (mem_getNeighbors_edge h).1
  unfold edgeCost?
  cases ha : alookup g.edges u with
  | none => rw [ha] at hmem; simp at hmem
  | some adjl =>
    rw [ha] at hmem
    simp only [Option.getD_some] at hmem ⊢
    have hadj := alookup_mem ha
    exact alookup_eq_of_mem_nodup (hwf.2.2 (u, adjl) hadj).2.1 hmem

/-! ### Result-builder lemmas -/

theorem find?_neighbors (g : Graph) (a b : String) :
    (getNeighbors g a).find? (fun nb => nb.1 == b) =
      (edgeCost? g a b).map (fun c => (b, c, hFor g b)) := by
  unfold getNeighbors edgeCost?
  induction (alookup g.edges a).getD [] with
  | nil => rfl
  | cons e rest ih =>
    rw [List.map_cons, List.find?_cons, alookup]
    by_cases hb : e.1 = b
    · subst hb
      simp
    · rw [if_neg hb]
      have : ((e.1, e.2, hFor g e.1).1 == b) = false := by
        simp [hb]
      rw [this]
      exact ih

theorem pathCostSum_go (g : Graph) :
    ∀ (p : List String) (acc : Nat),
      (p.zip p.tail).foldl
        (fun acc q =>
          match (getNeighbors g q.1).find? (fun nb => nb.1 == q.2) with
          | some nb => acc + nb.2.1
          | none => acc) acc = acc + pathWeight g p := by
  intro p
  induction p with
  | nil => intro acc; simp [pathWeight]
  | cons a t ih =>
    intro acc
    cases t with
    | nil => simp [pathWeight]
    | cons b rest =>
      show List.foldl _ _ ((a, b) :: (b :: rest).zip rest) = _
      rw [List.foldl_cons]
      simp only [List.tail_cons] at ih
      rw [ih]
      have hstep :
          (match (getNeighbors g a).find? (fun nb => nb.1 == b) with
           | some nb => acc + nb.2.1
           | none => acc) = acc + (edgeCost? g a b).getD 0 := by
        rw [find?_neighbors]
        cases edgeCost? g a b <;> simp
      rw [hstep, pathWeight]
      omega

theorem pathCostSum_eq_pathWeight (g : Graph) (p : List String) :
    pathCostSum g p = pathWeight g p := by
  unfold pathCostSum
  rw [pathCostSum_go]
  omega

theorem buildResult_notfound (g : Graph) (s t : String)
    (parent : List (String × Option String)) (explored : List String)
    (cm : Option (List (String × Nat))) :
    buildResult g s t parent explored false cm =
      ⟨false, [], 0, explored.length, explored⟩ := by
  unfold buildResult
  simp

/-- When the goal's predecessor chain is grounded, the found-result's fields:
the path is the chain, and the cost is the cost map's goal entry (or the
chain's weight when no cost map is supplied). -/
theorem buildResult_found {g : Graph} {start goal : String}
    {parent : List (String × Option String)} {explored : List String}
    {cm : Option (List (String × Nat))} {w : Nat} {l : List String}
    (hch : ChainTo g parent start goal w l) :
    (buildResult g start goal parent explored true cm).found = true ∧
    (buildResult g start goal parent explored true cm).path = l ∧
    (buildResult g start goal parent explored true cm).exploredOrder = explored ∧
    (buildResult g start goal parent explored true cm).nodesExplored =
      explored.length ∧
    (buildResult g start goal parent explored true cm).pathCost =
      (match cm with
       | some m => (alookup m goal).getD 0
       | none => pathWeight g l) := by
  have hsome : (alookup parent goal).isSome = true :=
    chainTo_mem_dom hch goal (chainTo_self_mem hch)
  have hpath : walkChain parent (parent.length + 1) goal [] = l := by
    rw [walkChain_eq hch _ _ (le_trans (chainTo_length_le hch) (Nat.le_succ _))]
    simp
  unfold buildResult
  rw [hsome]
  simp only [Bool.and_true, if_pos rfl, hpath]
  refine ⟨rfl, rfl, rfl, rfl, ?_⟩
  cases cm with
  | none => exact pathCostSum_eq_pathWeight g l
  | some m => rfl

/-! ### Measure lemmas -/

theorem filter_ne_length_lt {y : String} :
    ∀ {m : List String}, y ∈ m →
      (m.filter (fun x => decide (x ≠ y))).length < m.length := by
  intro m hm
  induction m with
  | nil => simp at hm
  | cons a t ih =>
    rw [List.filter_cons]
    by_cases hay : a = y
    · rw [if_neg (by simp [hay])]
      have := List.length_filter_le (fun x => decide (x ≠ y)) t
      simp only [List.length_cons]
      omega
    · rw [if_pos (by simp [hay])]
      rcases List.mem_cons.mp hm with rfl | hm'
      · exact absurd rfl hay
      · simp only [List.length_cons]
        exact Nat.succ_lt_succ (ih hm')

theorem unvisited_filter_eq (g : Graph) (start y : String) (visited : List String) :
    ((candList g start).dedup).filter (fun x => decide (x ∉ y :: visited)) =
      (((candList g start).dedup).filter (fun x => decide (x ∉ visited))).filter
        (fun x => decide (x ≠ y)) := by
  rw [List.filter_filter]
  apply List.filter_congr
  intro x hx
  by_cases h1 : x = y <;> by_cases h2 : x ∈ visited <;> simp [h1, h2]

theorem unvisitedCount_cons_le (g : Graph) (start y : String)
    (visited : List String) :
    unvisitedCount g start (y :: visited) ≤ unvisitedCount g start visited := by
  unfold unvisitedCount
  rw [unvisited_filter_eq]
  exact List.length_filter_le _ _

theorem unvisitedCount_cons_lt (g : Graph) (start y : String)
    (visited : List String) (hy : y ∈ candList g start) (hnv : y ∉ visited) :
    unvisitedCount g start (y :: visited) < unvisitedCount g start visited := by
  unfold unvisitedCount
  rw [unvisited_filter_eq]
  apply filter_ne_length_lt
  rw [List.mem_filter]
  exact ⟨List.mem_dedup.mpr hy, by simp [hnv]⟩

theorem mem_edges_foldr {u v : String} {c : Nat} :
    ∀ (es : List (String × List (String × Nat))) (adjl : List (String × Nat)),
      (u, adjl) ∈ es → (v, c) ∈ adjl →
      v ∈ es.foldr (fun p acc => p.2.map Prod.fst ++ acc) [] := by
  intro es
  induction es with
  | nil => intro adjl h; simp at h
  | cons e rest ih =>
    intro adjl hmem hv
    rw [List.foldr_cons]
    rcases List.mem_cons.mp hmem with he | hmem'
    · rw [← he]
      exact List.mem_append_left _ (List.mem_map_of_mem Prod.fst hv)
    · exact List.mem_append_right _ (ih adjl hmem' hv)

theorem mem_candList_of_edge {g : Graph} {u v : String} {c : Nat}
    (hadj : (v, c) ∈ (alookup g.edges u).getD []) (start : String) :
    v ∈ candList g start := by
  unfold candList
  apply List.mem_cons_of_mem
  cases ha : alookup g.edges u with
  | none => rw [ha] at hadj; simp at hadj
  | some adjl =>
    rw [ha] at hadj
    simp only [Option.getD_some] at hadj
    exact mem_edges_foldr g.edges adjl (alookup_mem ha) hadj

/-- Neighbor entries come from candidate vertices (for the loop measures). -/
theorem mem_candList_of_neighbor {g : Graph} {u : String} {nb : String × Nat × Nat}
    (h : nb ∈ getNeighbors g u) (start : String) : nb.1 ∈ candList g start :=
  mem_candList_of_edge (mem_getNeighbors_edge h).1 start

/-! ### BFS verification -/

/-- One pass of `bfs`'s neighbor loop preserves the core invariant, leaves the
explored order unchanged, only grows the visited set, ends with every
processed neighbor visited, and does not increase the measure. -/
theorem bfsVisit_fold (g : Graph) (start goal current : String) (hwf : Wf g)
    (hreach : Reachable g start current) :
    ∀ (nbs : List (String × Nat × Nat)), (∀ nb ∈ nbs, nb ∈ getNeighbors g current) →
      ∀ (acc : BfsState), BfsCore g start goal acc → current ∈ acc.visited →
        BfsCore g start goal (nbs.foldl (bfsVisit current) acc) ∧
        (nbs.foldl (bfsVisit current) acc).exploredOrder = acc.exploredOrder ∧
        (∀ x ∈ acc.visited, x ∈ (nbs.foldl (bfsVisit current) acc).visited) ∧
        (∀ nb ∈ nbs, nb.1 ∈ (nbs.foldl (bfsVisit current) acc).visited) ∧
        bfsMeasure g start (nbs.foldl (bfsVisit current) acc) ≤
          bfsMeasure g start acc := by
  intro nbs
  induction nbs with
  | nil =>
    intro _ acc hc _
    exact ⟨hc, rfl, fun x hx => hx, by simp, le_refl _⟩
  | cons nb rest ih =>
    intro hmem acc hc hcur
    rw [List.foldl_cons]
    have hnb := hmem nb (List.mem_cons_self _ _)
    have hstep : BfsCore g start goal (bfsVisit current acc nb) ∧
        (bfsVisit current acc nb).exploredOrder = acc.exploredOrder ∧
        (∀ x ∈ acc.visited, x ∈ (bfsVisit current acc nb).visited) ∧
        nb.1 ∈ (bfsVisit current acc nb).visited ∧
        current ∈ (bfsVisit current acc nb).visited ∧
        bfsMeasure g start (bfsVisit current acc nb) ≤ bfsMeasure g start acc := by
      unfold bfsVisit
      by_cases hv : nb.1 ∈ acc.visited
      · rw [if_pos hv]
        exact ⟨hc, rfl, fun x hx => hx, hv, hcur, le_refl _⟩
      · rw [if_neg hv]
        have hkfresh : alookup acc.parent nb.1 = none := by
          rcases hh : alookup acc.parent nb.1 with _ | p
          · rfl
          · exact absurd ((hc.dom nb.1).mpr (by rw [hh]; rfl)) hv
        have hedge := mem_getNeighbors_hasEdge hnb
        refine ⟨?_, rfl, ?_, ?_, ?_, ?_⟩
        · constructor
          · intro x hx
            rcases List.mem_append.mp hx with hx | hx
            · exact List.mem_cons_of_mem _ (hc.queue_sub x hx)
            · obtain rfl : x = nb.1 := by simpa using hx
              exact List.mem_cons_self _ _
          · intro x
            constructor
            · intro hx
              rcases List.mem_cons.mp hx with rfl | hx
              · exact Or.inr (List.mem_append_right _ (by simp))
              · rcases (hc.visited_eq x).mp hx with hh | hh
                · exact Or.inl hh
                · exact Or.inr (List.mem_append_left _ hh)
            · intro hx
              rcases hx with hh | hh
              · exact List.mem_cons_of_mem _ ((hc.visited_eq x).mpr (Or.inl hh))
              · rcases List.mem_append.mp hh with hh | hh
                · exact List.mem_cons_of_mem _ ((hc.visited_eq x).mpr (Or.inr hh))
                · obtain rfl : x = nb.1 := by simpa using hh
                  exact List.mem_cons_self _ _
          · exact hc.explored_nodup
          · refine List.Nodup.append hc.queue_nodup (List.nodup_singleton _) ?_
            intro x hx hx'
            obtain rfl : x = nb.1 := by simpa using hx'
            exact hv (hc.queue_sub nb.1 hx)
          · intro x hx hmemq
            rcases List.mem_append.mp hmemq with hh | hh
            · exact hc.disj x hx hh
            · obtain rfl : x = nb.1 := by simpa using hh
              exact hv ((hc.visited_eq nb.1).mpr (Or.inl hx))
          · intro x hx
            rcases List.mem_cons.mp hx with rfl | hx
            · exact reachable_step hreach hedge
            · exact hc.reach x hx
          · intro x hx
            rcases List.mem_cons.mp hx with rfl | hx
            · exact hasEdge_node hwf hedge
            · exact hc.node x hx
          · exact hc.goal_not
          · intro x
            by_cases hxn : x = nb.1
            · subst hxn
              constructor
              · intro _
                rw [alookup_cons_self]
                rfl
              · intro _
                exact List.mem_cons_self _ _
            · rw [alookup_cons_ne (fun hc' => hxn hc'.symm)]
              constructor
              · intro hx
                rcases List.mem_cons.mp hx with rfl | hx
                · exact absurd rfl hxn
                · exact (hc.dom x).mp hx
              · intro hx
                exact List.mem_cons_of_mem _ ((hc.dom x).mpr hx)
          · exact List.mem_cons_of_mem _ hc.start_vis
          · intro x hx
            rcases List.mem_cons.mp hx with rfl | hx
            · obtain ⟨w, l, hch⟩ := hc.chain current hcur
              have hch' : ChainTo g ((nb.1, some current) :: acc.parent) start current w l :=
                chainTo_cons_fresh hkfresh hch
              refine ⟨w + nb.2.1, l ++ [nb.1], ChainTo.step hch' ?_ ?_⟩
              · exact alookup_cons_self
              · exact mem_getNeighbors_cost hwf hnb
            · obtain ⟨w, l, hch⟩ := hc.chain x hx
              exact ⟨w, l, chainTo_cons_fresh hkfresh hch⟩
        · intro x hx
          exact List.mem_cons_of_mem _ hx
        · exact List.mem_cons_self _ _
        · exact List.mem_cons_of_mem _ hcur
        · show (acc.queue ++ [nb.1]).length + 2 * unvisitedCount g start (nb.1 :: acc.visited) ≤
            acc.queue.length + 2 * unvisitedCount g start acc.visited
          have hlt := unvisitedCount_cons_lt g start nb.1 acc.visited
            (mem_candList_of_neighbor hnb start) hv
          simp only [List.length_append, List.length_cons, List.length_nil]
          omega
    obtain ⟨hc₁, he₁, hm₁, hv₁, hcur₁, hM₁⟩ := hstep
    obtain ⟨hc', he', hm', hall', hM'⟩ :=
      ih (fun nb' hnb' => hmem _ (List.mem_cons_of_mem _ hnb')) _ hc₁ hcur₁
    refine ⟨hc', by rw [he', he₁], fun x hx => hm' _ (hm₁ _ hx), ?_, le_trans hM' hM₁⟩
    intro nb' hnb'
    rcases List.mem_cons.mp hnb' with rfl | hmem'
    · exact hm' _ hv₁
    · exact hall' _ hmem'

/-- The `bfs` loop terminates within the measure bound and its result
satisfies the soundness/completeness facts every claim about BFS needs. -/
theorem bfsLoop_spec (g : Graph) (start goal : String) (hwf : Wf g) :
    ∀ (fuel : Nat) (st : BfsState), BfsInv g start goal st →
      bfsMeasure g start st < fuel →
      ∃ r, bfsLoop g start goal fuel st = some r ∧
        r.exploredOrder.Nodup ∧
        (∀ x ∈ r.exploredOrder, Reachable g start x) ∧
        (∀ x ∈ r.exploredOrder, hasNode g x) ∧
        r.nodesExplored = r.exploredOrder.length ∧
        (r.found = true → goal ∈ r.exploredOrder ∧ IsPath g start goal r.path ∧
          r.pathCost = pathWeight g r.path) ∧
        (r.found = false → r.path = [] ∧ r.pathCost = 0 ∧ goal ∉ r.exploredOrder ∧
          ∀ x, Reachable g start x → x ∈ r.exploredOrder) := by
  intro fuel
  induction fuel with
  | zero => intro st hinv hm; omega
  | succ fuel ih =>
    intro st hinv hm
    obtain ⟨hc, hclosed⟩ := hinv
    cases hq : st.queue with
    | nil =>
      have hstep : bfsLoop g start goal (fuel + 1) st =
          some (buildResult g start goal st.parent st.exploredOrder false none) := by
        simp only [bfsLoop, hq]
      rw [buildResult_notfound] at hstep
      have hve : ∀ y, y ∈ st.visited ↔ y ∈ st.exploredOrder := by
        intro y
        rw [hc.visited_eq y, hq]
        simp
      refine ⟨_, hstep, hc.explored_nodup, ?_, ?_, rfl, ?_, ?_⟩
      · intro x hx
        exact hc.reach x ((hve x).mpr hx)
      · intro x hx
        exact hc.node x ((hve x).mpr hx)
      · intro h
        exact absurd h (by simp)
      · intro _
        refine ⟨rfl, rfl, hc.goal_not, ?_⟩
        intro x hx
        induction hx with
        | refl => exact (hve start).mp hc.start_vis
        | tail hru hredge ihx =>
          rename_i u x'
          obtain ⟨adjl, ha, hvsome⟩ := edges_entry_of_hasEdge hredge
          obtain ⟨c, hcc⟩ := Option.isSome_iff_exists.mp hvsome
          have hnbmem : (x', c, hFor g x') ∈ getNeighbors g u := by
            unfold getNeighbors
            rw [ha]
            exact List.mem_map_of_mem _ (alookup_mem hcc)
          exact (hve x').mp (hclosed u ihx _ hnbmem)
    | cons current rest =>
      have hcurq : current ∈ st.queue := by
        rw [hq]
        exact List.mem_cons_self _ _
      have hcurv : current ∈ st.visited := hc.queue_sub current hcurq
      have hcne : current ∉ st.exploredOrder := fun hx => hc.disj current hx hcurq
      by_cases hg : current = goal
      · obtain ⟨w, l, hch⟩ := hc.chain current hcurv
        have hchg : ChainTo g st.parent start goal w l := hg ▸ hch
        obtain ⟨hf, hp, he, hn, hcost⟩ :=
          @buildResult_found g start goal st.parent (st.exploredOrder ++ [current])
            none w l hchg
        have hstep : bfsLoop g start goal (fuel + 1) st =
            some (buildResult g start goal st.parent (st.exploredOrder ++ [current])
              true none) := by
          simp only [bfsLoop, hq, if_pos hg]
        refine ⟨_, hstep, ?_, ?_, ?_, ?_, ?_, ?_⟩
        · rw [he]
          simp [List.nodup_append, hc.explored_nodup, hcne]
        · rw [he]
          intro x hx
          rcases List.mem_append.mp hx with hx | hx
          · exact hc.reach x ((hc.visited_eq x).mpr (Or.inl hx))
          · obtain rfl : x = current := by simpa using hx
            exact hc.reach _ hcurv
        · rw [he]
          intro x hx
          rcases List.mem_append.mp hx with hx | hx
          · exact hc.node x ((hc.visited_eq x).mpr (Or.inl hx))
          · obtain rfl : x = current := by simpa using hx
            exact hc.node _ hcurv
        · rw [hn, he]
        · intro _
          refine ⟨?_, ?_, ?_⟩
          · rw [he]
            exact List.mem_append_right _ (by simp [hg])
          · rw [hp]
            exact (chainTo_isPath hchg).1
          · rw [hcost, hp]
        · intro h
          rw [hf] at h
          exact absurd h (by simp)
      · have hreach : Reachable g start current := hc.reach current hcurv
        have hqnodup : (current :: rest).Nodup := hq ▸ hc.queue_nodup
        set st1 : BfsState :=
          { st with queue := rest, exploredOrder := st.exploredOrder ++ [current] }
        set st2 : BfsState := (getNeighbors g current).foldl (bfsVisit current) st1
        have hcore₀ : BfsCore g start goal st1 := by
          constructor
          · intro x hx
            exact hc.queue_sub x (by rw [hq]; exact List.mem_cons_of_mem _ hx)
          · intro x
            rw [hc.visited_eq x, hq]
            simp only [List.mem_append, List.mem_cons, List.mem_singleton]
            tauto
          · simp [List.nodup_append, hc.explored_nodup, hcne]
          · exact (List.nodup_cons.mp hqnodup).2
          · intro x hx
            rcases List.mem_append.mp hx with hx | hx
            · intro hmemr
              exact hc.disj x hx (by rw [hq]; exact List.mem_cons_of_mem _ hmemr)
            · obtain rfl : x = current := by simpa using hx
              exact (List.nodup_cons.mp hqnodup).1
          · exact hc.reach
          · exact hc.node
          · simp only [List.mem_append, List.mem_singleton]
            push_neg
            exact ⟨hc.goal_not, fun hcg => hg hcg.symm⟩
          · exact hc.dom
          · exact hc.start_vis
          · exact hc.chain
        obtain ⟨hcore', hexp', hmono', hall', hM'⟩ :=
          bfsVisit_fold g start goal current hwf hreach (getNeighbors g current)
            (fun nb h => h) st1 hcore₀ hcurv
        have hclosed' : ∀ x ∈ st2.exploredOrder, ∀ nb ∈ getNeighbors g x,
            nb.1 ∈ st2.visited := by
          rw [show st2.exploredOrder = st1.exploredOrder from hexp']
          intro x hx nb hnb
          rcases List.mem_append.mp hx with hx | hx
          · exact hmono' _ (hclosed x hx nb hnb)
          · obtain rfl : x = current := by simpa using hx
            exact hall' nb hnb
        have hm' : bfsMeasure g start st2 < fuel := by
          have h₀ : bfsMeasure g start st1 + 1 = bfsMeasure g start st := by
            unfold bfsMeasure
            rw [hq]
            simp only [List.length_cons]
            omega
          have hM2 : bfsMeasure g start st2 ≤ bfsMeasure g start st1 := hM'
          omega
        obtain ⟨r, hr, hposts⟩ := ih st2 ⟨hcore', hclosed'⟩ hm'
        refine ⟨r, ?_, hposts⟩
        simp only [bfsLoop, hq, if_neg hg]
        exact hr

theorem unvisitedCount_le (g : Graph) (start : String) (visited : List String) :
    unvisitedCount g start visited ≤ (candList g start).dedup.length :=
  List.length_filter_le _ _

/-- The fuel supplied by the entry points dominates every loop measure. -/
theorem searchFuel_big (g : Graph) (start : String) :
    (edgeTotal g + 1) * (candList g start).dedup.length + 2 < searchFuel g start ∧
    2 * (candList g start).dedup.length + 2 < searchFuel g start := by
  unfold searchFuel
  have h : (edgeTotal g + 2) * ((candList g start).dedup.length + 2) =
      (edgeTotal g + 1) * (candList g start).dedup.length +
        (candList g start).dedup.length + 2 * edgeTotal g + 4 := by ring
  have hba : (candList g start).dedup.length ≤
      (edgeTotal g + 1) * (candList g start).dedup.length :=
    Nat.le_mul_of_pos_left _ (by omega)
  omega

/-- Facts about a completed `bfs` run: the loop returns within the supplied
fuel, and the result satisfies the BFS soundness/completeness properties. -/
theorem bfs_spec (g : Graph) (start goal : String) (hwf : Wf g)
    (hstart : hasNode g start) :
    bfsLoop g start goal (searchFuel g start)
        ⟨[start], [start], [(start, none)], []⟩ = some (bfs g start goal) ∧
    (bfs g start goal).exploredOrder.Nodup ∧
    (∀ x ∈ (bfs g start goal).exploredOrder, Reachable g start x) ∧
    (∀ x ∈ (bfs g start goal).exploredOrder, hasNode g x) ∧
    (bfs g start goal).nodesExplored = (bfs g start goal).exploredOrder.length ∧
    ((bfs g start goal).found = true → goal ∈ (bfs g start goal).exploredOrder ∧
      IsPath g start goal (bfs g start goal).path ∧
      (bfs g start goal).pathCost = pathWeight g (bfs g start goal).path) ∧
    ((bfs g start goal).found = false → (bfs g start goal).path = [] ∧
      (bfs g start goal).pathCost = 0 ∧ goal ∉ (bfs g start goal).exploredOrder ∧
      ∀ x, Reachable g start x → x ∈ (bfs g start goal).exploredOrder) := by
  have hinv : BfsInv g start goal ⟨[start], [start], [(start, none)], []⟩ := by
    refine ⟨?_, ?_⟩
    · constructor
      · intro x hx; exact hx
      · intro x; simp
      · simp
      · simp
      · intro x hx; simp at hx
      · intro x hx
        obtain rfl : x = start := by simpa using hx
        exact reachable_refl g x
      · intro x hx
        obtain rfl : x = start := by simpa using hx
        exact hstart
      · simp
      · intro x
        by_cases hxs : x = start
        · subst hxs
          simp [alookup_cons_self]
        · constructor
          · intro hx
            exact absurd (by simpa using hx) hxs
          · intro hx
            rw [alookup_cons_ne (fun hcc => hxs hcc.symm)] at hx
            simp [alookup] at hx
      · simp
      · intro x hx
        obtain rfl : x = start := by simpa using hx
        exact ⟨0, [x], ChainTo.base alookup_cons_self⟩
    · intro x hx; simp at hx
  have hm : bfsMeasure g start ⟨[start], [start], [(start, none)], []⟩ <
      searchFuel g start := by
    have h1 := unvisitedCount_le g start [start]
    have h2 := searchFuel_big g start
    show 1 + 2 * unvisitedCount g start [start] < searchFuel g start
    omega
  obtain ⟨r, hr, hposts⟩ :=
    bfsLoop_spec g start goal hwf (searchFuel g start) _ hinv hm
  have hb : bfs g start goal = r := by
    unfold bfs
    rw [hr]
    rfl
  rw [hb]
  exact ⟨hr, hposts⟩

/-! ### DFS verification -/

theorem alookup_isSome_cons {β : Type} {k x : String} {v : β}
    {l : List (String × β)} (h : (alookup l x).isSome = true) :
    (alookup ((k, v) :: l) x).isSome = true := by
  by_cases hk : k = x
  · subst hk
    rw [alookup_cons_self]
    rfl
  · rw [alookup_cons_ne hk]
    exact h

/-- A single adjacency list is no longer than the total entry count. -/
theorem neighbors_length_le (g : Graph) (u : String) :
    (getNeighbors g u).length ≤ edgeTotal g := by
  unfold getNeighbors edgeTotal
  rw [List.length_map]
  cases ha : alookup g.edges u with
  | none => simp
  | some adjl =>
    simp only [Option.getD_some]
    have hmem : adjl.length ∈ g.edges.map (fun p => p.2.length) :=
      List.mem_map_of_mem _ (alookup_mem ha)
    exact List.single_le_sum (fun x _ => Nat.zero_le x) _ hmem

/-- One pass of `dfs`'s neighbor loop preserves the core invariant, leaves
visited and explored unchanged, pushes at most one entry per neighbor, keeps
old stack entries, leaves every processed neighbor visited or stacked, and
only adds parent bindings. -/
theorem dfsVisit_fold (g : Graph) (start goal current : String) (hwf : Wf g)
    (hreach : Reachable g start current) :
    ∀ (nbs : List (String × Nat × Nat)), (∀ nb ∈ nbs, nb ∈ getNeighbors g current) →
      ∀ (acc : DfsState), DfsCore g start goal acc →
        (alookup acc.parent current).isSome = true →
        DfsCore g start goal (nbs.foldl (dfsVisit current) acc) ∧
        (nbs.foldl (dfsVisit current) acc).visited = acc.visited ∧
        (nbs.foldl (dfsVisit current) acc).exploredOrder = acc.exploredOrder ∧
        (nbs.foldl (dfsVisit current) acc).stack.length ≤
          acc.stack.length + nbs.length ∧
        (∀ x ∈ acc.stack, x ∈ (nbs.foldl (dfsVisit current) acc).stack) ∧
        (∀ nb ∈ nbs, nb.1 ∈ (nbs.foldl (dfsVisit current) acc).visited ∨
          nb.1 ∈ (nbs.foldl (dfsVisit current) acc).stack) ∧
        (∀ x, (alookup acc.parent x).isSome = true →
          (alookup (nbs.foldl (dfsVisit current) acc).parent x).isSome = true) := by
  intro nbs
  induction nbs with
  | nil =>
    intro _ acc hc _
    exact ⟨hc, rfl, rfl, by simp, fun x hx => hx, by simp, fun x hx => hx⟩
  | cons nb rest ih =>
    intro hmem acc hc hcd
    rw [List.foldl_cons]
    have hnb := hmem nb (List.mem_cons_self _ _)
    have hedge := mem_getNeighbors_hasEdge hnb
    have hstep : DfsCore g start goal (dfsVisit current acc nb) ∧
        (dfsVisit current acc nb).visited = acc.visited ∧
        (dfsVisit current acc nb).exploredOrder = acc.exploredOrder ∧
        (dfsVisit current acc nb).stack.length ≤ acc.stack.length + 1 ∧
        (∀ x ∈ acc.stack, x ∈ (dfsVisit current acc nb).stack) ∧
        (nb.1 ∈ (dfsVisit current acc nb).visited ∨
          nb.1 ∈ (dfsVisit current acc nb).stack) ∧
        (∀ x, (alookup acc.parent x).isSome = true →
          (alookup (dfsVisit current acc nb).parent x).isSome = true) := by
      unfold dfsVisit
      by_cases hv : nb.1 ∈ acc.visited
      · rw [if_pos hv]
        exact ⟨hc, rfl, rfl, Nat.le_succ _, fun x hx => hx, Or.inl hv,
          fun x hx => hx⟩
      · rw [if_neg hv]
        by_cases hp : (alookup acc.parent nb.1).isSome = true
        · rw [if_pos hp]
          refine ⟨?_, rfl, rfl, by simp, ?_, ?_, fun x hx => hx⟩
          · constructor
            · intro x hx
              rcases List.mem_cons.mp hx with rfl | hx
              · exact reachable_step hreach hedge
              · exact hc.stack_reach x hx
            · intro x hx
              rcases List.mem_cons.mp hx with rfl | hx
              · exact hasEdge_node hwf hedge
              · exact hc.stack_node x hx
            · intro x hx
              rcases List.mem_cons.mp hx with rfl | hx
              · exact mem_candList_of_neighbor hnb start
              · exact hc.stack_cand x hx
            · intro x hx
              rcases List.mem_cons.mp hx with rfl | hx
              · exact hp
              · exact hc.stack_dom x hx
            · exact hc.visited_eq
            · exact hc.explored_nodup
            · exact hc.exp_reach
            · exact hc.exp_node
            · exact hc.goal_not
            · rcases hc.start_in with hs | hs
              · exact Or.inl hs
              · exact Or.inr (List.mem_cons_of_mem _ hs)
            · exact hc.chain_dom
          · intro x hx
            exact List.mem_cons_of_mem _ hx
          · exact Or.inr (List.mem_cons_self _ _)
        · have hpn : alookup acc.parent nb.1 = none := by
            rcases hh : alookup acc.parent nb.1 with _ | p
            · rfl
            · exact absurd (by rw [hh]; rfl) hp
          rw [if_neg hp]
          refine ⟨?_, rfl, rfl, by simp, ?_, ?_, ?_⟩
          · constructor
            · intro x hx
              rcases List.mem_cons.mp hx with rfl | hx
              · exact reachable_step hreach hedge
              · exact hc.stack_reach x hx
            · intro x hx
              rcases List.mem_cons.mp hx with rfl | hx
              · exact hasEdge_node hwf hedge
              · exact hc.stack_node x hx
            · intro x hx
              rcases List.mem_cons.mp hx with rfl | hx
              · exact mem_candList_of_neighbor hnb start
              · exact hc.stack_cand x hx
            · intro x hx
              rcases List.mem_cons.mp hx with rfl | hx
              · rw [alookup_cons_self]
                rfl
              · exact alookup_isSome_cons (hc.stack_dom x hx)
            · exact hc.visited_eq
            · exact hc.explored_nodup
            · exact hc.exp_reach
            · exact hc.exp_node
            · exact hc.goal_not
            · rcases hc.start_in with hs | hs
              · exact Or.inl hs
              · exact Or.inr (List.mem_cons_of_mem _ hs)
            · intro x hx
              by_cases hxn : x = nb.1
              · subst hxn
                obtain ⟨w, l, hch⟩ := hc.chain_dom current hcd
                have hch' : ChainTo g ((nb.1, some current) :: acc.parent) start
                    current w l := chainTo_cons_fresh hpn hch
                exact ⟨w + nb.2.1, l ++ [nb.1],
                  ChainTo.step hch' alookup_cons_self (mem_getNeighbors_cost hwf hnb)⟩
              · rw [alookup_cons_ne (fun h => hxn h.symm)] at hx
                obtain ⟨w, l, hch⟩ := hc.chain_dom x hx
                exact ⟨w, l, chainTo_cons_fresh hpn hch⟩
          · intro x hx
            exact List.mem_cons_of_mem _ hx
          · exact Or.inr (List.mem_cons_self _ _)
          · intro x hx
            exact alookup_isSome_cons hx
    obtain ⟨hc₁, hv₁, he₁, hl₁, hs₁, hnb₁, hpm₁⟩ := hstep
    obtain ⟨hc', hv', he', hl', hs', hall', hpm'⟩ :=
      ih (fun nb' hnb' => hmem _ (List.mem_cons_of_mem _ hnb')) _ hc₁ (hpm₁ _ hcd)
    refine ⟨hc', by rw [hv', hv₁], by rw [he', he₁], ?_,
      fun x hx => hs' _ (hs₁ _ hx), ?_, fun x hx => hpm' _ (hpm₁ _ hx)⟩
    · simp only [List.length_cons]
      omega
    · intro nb' hnb'
      rcases List.mem_cons.mp hnb' with rfl | hmem'
      · rcases hnb₁ with hh | hh
        · exact Or.inl (by rw [hv']; exact hv₁ ▸ hh)
        · exact Or.inr (hs' _ hh)
      · exact hall' _ hmem'

/-- The `dfs` loop terminates within the measure bound and its result
satisfies the soundness/completeness facts every claim about DFS needs. -/
theorem dfsLoop_spec (g : Graph) (start goal : String) (hwf : Wf g) :
    ∀ (fuel : Nat) (st : DfsState), DfsInv g start goal st →
      dfsMeasure g start st < fuel →
      ∃ r, dfsLoop g start goal fuel st = some r ∧
        r.exploredOrder.Nodup ∧
        (∀ x ∈ r.exploredOrder, Reachable g start x) ∧
        (∀ x ∈ r.exploredOrder, hasNode g x) ∧
        r.nodesExplored = r.exploredOrder.length ∧
        (r.found = true → goal ∈ r.exploredOrder ∧ IsPath g start goal r.path ∧
          r.pathCost = pathWeight g r.path) ∧
        (r.found = false → r.path = [] ∧ r.pathCost = 0 ∧ goal ∉ r.exploredOrder ∧
          ∀ x, Reachable g start x → x ∈ r.exploredOrder) := by
  intro fuel
  induction fuel with
  | zero => intro st hinv hm; omega
  | succ fuel ih =>
    intro st hinv hm
    obtain ⟨hc, hclosed⟩ := hinv
    cases hq : st.stack with
    | nil =>
      have hstep : dfsLoop g start goal (fuel + 1) st =
          some (buildResult g start goal st.parent st.exploredOrder false none) := by
        simp only [dfsLoop, hq]
      rw [buildResult_notfound] at hstep
      refine ⟨_, hstep, hc.explored_nodup, hc.exp_reach, hc.exp_node, rfl, ?_, ?_⟩
      · intro h
        exact absurd h (by simp)
      · intro _
        refine ⟨rfl, rfl, hc.goal_not, ?_⟩
        have hstart_exp : start ∈ st.exploredOrder := by
          rcases hc.start_in with hs | hs
          · exact (hc.visited_eq start).mp hs
          · rw [hq] at hs
            simp at hs
        intro x hx
        induction hx with
        | refl => exact hstart_exp
        | tail hru hredge ihx =>
          rename_i u x'
          obtain ⟨adjl, ha, hvsome⟩ := edges_entry_of_hasEdge hredge
          obtain ⟨c, hcc⟩ := Option.isSome_iff_exists.mp hvsome
          have hnbmem : (x', c, hFor g x') ∈ getNeighbors g u := by
            unfold getNeighbors
            rw [ha]
            exact List.mem_map_of_mem _ (alookup_mem hcc)
          rcases hclosed u ihx _ hnbmem with hh | hh
          · exact (hc.visited_eq x').mp hh
          · rw [hq] at hh
            simp at hh
    | cons current rest =>
      have hcur_stack : current ∈ st.stack := by
        rw [hq]
        exact List.mem_cons_self _ _
      by_cases hcv : current ∈ st.visited
      · set st1 : DfsState := { st with stack := rest }
        have hc1 : DfsCore g start goal st1 := by
          constructor
          · intro x hx
            exact hc.stack_reach x (by rw [hq]; exact List.mem_cons_of_mem _ hx)
          · intro x hx
            exact hc.stack_node x (by rw [hq]; exact List.mem_cons_of_mem _ hx)
          · intro x hx
            exact hc.stack_cand x (by rw [hq]; exact List.mem_cons_of_mem _ hx)
          · intro x hx
            exact hc.stack_dom x (by rw [hq]; exact List.mem_cons_of_mem _ hx)
          · exact hc.visited_eq
          · exact hc.explored_nodup
          · exact hc.exp_reach
          · exact hc.exp_node
          · exact hc.goal_not
          · rcases hc.start_in with hs | hs
            · exact Or.inl hs
            · rw [hq] at hs
              rcases List.mem_cons.mp hs with rfl | hs'
              · exact Or.inl hcv
              · exact Or.inr hs'
          · exact hc.chain_dom
        have hclosed1 : ∀ x ∈ st1.exploredOrder, ∀ nb ∈ getNeighbors g x,
            nb.1 ∈ st1.visited ∨ nb.1 ∈ st1.stack := by
          intro x hx nb hnb
          rcases hclosed x hx nb hnb with hh | hh
          · exact Or.inl hh
          · rw [hq] at hh
            rcases List.mem_cons.mp hh with rfl | hh'
            · exact Or.inl hcv
            · exact Or.inr hh'
        have hm1 : dfsMeasure g start st1 < fuel := by
          have : dfsMeasure g start st1 + 1 = dfsMeasure g start st := by
            unfold dfsMeasure
            rw [hq]
            simp only [List.length_cons]
            omega
          omega
        obtain ⟨r, hr, hposts⟩ := ih st1 ⟨hc1, hclosed1⟩ hm1
        refine ⟨r, ?_, hposts⟩
        simp only [dfsLoop, hq, if_pos hcv]
        exact hr
      · have hcne : current ∉ st.exploredOrder :=
          fun h => hcv ((hc.visited_eq current).mpr h)
        by_cases hg : current = goal
        · obtain ⟨w, l, hch⟩ :=
            hc.chain_dom current (hc.stack_dom current hcur_stack)
          have hchg : ChainTo g st.parent start goal w l := hg ▸ hch
          obtain ⟨hf, hp, he, hn, hcost⟩ :=
            @buildResult_found g start goal st.parent
              (st.exploredOrder ++ [current]) none w l hchg
          have hstep : dfsLoop g start goal (fuel + 1) st =
              some (buildResult g start goal st.parent
                (st.exploredOrder ++ [current]) true none) := by
            simp only [dfsLoop, hq, if_neg hcv, if_pos hg]
          refine ⟨_, hstep, ?_, ?_, ?_, ?_, ?_, ?_⟩
          · rw [he]
            simp [List.nodup_append, hc.explored_nodup, hcne]
          · rw [he]
            intro x hx
            rcases List.mem_append.mp hx with hx | hx
            · exact hc.exp_reach x hx
            · obtain rfl : x = current := by simpa using hx
              exact hc.stack_reach _ hcur_stack
          · rw [he]
            intro x hx
            rcases List.mem_append.mp hx with hx | hx
            · exact hc.exp_node x hx
            · obtain rfl : x = current := by simpa using hx
              exact hc.stack_node _ hcur_stack
          · rw [hn, he]
          · intro _
            refine ⟨?_, ?_, ?_⟩
            · rw [he]
              exact List.mem_append_right _ (by simp [hg])
            · rw [hp]
              exact (chainTo_isPath hchg).1
            · rw [hcost, hp]
          · intro h
            rw [hf] at h
            exact absurd h (by simp)
        · have hreach : Reachable g start current := hc.stack_reach current hcur_stack
          have hcd : (alookup st.parent current).isSome = true :=
            hc.stack_dom current hcur_stack
          set st1 : DfsState :=
            { st with
                stack := rest
                visited := current :: st.visited
                exploredOrder := st.exploredOrder ++ [current] }
          set st2 : DfsState :=
            (getNeighbors g current).reverse.foldl (dfsVisit current) st1
          have hc1 : DfsCore g start goal st1 := by
            constructor
            · intro x hx
              exact hc.stack_reach x (by rw [hq]; exact List.mem_cons_of_mem _ hx)
            · intro x hx
              exact hc.stack_node x (by rw [hq]; exact List.mem_cons_of_mem _ hx)
            · intro x hx
              exact hc.stack_cand x (by rw [hq]; exact List.mem_cons_of_mem _ hx)
            · intro x hx
              exact hc.stack_dom x (by rw [hq]; exact List.mem_cons_of_mem _ hx)
            · intro x
              show x ∈ current :: st.visited ↔ x ∈ st.exploredOrder ++ [current]
              rw [List.mem_cons, hc.visited_eq x, List.mem_append]
              simp only [List.mem_singleton]
              tauto
            · simp [List.nodup_append, hc.explored_nodup, hcne]
            · intro x hx
              rcases List.mem_append.mp hx with hx | hx
              · exact hc.exp_reach x hx
              · obtain rfl : x = current := by simpa using hx
                exact hreach
            · intro x hx
              rcases List.mem_append.mp hx with hx | hx
              · exact hc.exp_node x hx
              · obtain rfl : x = current := by simpa using hx
                exact hc.stack_node _ hcur_stack
            · simp only [List.mem_append, List.mem_singleton]
              push_neg
              exact ⟨hc.goal_not, fun hcg => hg hcg.symm⟩
            · rcases hc.start_in with hs | hs
              · exact Or.inl (List.mem_cons_of_mem _ hs)
              · rw [hq] at hs
                rcases List.mem_cons.mp hs with rfl | hs'
                · exact Or.inl (List.mem_cons_self _ _)
                · exact Or.inr hs'
            · exact hc.chain_dom
          obtain ⟨hcore', hvis', hexp', hlen', hsm', hall', hpm'⟩ :=
            dfsVisit_fold g start goal current hwf hreach
              (getNeighbors g current).reverse (fun nb h => List.mem_reverse.mp h)
              st1 hc1 hcd
          have hclosed' : ∀ x ∈ st2.exploredOrder, ∀ nb ∈ getNeighbors g x,
              nb.1 ∈ st2.visited ∨ nb.1 ∈ st2.stack := by
            rw [show st2.exploredOrder = st1.exploredOrder from hexp']
            intro x hx nb hnb
            rcases List.mem_append.mp hx with hx | hx
            · rcases hclosed x hx nb hnb with hh | hh
              · refine Or.inl ?_
                rw [hvis']
                exact List.mem_cons_of_mem _ hh
              · rw [hq] at hh
                rcases List.mem_cons.mp hh with rfl | hh'
                · refine Or.inl ?_
                  rw [hvis']
                  exact List.mem_cons_self _ _
                · exact Or.inr (hsm' _ hh')
            · obtain rfl : x = current := by simpa using hx
              exact hall' nb (List.mem_reverse.mpr hnb)
          have hm' : dfsMeasure g start st2 < fuel := by
            have hu : unvisitedCount g start st1.visited + 1 ≤
                unvisitedCount g start st.visited := by
              have := unvisitedCount_cons_lt g start current st.visited
                (hc.stack_cand current hcur_stack) hcv
              show unvisitedCount g start (current :: st.visited) + 1 ≤
                unvisitedCount g start st.visited
              omega
            have hmul : (edgeTotal g + 1) * unvisitedCount g start st1.visited +
                (edgeTotal g + 1) ≤
                (edgeTotal g + 1) * unvisitedCount g start st.visited := by
              have h1 : (edgeTotal g + 1) * unvisitedCount g start st1.visited +
                  (edgeTotal g + 1) =
                  (edgeTotal g + 1) * (unvisitedCount g start st1.visited + 1) := by
                ring
              rw [h1]
              exact Nat.mul_le_mul (Nat.le_refl _) hu
            have hnlen := neighbors_length_le g current
            have hkb : st2.stack.length =
                (List.foldl (dfsVisit current) st1
                  (getNeighbors g current).reverse).stack.length := rfl
            have hrevlen : (getNeighbors g current).reverse.length =
                (getNeighbors g current).length := List.length_reverse _
            have hst1len : st1.stack.length = rest.length := rfl
            have hst2m : dfsMeasure g start st2 =
                st2.stack.length + (edgeTotal g + 1) *
                  unvisitedCount g start st1.visited := by
              unfold dfsMeasure
              rw [hvis']
            have hstm : dfsMeasure g start st =
                rest.length + 1 + (edgeTotal g + 1) *
                  unvisitedCount g start st.visited := by
              unfold dfsMeasure
              rw [hq]
              simp [Nat.add_comm, Nat.add_assoc, Nat.add_left_comm]
            omega
          obtain ⟨r, hr, hposts⟩ := ih st2 ⟨hcore', hclosed'⟩ hm'
          refine ⟨r, ?_, hposts⟩
          simp only [dfsLoop, hq, if_neg hcv, if_neg hg]
          exact hr

/-- Facts about a completed `dfs` run: the loop returns within the supplied
fuel, and the result satisfies the DFS soundness/completeness properties. -/
theorem dfs_spec (g : Graph) (start goal : String) (hwf : Wf g)
    (hstart : hasNode g start) :
    dfsLoop g start goal (searchFuel g start)
        ⟨[start], [], [(start, none)], []⟩ = some (dfs g start goal) ∧
    (dfs g start goal).exploredOrder.Nodup ∧
    (∀ x ∈ (dfs g start goal).exploredOrder, Reachable g start x) ∧
    (∀ x ∈ (dfs g start goal).exploredOrder, hasNode g x) ∧
    (dfs g start goal).nodesExplored = (dfs g start goal).exploredOrder.length ∧
    ((dfs g start goal).found = true → goal ∈ (dfs g start goal).exploredOrder ∧
      IsPath g start goal (dfs g start goal).path ∧
      (dfs g start goal).pathCost = pathWeight g (dfs g start goal).path) ∧
    ((dfs g start goal).found = false → (dfs g start goal).path = [] ∧
      (dfs g start goal).pathCost = 0 ∧ goal ∉ (dfs g start goal).exploredOrder ∧
      ∀ x, Reachable g start x → x ∈ (dfs g start goal).exploredOrder) := by
  have hinv : DfsInv g start goal ⟨[start], [], [(start, none)], []⟩ := by
    refine ⟨?_, ?_⟩
    · constructor
      · intro x hx
        obtain rfl : x = start := by simpa using hx
        exact reachable_refl g x
      · intro x hx
        obtain rfl : x = start := by simpa using hx
        exact hstart
      · intro x hx
        obtain rfl : x = start := by simpa using hx
        exact List.mem_cons_self _ _
      · intro x hx
        obtain rfl : x = start := by simpa using hx
        rw [alookup_cons_self]
        rfl
      · intro x
        simp
      · simp
      · intro x hx
        simp at hx
      · intro x hx
        simp at hx
      · simp
      · exact Or.inr (List.mem_cons_self _ _)
      · intro x hx
        by_cases hxs : x = start
        · subst hxs
          exact ⟨0, [x], ChainTo.base alookup_cons_self⟩
        · rw [alookup_cons_ne (fun hcc => hxs hcc.symm)] at hx
          simp [alookup] at hx
    · intro x hx
      simp at hx
  have hm : dfsMeasure g start ⟨[start], [], [(start, none)], []⟩ <
      searchFuel g start := by
    have h1 := unvisitedCount_le g start []
    have h2 := (searchFuel_big g start).1
    have h3 : (edgeTotal g + 1) * unvisitedCount g start [] ≤
        (edgeTotal g + 1) * (candList g start).dedup.length :=
      Nat.mul_le_mul (Nat.le_refl _) h1
    show 1 + (edgeTotal g + 1) * unvisitedCount g start [] < searchFuel g start
    omega
  obtain ⟨r, hr, hposts⟩ :=
    dfsLoop_spec g start goal hwf (searchFuel g start) _ hinv hm
  have hb : dfs g start goal = r := by
    unfold dfs
    rw [hr]
    rfl
  rw [hb]
  exact ⟨hr, hposts⟩

/-! ### Greedy best-first verification -/

/-- One pass of `greedy`'s neighbor loop preserves the core invariant, leaves
visited and explored unchanged, enqueues at most one entry per neighbor, keeps
old frontier entries, leaves every processed neighbor visited or in the
frontier, and only adds parent bindings. -/
theorem greedyVisit_fold (g : Graph) (start goal current : String) (hwf : Wf g)
    (hreach : Reachable g start current) :
    ∀ (nbs : List (String × Nat × Nat)), (∀ nb ∈ nbs, nb ∈ getNeighbors g current) →
      ∀ (acc : BestState), GreedyCore g start goal acc →
        (alookup acc.parent current).isSome = true →
        GreedyCore g start goal (nbs.foldl (greedyVisit current) acc) ∧
        (nbs.foldl (greedyVisit current) acc).visited = acc.visited ∧
        (nbs.foldl (greedyVisit current) acc).exploredOrder = acc.exploredOrder ∧
        (nbs.foldl (greedyVisit current) acc).pq.items.length ≤
          acc.pq.items.length + nbs.length ∧
        (∀ it ∈ acc.pq.items, it ∈ (nbs.foldl (greedyVisit current) acc).pq.items) ∧
        (∀ nb ∈ nbs, nb.1 ∈ (nbs.foldl (greedyVisit current) acc).visited ∨
          ∃ it ∈ (nbs.foldl (greedyVisit current) acc).pq.items,
            it.element = nb.1) ∧
        (∀ x, (alookup acc.parent x).isSome = true →
          (alookup (nbs.foldl (greedyVisit current) acc).parent x).isSome = true) := by
  intro nbs
  induction nbs with
  | nil =>
    intro _ acc hc _
    exact ⟨hc, rfl, rfl, by simp, fun it hx => hx, by simp, fun x hx => hx⟩
  | cons nb rest ih =>
    intro hmem acc hc hcd
    rw [List.foldl_cons]
    have hnb := hmem nb (List.mem_cons_self _ _)
    have hedge := mem_getNeighbors_hasEdge hnb
    have hstep : GreedyCore g start goal (greedyVisit current acc nb) ∧
        (greedyVisit current acc nb).visited = acc.visited ∧
        (greedyVisit current acc nb).exploredOrder = acc.exploredOrder ∧
        (greedyVisit current acc nb).pq.items.length ≤ acc.pq.items.length + 1 ∧
        (∀ it ∈ acc.pq.items, it ∈ (greedyVisit current acc nb).pq.items) ∧
        (nb.1 ∈ (greedyVisit current acc nb).visited ∨
          ∃ it ∈ (greedyVisit current acc nb).pq.items, it.element = nb.1) ∧
        (∀ x, (alookup acc.parent x).isSome = true →
          (alookup (greedyVisit current acc nb).parent x).isSome = true) := by
      by_cases hv : nb.1 ∈ acc.visited
      · have hres : greedyVisit current acc nb = acc := by
          unfold greedyVisit
          rw [if_pos hv]
        rw [hres]
        exact ⟨hc, rfl, rfl, Nat.le_succ _, fun it hx => hx, Or.inl hv,
          fun x hx => hx⟩
      · by_cases hp : (alookup acc.parent nb.1).isSome = true
        · have hres : greedyVisit current acc nb =
              { acc with pq := acc.pq.enqueue nb.1 nb.2.2 } := by
            unfold greedyVisit
            rw [if_neg hv, if_pos hp]
          rw [hres]
          have hperm := enqueue_items_perm acc.pq nb.1 nb.2.2
          refine ⟨?_, rfl, rfl, ?_, ?_, ?_, fun x hx => hx⟩
          · constructor
            · intro it hit
              rcases List.mem_cons.mp (hperm.mem_iff.mp hit) with rfl | hit'
              · exact reachable_step hreach hedge
              · exact hc.pq_reach it hit'
            · intro it hit
              rcases List.mem_cons.mp (hperm.mem_iff.mp hit) with rfl | hit'
              · exact hasEdge_node hwf hedge
              · exact hc.pq_node it hit'
            · intro it hit
              rcases List.mem_cons.mp (hperm.mem_iff.mp hit) with rfl | hit'
              · exact mem_candList_of_neighbor hnb start
              · exact hc.pq_cand it hit'
            · intro it hit
              rcases List.mem_cons.mp (hperm.mem_iff.mp hit) with rfl | hit'
              · exact hp
              · exact hc.pq_dom it hit'
            · exact hc.visited_eq
            · exact hc.explored_nodup
            · exact hc.exp_reach
            · exact hc.exp_node
            · exact hc.goal_not
            · rcases hc.start_in with hs | ⟨it, hit, he⟩
              · exact Or.inl hs
              · exact Or.inr ⟨it, hperm.mem_iff.mpr (List.mem_cons_of_mem _ hit), he⟩
            · exact hc.chain_cost
          · rw [enqueue_length]
          · intro it hit
            exact hperm.mem_iff.mpr (List.mem_cons_of_mem _ hit)
          · exact Or.inr ⟨PQItem.mk nb.1 nb.2.2,
              hperm.mem_iff.mpr (List.mem_cons_self _ _), rfl⟩
        · have hpn : alookup acc.parent nb.1 = none := by
            rcases hh : alookup acc.parent nb.1 with _ | o
            · rfl
            · exact absurd (by rw [hh]; rfl) hp
          have hres : greedyVisit current acc nb =
              ⟨acc.pq.enqueue nb.1 nb.2.2, acc.visited,
                (nb.1, some current) :: acc.parent,
                (nb.1, (alookup acc.cost current).getD 0 + nb.2.1) :: acc.cost,
                acc.exploredOrder⟩ := by
            unfold greedyVisit
            rw [if_neg hv, if_neg hp]
          rw [hres]
          have hperm := enqueue_items_perm acc.pq nb.1 nb.2.2
          obtain ⟨wc, lc, hchc, hcwc⟩ := hc.chain_cost current hcd
          refine ⟨?_, rfl, rfl, ?_, ?_, ?_, ?_⟩
          · constructor
            · intro it hit
              rcases List.mem_cons.mp (hperm.mem_iff.mp hit) with rfl | hit'
              · exact reachable_step hreach hedge
              · exact hc.pq_reach it hit'
            · intro it hit
              rcases List.mem_cons.mp (hperm.mem_iff.mp hit) with rfl | hit'
              · exact hasEdge_node hwf hedge
              · exact hc.pq_node it hit'
            · intro it hit
              rcases List.mem_cons.mp (hperm.mem_iff.mp hit) with rfl | hit'
              · exact mem_candList_of_neighbor hnb start
              · exact hc.pq_cand it hit'
            · intro it hit
              rcases List.mem_cons.mp (hperm.mem_iff.mp hit) with rfl | hit'
              · rw [alookup_cons_self]
                rfl
              · exact alookup_isSome_cons (hc.pq_dom it hit')
            · exact hc.visited_eq
            · exact hc.explored_nodup
            · exact hc.exp_reach
            · exact hc.exp_node
            · exact hc.goal_not
            · rcases hc.start_in with hs | ⟨it, hit, he⟩
              · exact Or.inl hs
              · exact Or.inr ⟨it, hperm.mem_iff.mpr (List.mem_cons_of_mem _ hit), he⟩
            · intro x hx
              by_cases hxn : x = nb.1
              · subst hxn
                have hch' : ChainTo g ((nb.1, some current) :: acc.parent) start
                    current wc lc := chainTo_cons_fresh hpn hchc
                refine ⟨wc + nb.2.1, lc ++ [nb.1],
                  ChainTo.step hch' alookup_cons_self
                    (mem_getNeighbors_cost hwf hnb), ?_⟩
                rw [alookup_cons_self, hcwc]
                rfl
              · rw [alookup_cons_ne (fun h => hxn h.symm)] at hx
                obtain ⟨w, l, hch, hcw⟩ := hc.chain_cost x hx
                refine ⟨w, l, chainTo_cons_fresh hpn hch, ?_⟩
                rw [alookup_cons_ne (fun h => hxn h.symm)]
                exact hcw
          · rw [enqueue_length]
          · intro it hit
            exact hperm.mem_iff.mpr (List.mem_cons_of_mem _ hit)
          · exact Or.inr ⟨PQItem.mk nb.1 nb.2.2,
              hperm.mem_iff.mpr (List.mem_cons_self _ _), rfl⟩
          · intro x hx
            exact alookup_isSome_cons hx
    obtain ⟨hc₁, hv₁, he₁, hl₁, hs₁, hnb₁, hpm₁⟩ := hstep
    obtain ⟨hc', hv', he', hl', hs', hall', hpm'⟩ :=
      ih (fun nb' hnb' => hmem _ (List.mem_cons_of_mem _ hnb')) _ hc₁ (hpm₁ _ hcd)
    refine ⟨hc', by rw [hv', hv₁], by rw [he', he₁], ?_,
      fun it hx => hs' _ (hs₁ _ hx), ?_, fun x hx => hpm' _ (hpm₁ _ hx)⟩
    · simp only [List.length_cons]
      omega
    · intro nb' hnb'
      rcases List.mem_cons.mp hnb' with rfl | hmem'
      · rcases hnb₁ with hh | ⟨it, hit, he⟩
        · exact Or.inl (by rw [hv']; exact hv₁ ▸ hh)
        · exact Or.inr ⟨it, hs' _ hit, he⟩
      · exact hall' _ hmem'

set_option maxRecDepth 4000 in
/-- The `greedy` loop terminates within the measure bound and its result
satisfies the soundness/completeness facts every claim about greedy needs. -/
theorem greedyLoop_spec (g : Graph) (start goal : String) (hwf : Wf g) :
    ∀ (fuel : Nat) (st : BestState), GreedyInv g start goal st →
      bestMeasure g start st < fuel →
      ∃ r, greedyLoop g start goal fuel st = some r ∧
        r.exploredOrder.Nodup ∧
        (∀ x ∈ r.exploredOrder, Reachable g start x) ∧
        (∀ x ∈ r.exploredOrder, hasNode g x) ∧
        r.nodesExplored = r.exploredOrder.length ∧
        (r.found = true → goal ∈ r.exploredOrder ∧ IsPath g start goal r.path ∧
          r.pathCost = pathWeight g r.path) ∧
        (r.found = false → r.path = [] ∧ r.pathCost = 0 ∧ goal ∉ r.exploredOrder ∧
          ∀ x, Reachable g start x → x ∈ r.exploredOrder) := by
  intro fuel
  induction fuel with
  | zero => intro st hinv hm; omega
  | succ fuel ih =>
    intro st hinv hm
    obtain ⟨hc, hclosed⟩ := hinv
    cases hitems : st.pq.items with
    | nil =>
      have hd := dequeue_nil st.pq hitems
      have hstep : greedyLoop g start goal (fuel + 1) st =
          some (buildResult g start goal st.parent st.exploredOrder false none) := by
        simp only [greedyLoop, hd]
      rw [buildResult_notfound] at hstep
      refine ⟨_, hstep, hc.explored_nodup, hc.exp_reach, hc.exp_node, rfl, ?_, ?_⟩
      · intro h
        exact absurd h (by simp)
      · intro _
        refine ⟨rfl, rfl, hc.goal_not, ?_⟩
        have hstart_exp : start ∈ st.exploredOrder := by
          rcases hc.start_in with hs | ⟨it, hit, _⟩
          · exact (hc.visited_eq start).mp hs
          · rw [hitems] at hit
            simp at hit
        intro x hx
        induction hx with
        | refl => exact hstart_exp
        | tail hru hredge ihx =>
          rename_i u x'
          obtain ⟨adjl, ha, hvsome⟩ := edges_entry_of_hasEdge hredge
          obtain ⟨c, hcc⟩ := Option.isSome_iff_exists.mp hvsome
          have hnbmem : (x', c, hFor g x') ∈ getNeighbors g u := by
            unfold getNeighbors
            rw [ha]
            exact List.mem_map_of_mem _ (alookup_mem hcc)
          rcases hclosed u ihx _ hnbmem with hh | ⟨it, hit, _⟩
          · exact (hc.visited_eq x').mp hh
          · rw [hitems] at hit
            simp at hit
    | cons mn tl =>
      obtain ⟨hd1, hdperm0⟩ := dequeue_shape st.pq mn tl hitems
      obtain ⟨pq2, hdq⟩ : ∃ pq2, st.pq.dequeue = (some mn.element, pq2) :=
        ⟨st.pq.dequeue.2, Prod.ext hd1 rfl⟩
      have hdperm : pq2.items.Perm tl := by
        rw [hdq] at hdperm0
        exact hdperm0
      have hmn : mn ∈ st.pq.items := by
        rw [hitems]
        exact List.mem_cons_self _ _
      have hmempq : ∀ it ∈ pq2.items, it ∈ st.pq.items := by
        intro it hit
        rw [hitems]
        exact List.mem_cons_of_mem _ (hdperm.mem_iff.mp hit)
      have hlen2 : pq2.items.length = tl.length := hdperm.length_eq
      by_cases hcv : mn.element ∈ st.visited
      · set st1 : BestState := { st with pq := pq2 }
        have hc1 : GreedyCore g start goal st1 := by
          constructor
          · intro it hit
            exact hc.pq_reach it (hmempq it hit)
          · intro it hit
            exact hc.pq_node it (hmempq it hit)
          · intro it hit
            exact hc.pq_cand it (hmempq it hit)
          · intro it hit
            exact hc.pq_dom it (hmempq it hit)
          · exact hc.visited_eq
          · exact hc.explored_nodup
          · exact hc.exp_reach
          · exact hc.exp_node
          · exact hc.goal_not
          · rcases hc.start_in with hs | ⟨it, hit, he⟩
            · exact Or.inl hs
            · rw [hitems] at hit
              rcases List.mem_cons.mp hit with rfl | hit'
              · exact Or.inl (he ▸ hcv)
              · exact Or.inr ⟨it, hdperm.mem_iff.mpr hit', he⟩
          · exact hc.chain_cost
        have hclosed1 : ∀ x ∈ st1.exploredOrder, ∀ nb ∈ getNeighbors g x,
            nb.1 ∈ st1.visited ∨ ∃ it ∈ st1.pq.items, it.element = nb.1 := by
          intro x hx nb hnb
          rcases hclosed x hx nb hnb with hh | ⟨it, hit, he⟩
          · exact Or.inl hh
          · rw [hitems] at hit
            rcases List.mem_cons.mp hit with rfl | hit'
            · exact Or.inl (he ▸ hcv)
            · exact Or.inr ⟨it, hdperm.mem_iff.mpr hit', he⟩
        have hm1 : bestMeasure g start st1 < fuel := by
          have h1 : bestMeasure g start st1 + 1 = bestMeasure g start st := by
            unfold bestMeasure
            rw [hitems]
            show pq2.items.length + _ + 1 = tl.length + 1 + _
            rw [hlen2, show st1.visited = st.visited from rfl]
            omega
          omega
        obtain ⟨r, hr, hposts⟩ := ih st1 ⟨hc1, hclosed1⟩ hm1
        refine ⟨r, ?_, hposts⟩
        simp only [greedyLoop, hdq, if_pos hcv]
        exact hr
      · have hcne : mn.element ∉ st.exploredOrder :=
          fun h => hcv ((hc.visited_eq mn.element).mpr h)
        by_cases hg : mn.element = goal
        · obtain ⟨w, l, hch, hcw⟩ :=
            hc.chain_cost mn.element (hc.pq_dom mn hmn)
          have hchg : ChainTo g st.parent start goal w l := hg ▸ hch
          have hcwg : alookup st.cost goal = some w := hg ▸ hcw
          obtain ⟨hf, hp, he, hn, hcost⟩ :=
            @buildResult_found g start goal st.parent
              (st.exploredOrder ++ [mn.element]) (some st.cost) w l hchg
          have hstep : greedyLoop g start goal (fuel + 1) st =
              some (buildResult g start goal st.parent
                (st.exploredOrder ++ [mn.element]) true (some st.cost)) := by
            simp only [greedyLoop, hdq, if_neg hcv, if_pos hg]
          refine ⟨_, hstep, ?_, ?_, ?_, ?_, ?_, ?_⟩
          · rw [he]
            simp [List.nodup_append, hc.explored_nodup, hcne]
          · rw [he]
            intro x hx
            rcases List.mem_append.mp hx with hx | hx
            · exact hc.exp_reach x hx
            · obtain rfl : x = mn.element := by simpa using hx
              exact hc.pq_reach _ hmn
          · rw [he]
            intro x hx
            rcases List.mem_append.mp hx with hx | hx
            · exact hc.exp_node x hx
            · obtain rfl : x = mn.element := by simpa using hx
              exact hc.pq_node _ hmn
          · rw [hn, he]
          · intro _
            refine ⟨?_, ?_, ?_⟩
            · rw [he]
              exact List.mem_append_right _ (by simp [hg])
            · rw [hp]
              exact (chainTo_isPath hchg).1
            · rw [hcost, hp]
              show (alookup st.cost goal).getD 0 = pathWeight g l
              rw [hcwg, (chainTo_isPath hchg).2]
              rfl
          · intro h
            rw [hf] at h
            exact absurd h (by simp)
        · have hreach : Reachable g start mn.element := hc.pq_reach mn hmn
          have hcd : (alookup st.parent mn.element).isSome = true :=
            hc.pq_dom mn hmn
          set st1 : BestState :=
            { st with
                pq := pq2
                visited := mn.element :: st.visited
                exploredOrder := st.exploredOrder ++ [mn.element] }
          set st2 : BestState := greedyRelax g mn.element st1
          have hst2 : st2 = (getNeighbors g mn.element).foldl
              (greedyVisit mn.element) st1 := rfl
          have hc1 : GreedyCore g start goal st1 := by
            constructor
            · intro it hit
              exact hc.pq_reach it (hmempq it hit)
            · intro it hit
              exact hc.pq_node it (hmempq it hit)
            · intro it hit
              exact hc.pq_cand it (hmempq it hit)
            · intro it hit
              exact hc.pq_dom it (hmempq it hit)
            · intro x
              show x ∈ mn.element :: st.visited ↔
                x ∈ st.exploredOrder ++ [mn.element]
              rw [List.mem_cons, hc.visited_eq x, List.mem_append]
              simp only [List.mem_singleton]
              tauto
            · simp [List.nodup_append, hc.explored_nodup, hcne]
            · intro x hx
              rcases List.mem_append.mp hx with hx | hx
              · exact hc.exp_reach x hx
              · obtain rfl : x = mn.element := by simpa using hx
                exact hreach
            · intro x hx
              rcases List.mem_append.mp hx with hx | hx
              · exact hc.exp_node x hx
              · obtain rfl : x = mn.element := by simpa using hx
                exact hc.pq_node _ hmn
            · simp only [List.mem_append, List.mem_singleton]
              push_neg
              exact ⟨hc.goal_not, fun hcg => hg hcg.symm⟩
            · rcases hc.start_in with hs | ⟨it, hit, he⟩
              · exact Or.inl (List.mem_cons_of_mem _ hs)
              · rw [hitems] at hit
                rcases List.mem_cons.mp hit with rfl | hit'
                · exact Or.inl (he ▸ List.mem_cons_self _ _)
                · exact Or.inr ⟨it, hdperm.mem_iff.mpr hit', he⟩
            · exact hc.chain_cost
          obtain ⟨hcore', hvis', hexp', hlen', hsm', hall', hpm'⟩ :=
            greedyVisit_fold g start goal mn.element hwf hreach
              (getNeighbors g mn.element) (fun nb h => h) st1 hc1 hcd
          rw [← hst2] at hcore' hvis' hexp' hlen' hsm' hall' hpm'
          have hclosed' : ∀ x ∈ st2.exploredOrder, ∀ nb ∈ getNeighbors g x,
              nb.1 ∈ st2.visited ∨ ∃ it ∈ st2.pq.items, it.element = nb.1 := by
            rw [show st2.exploredOrder = st1.exploredOrder from hexp']
            intro x hx nb hnb
            rcases List.mem_append.mp hx with hx | hx
            · rcases hclosed x hx nb hnb with hh | ⟨it, hit, he⟩
              · refine Or.inl ?_
                rw [hvis']
                exact List.mem_cons_of_mem _ hh
              · rw [hitems] at hit
                rcases List.mem_cons.mp hit with rfl | hit'
                · refine Or.inl ?_
                  rw [hvis']
                  exact he ▸ List.mem_cons_self _ _
                · exact Or.inr ⟨it, hsm' _ (hdperm.mem_iff.mpr hit'), he⟩
            · obtain rfl : x = mn.element := by simpa using hx
              exact hall' nb hnb
          have hm' : bestMeasure g start st2 < fuel := by
            have hu : unvisitedCount g start st1.visited + 1 ≤
                unvisitedCount g start st.visited := by
              have := unvisitedCount_cons_lt g start mn.element st.visited
                (hc.pq_cand mn hmn) hcv
              show unvisitedCount g start (mn.element :: st.visited) + 1 ≤
                unvisitedCount g start st.visited
              omega
            have hmul : (edgeTotal g + 1) * unvisitedCount g start st1.visited +
                (edgeTotal g + 1) ≤
                (edgeTotal g + 1) * unvisitedCount g start st.visited := by
              have h1 : (edgeTotal g + 1) * unvisitedCount g start st1.visited +
                  (edgeTotal g + 1) =
                  (edgeTotal g + 1) * (unvisitedCount g start st1.visited + 1) := by
                ring
              rw [h1]
              exact Nat.mul_le_mul (Nat.le_refl _) hu
            have hnlen := neighbors_length_le g mn.element
            have hst1len : st1.pq.items.length = tl.length := hlen2
            have hst2m : bestMeasure g start st2 =
                st2.pq.items.length + (edgeTotal g + 1) *
                  unvisitedCount g start st1.visited := by
              unfold bestMeasure
              rw [hvis']
            have hstm : bestMeasure g start st =
                tl.length + 1 + (edgeTotal g + 1) *
                  unvisitedCount g start st.visited := by
              unfold bestMeasure
              rw [hitems]
              simp [Nat.add_comm, Nat.add_assoc, Nat.add_left_comm]
            omega
          obtain ⟨r, hr, hposts⟩ := ih st2 ⟨hcore', hclosed'⟩ hm'
          refine ⟨r, ?_, hposts⟩
          simp only [greedyLoop, hdq, if_neg hcv, if_neg hg]
          exact hr

/-- Facts about a completed `greedy` run: the loop returns within the supplied
fuel, and the result satisfies the greedy soundness/completeness properties. -/
theorem greedy_spec (g : Graph) (start goal : String) (hwf : Wf g)
    (hstart : hasNode g start) :
    greedyLoop g start goal (searchFuel g start)
        ⟨PQueue.empty.enqueue start (hFor g start), [], [(start, none)],
          [(start, 0)], []⟩ = some (greedy g start goal) ∧
    (greedy g start goal).exploredOrder.Nodup ∧
    (∀ x ∈ (greedy g start goal).exploredOrder, Reachable g start x) ∧
    (∀ x ∈ (greedy g start goal).exploredOrder, hasNode g x) ∧
    (greedy g start goal).nodesExplored =
      (greedy g start goal).exploredOrder.length ∧
    ((greedy g start goal).found = true →
      goal ∈ (greedy g start goal).exploredOrder ∧
      IsPath g start goal (greedy g start goal).path ∧
      (greedy g start goal).pathCost = pathWeight g (greedy g start goal).path) ∧
    ((greedy g start goal).found = false → (greedy g start goal).path = [] ∧
      (greedy g start goal).pathCost = 0 ∧
      goal ∉ (greedy g start goal).exploredOrder ∧
      ∀ x, Reachable g start x → x ∈ (greedy g start goal).exploredOrder) := by
  have hitems : (PQueue.empty.enqueue start (hFor g start)).items =
      [PQItem.mk start (hFor g start)] := rfl
  have hinv : GreedyInv g start goal
      ⟨PQueue.empty.enqueue start (hFor g start), [], [(start, none)],
        [(start, 0)], []⟩ := by
    refine ⟨?_, ?_⟩
    · constructor
      · intro it hit
        rw [hitems] at hit
        obtain rfl : it = PQItem.mk start (hFor g start) := by simpa using hit
        exact reachable_refl g start
      · intro it hit
        rw [hitems] at hit
        obtain rfl : it = PQItem.mk start (hFor g start) := by simpa using hit
        exact hstart
      · intro it hit
        rw [hitems] at hit
        obtain rfl : it = PQItem.mk start (hFor g start) := by simpa using hit
        exact List.mem_cons_self _ _
      · intro it hit
        rw [hitems] at hit
        obtain rfl : it = PQItem.mk start (hFor g start) := by simpa using hit
        rw [alookup_cons_self]
        rfl
      · intro x
        simp
      · simp
      · intro x hx
        simp at hx
      · intro x hx
        simp at hx
      · simp
      · refine Or.inr ⟨PQItem.mk start (hFor g start), ?_, rfl⟩
        rw [hitems]
        exact List.mem_cons_self _ _
      · intro x hx
        by_cases hxs : x = start
        · subst hxs
          exact ⟨0, [x], ChainTo.base alookup_cons_self, alookup_cons_self⟩
        · rw [alookup_cons_ne (fun hcc => hxs hcc.symm)] at hx
          simp [alookup] at hx
    · intro x hx
      simp at hx
  have hm : bestMeasure g start
      ⟨PQueue.empty.enqueue start (hFor g start), [], [(start, none)],
        [(start, 0)], []⟩ < searchFuel g start := by
    have h1 := unvisitedCount_le g start []
    have h2 := (searchFuel_big g start).1
    have h3 : (edgeTotal g + 1) * unvisitedCount g start [] ≤
        (edgeTotal g + 1) * (candList g start).dedup.length :=
      Nat.mul_le_mul (Nat.le_refl _) h1
    show (PQueue.empty.enqueue start (hFor g start)).items.length +
      (edgeTotal g + 1) * unvisitedCount g start [] < searchFuel g start
    rw [hitems]
    simp only [List.length_cons, List.length_nil]
    omega
  obtain ⟨r, hr, hposts⟩ :=
    greedyLoop_spec g start goal hwf (searchFuel g start) _ hinv hm
  have hb : greedy g start goal = r := by
    unfold greedy
    rw [hr]
    rfl
  rw [hb]
  exact ⟨hr, hposts⟩

/-! ### UCS / A* verification -/

/-- Rebinding a key that does not occur on a grounded chain leaves the chain
intact. -/
theorem chainTo_shadow {g : Graph} {parent : List (String × Option String)}
    {start k : String} {o : Option String} :
    ∀ {v w l}, ChainTo g parent start v w l → k ∉ l →
      ChainTo g ((k, o) :: parent) start v w l := by
  intro v w l h
  induction h with
  | base hb =>
    intro hk
    have hks : k ≠ start := by simpa using hk
    refine ChainTo.base ?_
    rw [alookup_cons_ne hks]
    exact hb
  | step hch hlk hec ih =>
    rename_i u v c w l
    intro hk
    simp only [List.mem_append, List.mem_singleton] at hk
    push_neg at hk
    refine ChainTo.step (ih hk.1) ?_ hec
    rw [alookup_cons_ne hk.2]
    exact hlk

/-- Along a grounded chain the recorded cost entries are monotone, provided
every recorded binding is cost-monotone. -/
theorem chainTo_cost_mono {g : Graph} {parent : List (String × Option String)}
    {start : String} {cost : List (String × Nat)}
    (hM : ∀ x u, alookup parent x = some (some u) →
      ∃ gx gu : Nat, alookup cost x = some gx ∧ alookup cost u = some gu ∧
        gu ≤ gx) :
    ∀ {v w l}, ChainTo g parent start v w l → ∀ x ∈ l, ∀ gx gv : Nat,
      alookup cost x = some gx → alookup cost v = some gv → gx ≤ gv := by
  intro v w l h
  induction h with
  | base hb =>
    intro x hx gx gv hcx hcv
    obtain rfl : x = start := by simpa using hx
    rw [hcx] at hcv
    obtain rfl := Option.some.inj hcv
    exact le_refl _
  | step hch hlk hec ih =>
    rename_i u v c w l
    intro x hx gx gv hcx hcv
    by_cases hxv : x = v
    · subst hxv
      rw [hcx] at hcv
      obtain rfl := Option.some.inj hcv
      exact le_refl _
    · have hxl : x ∈ l := by
        rcases List.mem_append.mp hx with hh | hh
        · exact hh
        · exact absurd (by simpa using hh) hxv
      obtain ⟨gv', gu, hcv', hcu, hle⟩ := hM v u hlk
      rw [hcv] at hcv'
      obtain rfl := Option.some.inj hcv'
      exact le_trans (ih x hxl gx gu hcx hcu) hle

/-- Chain surgery: after rebinding key `k` (with a new grounded chain whose
weight is bounded by `k`'s new cost entry), every vertex that was grounded
with chain weight below its cost entry stays so — whether or not its old
chain ran through `k`. -/
theorem chainTo_graft_le {g : Graph} {parent : List (String × Option String)}
    {start k : String} {o : Option String} {cost : List (String × Nat)}
    {kcost : Nat}
    (hM : ∀ x u, alookup parent x = some (some u) →
      ∃ gx gu c, alookup cost x = some gx ∧ alookup cost u = some gu ∧
        edgeCost? g u x = some c ∧ gu + c ≤ gx)
    (hG : ∀ x gx, alookup cost x = some gx →
      ∃ w l, ChainTo g parent start x w l ∧ w ≤ gx)
    (hks : k ≠ start)
    (hnew : ∃ wk lk, ChainTo g ((k, o) :: parent) start k wk lk ∧ wk ≤ kcost)
    (hklt : ∀ gk, alookup cost k = some gk → kcost ≤ gk) :
    ∀ {y wy ly}, ChainTo g parent start y wy ly →
      ∀ gy : Nat, alookup cost y = some gy → wy ≤ gy →
      ∃ w' l' gy', ChainTo g ((k, o) :: parent) start y w' l' ∧
        alookup ((k, kcost) :: cost) y = some gy' ∧ w' ≤ gy' ∧ gy' ≤ gy := by
  intro y wy ly h
  induction h with
  | base hb =>
    intro gy hcy _
    refine ⟨0, [start], gy, ChainTo.base ?_, ?_, Nat.zero_le _, le_refl _⟩
    · rw [alookup_cons_ne hks]
      exact hb
    · rw [alookup_cons_ne hks]
      exact hcy
  | step hch hlk hec ih =>
    rename_i u v c w l
    intro gy hcy hwy
    by_cases hvk : v = k
    · subst hvk
      obtain ⟨wk, lk, hchk, hwk⟩ := hnew
      exact ⟨wk, lk, kcost, hchk, alookup_cons_self, hwk, hklt gy hcy⟩
    · obtain ⟨gy', gu, c', hcy', hcu, hec', hle⟩ := hM v u hlk
      rw [hcy] at hcy'
      obtain rfl := Option.some.inj hcy'
      rw [hec] at hec'
      obtain rfl := Option.some.inj hec'
      have hwu : w ≤ gu := by
        obtain ⟨w₂, l₂, hch₂, hw₂⟩ := hG u gu hcu
        obtain ⟨rfl, -⟩ := chainTo_unique hch hch₂
        exact hw₂
      obtain ⟨w', l', gu', hch', hcu', hwle, hgule⟩ := ih gu hcu hwu
      refine ⟨w' + c, l' ++ [v], gy, ChainTo.step hch' ?_ hec, ?_, ?_, le_refl _⟩
      · rw [alookup_cons_ne (fun h => hvk h.symm)]
        exact hlk
      · rw [alookup_cons_ne (fun h => hvk h.symm)]
        exact hcy
      · omega

/-- An improving relaxation of neighbor `nb` of `current` preserves the
`ucs`/`astar` core invariant.  The hypothesis `hkstrict` captures the
`improves` guard: the tentative cost strictly beats any recorded cost. -/
theorem bestVisit_write (g : Graph) (hf : String → Nat) (start goal current : String)
    (hwf : Wf g) (hreach : Reachable g start current)
    (acc : BestState) (hc : BestCore g start goal acc)
    (nb : String × Nat × Nat) (hnb : nb ∈ getNeighbors g current)
    (gcur : Nat) (hgcur : alookup acc.cost current = some gcur)
    (hkstrict : ∀ gk, alookup acc.cost nb.1 = some gk → gcur + nb.2.1 < gk) :
    BestCore g start goal
      { acc with
        cost := (nb.1, (alookup acc.cost current).getD 0 + nb.2.1) :: acc.cost
        parent := (nb.1, some current) :: acc.parent
        pq := acc.pq.enqueue nb.1
          ((alookup acc.cost current).getD 0 + nb.2.1 + hf nb.1) } := by
  have hgd : (alookup acc.cost current).getD 0 = gcur := by
    rw [hgcur]
    rfl
  rw [hgd]
  have hedge := mem_getNeighbors_hasEdge hnb
  have hecost := mem_getNeighbors_cost hwf hnb
  have hMweak : ∀ x u, alookup acc.parent x = some (some u) →
      ∃ gx gu : Nat, alookup acc.cost x = some gx ∧
        alookup acc.cost u = some gu ∧ gu ≤ gx := by
    intro x u h
    obtain ⟨gx, gu, c, h1, h2, _, h4⟩ := hc.edge_mono x u h
    exact ⟨gx, gu, h1, h2, by omega⟩
  obtain ⟨wc, lc, hchc, hwc⟩ := hc.grounded current gcur hgcur
  have hns : nb.1 ≠ start := by
    intro h
    have := hkstrict 0 (by rw [h]; exact hc.start_cost)
    omega
  have hncur : nb.1 ≠ current := by
    intro h
    have := hkstrict gcur (by rw [h]; exact hgcur)
    omega
  have hnlc : nb.1 ∉ lc := by
    intro hmem
    obtain ⟨gnb, hgnb⟩ := Option.isSome_iff_exists.mp
      ((hc.dom_eq nb.1).mp (chainTo_mem_dom hchc nb.1 hmem))
    have h1 := hkstrict gnb hgnb
    have h2 := chainTo_cost_mono hMweak hchc nb.1 hmem gnb gcur hgnb hgcur
    omega
  have hchk : ChainTo g ((nb.1, some current) :: acc.parent) start nb.1
      (wc + nb.2.1) (lc ++ [nb.1]) :=
    ChainTo.step (chainTo_shadow hchc hnlc) alookup_cons_self hecost
  have hwk : wc + nb.2.1 ≤ gcur + nb.2.1 := by omega
  have hperm := enqueue_items_perm acc.pq nb.1 (gcur + nb.2.1 + hf nb.1)
  constructor
  · intro it hit
    rcases List.mem_cons.mp (hperm.mem_iff.mp hit) with rfl | hit'
    · exact reachable_step hreach hedge
    · exact hc.pq_reach it hit'
  · intro it hit
    rcases List.mem_cons.mp (hperm.mem_iff.mp hit) with rfl | hit'
    · exact hasEdge_node hwf hedge
    · exact hc.pq_node it hit'
  · intro it hit
    rcases List.mem_cons.mp (hperm.mem_iff.mp hit) with rfl | hit'
    · exact mem_candList_of_neighbor hnb start
    · exact hc.pq_cand it hit'
  · intro it hit
    rcases List.mem_cons.mp (hperm.mem_iff.mp hit) with rfl | hit'
    · rw [alookup_cons_self]
      rfl
    · exact alookup_isSome_cons (hc.pq_dom it hit')
  · exact hc.visited_eq
  · exact hc.explored_nodup
  · exact hc.exp_reach
  · exact hc.exp_node
  · exact hc.goal_not
  · rcases hc.start_in with hs | ⟨it, hit, he⟩
    · exact Or.inl hs
    · exact Or.inr ⟨it, hperm.mem_iff.mpr (List.mem_cons_of_mem _ hit), he⟩
  · rw [alookup_cons_ne hns]
    exact hc.start_parent
  · rw [alookup_cons_ne hns]
    exact hc.start_cost
  · intro x
    by_cases hx : x = nb.1
    · subst hx
      rw [alookup_cons_self, alookup_cons_self]
      exact ⟨fun _ => rfl, fun _ => rfl⟩
    · rw [alookup_cons_ne (fun h => hx h.symm),
        alookup_cons_ne (fun h => hx h.symm)]
      exact hc.dom_eq x
  · intro x u hxu
    by_cases hx : x = nb.1
    · subst hx
      rw [alookup_cons_self] at hxu
      obtain rfl : current = u := by
        have := Option.some.inj hxu
        exact Option.some.inj this
      refine ⟨gcur + nb.2.1, gcur, nb.2.1, alookup_cons_self, ?_, hecost,
        le_refl _⟩
      rw [alookup_cons_ne hncur]
      exact hgcur
    · rw [alookup_cons_ne (fun h => hx h.symm)] at hxu
      obtain ⟨gx, gu, c, h1, h2, h3, h4⟩ := hc.edge_mono x u hxu
      by_cases hu : u = nb.1
      · subst hu
        have h5 := hkstrict gu h2
        refine ⟨gx, gcur + nb.2.1, c, ?_, alookup_cons_self, h3, by omega⟩
        rw [alookup_cons_ne (fun h => hx h.symm)]
        exact h1
      · refine ⟨gx, gu, c, ?_, ?_, h3, h4⟩
        · rw [alookup_cons_ne (fun h => hx h.symm)]
          exact h1
        · rw [alookup_cons_ne (fun h => hu h.symm)]
          exact h2
  · intro x gx hcx
    by_cases hx : x = nb.1
    · subst hx
      rw [alookup_cons_self] at hcx
      obtain rfl := Option.some.inj hcx
      exact ⟨wc + nb.2.1, lc ++ [nb.1], hchk, hwk⟩
    · rw [alookup_cons_ne (fun h => hx h.symm)] at hcx
      obtain ⟨wx, lx, hchx, hwx⟩ := hc.grounded x gx hcx
      obtain ⟨w', l', gy', hch', hcy', hw'le, hgy'le⟩ :=
        chainTo_graft_le hc.edge_mono hc.grounded hns
          ⟨wc + nb.2.1, lc ++ [nb.1], hchk, hwk⟩
          (fun gk hgk => le_of_lt (hkstrict gk hgk)) hchx gx hcx hwx
      rw [alookup_cons_ne (fun h => hx h.symm)] at hcy'
      rw [hcx] at hcy'
      obtain rfl := Option.some.inj hcy'
      exact ⟨w', l', hch', le_trans hw'le hgy'le⟩
  · intro x hcx
    by_cases hx : x = nb.1
    · subst hx
      exact Or.inr ⟨PQItem.mk nb.1 (gcur + nb.2.1 + hf nb.1),
        hperm.mem_iff.mpr (List.mem_cons_self _ _), rfl⟩
    · rw [alookup_cons_ne (fun h => hx h.symm)] at hcx
      rcases hc.cost_cov x hcx with hh | ⟨it, hit, he⟩
      · exact Or.inl hh
      · exact Or.inr ⟨it, hperm.mem_iff.mpr (List.mem_cons_of_mem _ hit), he⟩

/-- One pass of `ucs`/`astar`'s relaxation loop preserves the core invariant,
leaves visited and explored unchanged, enqueues at most one entry per
neighbor, keeps old frontier entries, gives every processed neighbor a cost
entry, only adds cost bindings, and never touches `current`'s own cost. -/
theorem bestVisit_fold (g : Graph) (hf : String → Nat)
    (start goal current : String) (hwf : Wf g)
    (hreach : Reachable g start current) :
    ∀ (nbs : List (String × Nat × Nat)), (∀ nb ∈ nbs, nb ∈ getNeighbors g current) →
      ∀ (acc : BestState), BestCore g start goal acc →
        (alookup acc.cost current).isSome = true →
        BestCore g start goal (nbs.foldl (bestVisit hf current) acc) ∧
        (nbs.foldl (bestVisit hf current) acc).visited = acc.visited ∧
        (nbs.foldl (bestVisit hf current) acc).exploredOrder =
          acc.exploredOrder ∧
        (nbs.foldl (bestVisit hf current) acc).pq.items.length ≤
          acc.pq.items.length + nbs.length ∧
        (∀ it ∈ acc.pq.items,
          it ∈ (nbs.foldl (bestVisit hf current) acc).pq.items) ∧
        (∀ nb ∈ nbs,
          (alookup (nbs.foldl (bestVisit hf current) acc).cost nb.1).isSome =
            true) ∧
        (∀ x, (alookup acc.cost x).isSome = true →
          (alookup (nbs.foldl (bestVisit hf current) acc).cost x).isSome =
            true) ∧
        (∀ gc : Nat, alookup acc.cost current = some gc →
          alookup (nbs.foldl (bestVisit hf current) acc).cost current =
            some gc) := by
  intro nbs
  induction nbs with
  | nil =>
    intro _ acc hc _
    exact ⟨hc, rfl, rfl, by simp, fun it hx => hx, by simp, fun x hx => hx,
      fun gc hgc => hgc⟩
  | cons nb rest ih =>
    intro hmem acc hc hcur
    rw [List.foldl_cons]
    have hnb := hmem nb (List.mem_cons_self _ _)
    obtain ⟨gcur, hgcur⟩ := Option.isSome_iff_exists.mp hcur
    have hstep : BestCore g start goal (bestVisit hf current acc nb) ∧
        (bestVisit hf current acc nb).visited = acc.visited ∧
        (bestVisit hf current acc nb).exploredOrder = acc.exploredOrder ∧
        (bestVisit hf current acc nb).pq.items.length ≤
          acc.pq.items.length + 1 ∧
        (∀ it ∈ acc.pq.items, it ∈ (bestVisit hf current acc nb).pq.items) ∧
        (alookup (bestVisit hf current acc nb).cost nb.1).isSome = true ∧
        (∀ x, (alookup acc.cost x).isSome = true →
          (alookup (bestVisit hf current acc nb).cost x).isSome = true) ∧
        (∀ gc : Nat, alookup acc.cost current = some gc →
          alookup (bestVisit hf current acc nb).cost current = some gc) := by
      have hwrite : ∀ (hks : ∀ gk, alookup acc.cost nb.1 = some gk →
          gcur + nb.2.1 < gk),
          (bestImproves acc current nb = true) →
          BestCore g start goal (bestVisit hf current acc nb) ∧
          (bestVisit hf current acc nb).visited = acc.visited ∧
          (bestVisit hf current acc nb).exploredOrder = acc.exploredOrder ∧
          (bestVisit hf current acc nb).pq.items.length ≤
            acc.pq.items.length + 1 ∧
          (∀ it ∈ acc.pq.items, it ∈ (bestVisit hf current acc nb).pq.items) ∧
          (alookup (bestVisit hf current acc nb).cost nb.1).isSome = true ∧
          (∀ x, (alookup acc.cost x).isSome = true →
            (alookup (bestVisit hf current acc nb).cost x).isSome = true) ∧
          (∀ gc : Nat, alookup acc.cost current = some gc →
            alookup (bestVisit hf current acc nb).cost current = some gc) := by
        intro hks himpb
        have hncur : nb.1 ≠ current := by
          intro h
          have := hks gcur (by rw [h]; exact hgcur)
          omega
        have hres : bestVisit hf current acc nb =
            { acc with
              cost := (nb.1, (alookup acc.cost current).getD 0 + nb.2.1) ::
                acc.cost
              parent := (nb.1, some current) :: acc.parent
              pq := acc.pq.enqueue nb.1
                ((alookup acc.cost current).getD 0 + nb.2.1 + hf nb.1) } := by
          unfold bestVisit
          rw [if_pos himpb]
        rw [hres]
        have hperm := enqueue_items_perm acc.pq nb.1
          ((alookup acc.cost current).getD 0 + nb.2.1 + hf nb.1)
        refine ⟨bestVisit_write g hf start goal current hwf hreach acc hc nb
          hnb gcur hgcur hks, rfl, rfl, ?_, ?_, ?_, ?_, ?_⟩
        · rw [enqueue_length]
        · intro it hit
          exact hperm.mem_iff.mpr (List.mem_cons_of_mem _ hit)
        · rw [alookup_cons_self]
          rfl
        · intro x hx
          exact alookup_isSome_cons hx
        · intro gc hgc
          rw [alookup_cons_ne hncur]
          exact hgc
      cases hcn : alookup acc.cost nb.1 with
      | none =>
        have himpb : bestImproves acc current nb = true := by
          unfold bestImproves
          rw [hcn]
        exact hwrite (fun gk hgk => absurd (hcn ▸ hgk) (by simp)) himpb
      | some gnb =>
        by_cases himp : (alookup acc.cost current).getD 0 + nb.2.1 < gnb
        · have himpb : bestImproves acc current nb = true := by
            unfold bestImproves
            rw [hcn]
            exact decide_eq_true himp
          have hgd : (alookup acc.cost current).getD 0 = gcur := by
            rw [hgcur]
            rfl
          refine hwrite ?_ himpb
          intro gk hgk
          rw [hcn] at hgk
          obtain rfl := Option.some.inj hgk
          rw [hgd] at himp
          exact himp
        · have himpb : bestImproves acc current nb = false := by
            unfold bestImproves
            rw [hcn]
            exact decide_eq_false himp
          have hres : bestVisit hf current acc nb = acc := by
            unfold bestVisit
            rw [himpb]
            rfl
          rw [hres]
          refine ⟨hc, rfl, rfl, Nat.le_succ _, fun it hx => hx, ?_,
            fun x hx => hx, fun gc hgc => hgc⟩
          rw [hcn]
          rfl
    obtain ⟨hc₁, hv₁, he₁, hl₁, hs₁, hnb₁, hcm₁, hgc₁⟩ := hstep
    have hcur₁ : (alookup (bestVisit hf current acc nb).cost current).isSome =
        true := by
      rw [hgc₁ gcur hgcur]
      rfl
    obtain ⟨hc', hv', he', hl', hs', hall', hcm', hgc'⟩ :=
      ih (fun nb' hnb' => hmem _ (List.mem_cons_of_mem _ hnb')) _ hc₁ hcur₁
    refine ⟨hc', by rw [hv', hv₁], by rw [he', he₁], ?_,
      fun it hx => hs' _ (hs₁ _ hx), ?_, fun x hx => hcm' _ (hcm₁ _ hx),
      fun gc hgc => hgc' _ (hgc₁ _ hgc)⟩
    · simp only [List.length_cons]
      omega
    · intro nb' hnb'
      rcases List.mem_cons.mp hnb' with rfl | hmem'
      · exact hcm' _ hnb₁
      · exact hall' _ hmem'

set_option maxRecDepth 4000 in
/-- The `ucs`/`astar` loop terminates within the measure bound; its result is
sound and complete for any priority function (path-cost facts need more and
are proved separately under consistency). -/
theorem bestLoop_spec (g : Graph) (hf : String → Nat) (start goal : String)
    (hwf : Wf g) :
    ∀ (fuel : Nat) (st : BestState), BestInv g start goal st →
      bestMeasure g start st < fuel →
      ∃ r, bestLoop g hf start goal fuel st = some r ∧
        r.exploredOrder.Nodup ∧
        (∀ x ∈ r.exploredOrder, Reachable g start x) ∧
        (∀ x ∈ r.exploredOrder, hasNode g x) ∧
        r.nodesExplored = r.exploredOrder.length ∧
        (r.found = true → goal ∈ r.exploredOrder ∧
          IsPath g start goal r.path) ∧
        (r.found = false → r.path = [] ∧ r.pathCost = 0 ∧ goal ∉ r.exploredOrder ∧
          ∀ x, Reachable g start x → x ∈ r.exploredOrder) := by
  intro fuel
  induction fuel with
  | zero => intro st hinv hm; omega
  | succ fuel ih =>
    intro st hinv hm
    obtain ⟨hc, hclosed⟩ := hinv
    cases hitems : st.pq.items with
    | nil =>
      have hd := dequeue_nil st.pq hitems
      have hstep : bestLoop g hf start goal (fuel + 1) st =
          some (buildResult g start goal st.parent st.exploredOrder false none) := by
        simp only [bestLoop, hd]
      rw [buildResult_notfound] at hstep
      refine ⟨_, hstep, hc.explored_nodup, hc.exp_reach, hc.exp_node, rfl, ?_, ?_⟩
      · intro h
        exact absurd h (by simp)
      · intro _
        refine ⟨rfl, rfl, hc.goal_not, ?_⟩
        have hstart_exp : start ∈ st.exploredOrder := by
          rcases hc.start_in with hs | ⟨it, hit, _⟩
          · exact (hc.visited_eq start).mp hs
          · rw [hitems] at hit
            simp at hit
        intro x hx
        induction hx with
        | refl => exact hstart_exp
        | tail hru hredge ihx =>
          rename_i u x'
          obtain ⟨adjl, ha, hvsome⟩ := edges_entry_of_hasEdge hredge
          obtain ⟨c, hcc⟩ := Option.isSome_iff_exists.mp hvsome
          have hnbmem : (x', c, hFor g x') ∈ getNeighbors g u := by
            unfold getNeighbors
            rw [ha]
            exact List.mem_map_of_mem _ (alookup_mem hcc)
          have hcsome := hclosed u ihx _ hnbmem
          rcases hc.cost_cov x' hcsome with hh | ⟨it, hit, _⟩
          · exact (hc.visited_eq x').mp hh
          · rw [hitems] at hit
            simp at hit
    | cons mn tl =>
      obtain ⟨hd1, hdperm0⟩ := dequeue_shape st.pq mn tl hitems
      obtain ⟨pq2, hdq⟩ : ∃ pq2, st.pq.dequeue = (some mn.element, pq2) :=
        ⟨st.pq.dequeue.2, Prod.ext hd1 rfl⟩
      have hdperm : pq2.items.Perm tl := by
        rw [hdq] at hdperm0
        exact hdperm0
      have hmn : mn ∈ st.pq.items := by
        rw [hitems]
        exact List.mem_cons_self _ _
      have hmempq : ∀ it ∈ pq2.items, it ∈ st.pq.items := by
        intro it hit
        rw [hitems]
        exact List.mem_cons_of_mem _ (hdperm.mem_iff.mp hit)
      have hlen2 : pq2.items.length = tl.length := hdperm.length_eq
      by_cases hcv : mn.element ∈ st.visited
      · set st1 : BestState := { st with pq := pq2 }
        have hc1 : BestCore g start goal st1 := by
          constructor
          · intro it hit
            exact hc.pq_reach it (hmempq it hit)
          · intro it hit
            exact hc.pq_node it (hmempq it hit)
          · intro it hit
            exact hc.pq_cand it (hmempq it hit)
          · intro it hit
            exact hc.pq_dom it (hmempq it hit)
          · exact hc.visited_eq
          · exact hc.explored_nodup
          · exact hc.exp_reach
          · exact hc.exp_node
          · exact hc.goal_not
          · rcases hc.start_in with hs | ⟨it, hit, he⟩
            · exact Or.inl hs
            · rw [hitems] at hit
              rcases List.mem_cons.mp hit with rfl | hit'
              · exact Or.inl (he ▸ hcv)
              · exact Or.inr ⟨it, hdperm.mem_iff.mpr hit', he⟩
          · exact hc.start_parent
          · exact hc.start_cost
          · exact hc.dom_eq
          · exact hc.edge_mono
          · exact hc.grounded
          · intro x hcx
            rcases hc.cost_cov x hcx with hh | ⟨it, hit, he⟩
            · exact Or.inl hh
            · rw [hitems] at hit
              rcases List.mem_cons.mp hit with rfl | hit'
              · exact Or.inl (he ▸ hcv)
              · exact Or.inr ⟨it, hdperm.mem_iff.mpr hit', he⟩
        have hclosed1 : ∀ x ∈ st1.exploredOrder, ∀ nb ∈ getNeighbors g x,
            (alookup st1.cost nb.1).isSome = true := hclosed
        have hm1 : bestMeasure g start st1 < fuel := by
          have h1 : bestMeasure g start st1 + 1 = bestMeasure g start st := by
            unfold bestMeasure
            rw [hitems]
            show pq2.items.length + _ + 1 = tl.length + 1 + _
            rw [hlen2, show st1.visited = st.visited from rfl]
            omega
          omega
        obtain ⟨r, hr, hposts⟩ := ih st1 ⟨hc1, hclosed1⟩ hm1
        refine ⟨r, ?_, hposts⟩
        simp only [bestLoop, hdq, if_pos hcv]
        exact hr
      · have hcne : mn.element ∉ st.exploredOrder :=
          fun h => hcv ((hc.visited_eq mn.element).mpr h)
        by_cases hg : mn.element = goal
        · obtain ⟨gx, hgx⟩ := Option.isSome_iff_exists.mp
            ((hc.dom_eq mn.element).mp (hc.pq_dom mn hmn))
          obtain ⟨w, l, hch, hwle⟩ := hc.grounded mn.element gx hgx
          have hchg : ChainTo g st.parent start goal w l := hg ▸ hch
          obtain ⟨hf', hp, he, hn, hcost⟩ :=
            @buildResult_found g start goal st.parent
              (st.exploredOrder ++ [mn.element]) (some st.cost) w l hchg
          have hstep : bestLoop g hf start goal (fuel + 1) st =
              some (buildResult g start goal st.parent
                (st.exploredOrder ++ [mn.element]) true (some st.cost)) := by
            simp only [bestLoop, hdq, if_neg hcv, if_pos hg]
          refine ⟨_, hstep, ?_, ?_, ?_, ?_, ?_, ?_⟩
          · rw [he]
            simp [List.nodup_append, hc.explored_nodup, hcne]
          · rw [he]
            intro x hx
            rcases List.mem_append.mp hx with hx | hx
            · exact hc.exp_reach x hx
            · obtain rfl : x = mn.element := by simpa using hx
              exact hc.pq_reach _ hmn
          · rw [he]
            intro x hx
            rcases List.mem_append.mp hx with hx | hx
            · exact hc.exp_node x hx
            · obtain rfl : x = mn.element := by simpa using hx
              exact hc.pq_node _ hmn
          · rw [hn, he]
          · intro _
            refine ⟨?_, ?_⟩
            · rw [he]
              exact List.mem_append_right _ (by simp [hg])
            · rw [hp]
              exact (chainTo_isPath hchg).1
          · intro h
            rw [hf'] at h
            exact absurd h (by simp)
        · have hreach : Reachable g start mn.element := hc.pq_reach mn hmn
          have hcur : (alookup st.cost mn.element).isSome = true :=
            (hc.dom_eq mn.element).mp (hc.pq_dom mn hmn)
          set st1 : BestState :=
            { st with
                pq := pq2
                visited := mn.element :: st.visited
                exploredOrder := st.exploredOrder ++ [mn.element] }
          set st2 : BestState := bestRelax g hf mn.element st1
          have hst2 : st2 = (getNeighbors g mn.element).foldl
              (bestVisit hf mn.element) st1 := rfl
          have hc1 : BestCore g start goal st1 := by
            constructor
            · intro it hit
              exact hc.pq_reach it (hmempq it hit)
            · intro it hit
              exact hc.pq_node it (hmempq it hit)
            · intro it hit
              exact hc.pq_cand it (hmempq it hit)
            · intro it hit
              exact hc.pq_dom it (hmempq it hit)
            · intro x
              show x ∈ mn.element :: st.visited ↔
                x ∈ st.exploredOrder ++ [mn.element]
              rw [List.mem_cons, hc.visited_eq x, List.mem_append]
              simp only [List.mem_singleton]
              tauto
            · simp [List.nodup_append, hc.explored_nodup, hcne]
            · intro x hx
              rcases List.mem_append.mp hx with hx | hx
              · exact hc.exp_reach x hx
              · obtain rfl : x = mn.element := by simpa using hx
                exact hreach
            · intro x hx
              rcases List.mem_append.mp hx with hx | hx
              · exact hc.exp_node x hx
              · obtain rfl : x = mn.element := by simpa using hx
                exact hc.pq_node _ hmn
            · simp only [List.mem_append, List.mem_singleton]
              push_neg
              exact ⟨hc.goal_not, fun hcg => hg hcg.symm⟩
            · rcases hc.start_in with hs | ⟨it, hit, he⟩
              · exact Or.inl (List.mem_cons_of_mem _ hs)
              · rw [hitems] at hit
                rcases List.mem_cons.mp hit with rfl | hit'
                · exact Or.inl (he ▸ List.mem_cons_self _ _)
                · exact Or.inr ⟨it, hdperm.mem_iff.mpr hit', he⟩
            · exact hc.start_parent
            · exact hc.start_cost
            · exact hc.dom_eq
            · exact hc.edge_mono
            · exact hc.grounded
            · intro x hcx
              rcases hc.cost_cov x hcx with hh | ⟨it, hit, he⟩
              · exact Or.inl (List.mem_cons_of_mem _ hh)
              · rw [hitems] at hit
                rcases List.mem_cons.mp hit with rfl | hit'
                · exact Or.inl (he ▸ List.mem_cons_self _ _)
                · exact Or.inr ⟨it, hdperm.mem_iff.mpr hit', he⟩
          obtain ⟨hcore', hvis', hexp', hlen', hsm', hall', hcm', hgc'⟩ :=
            bestVisit_fold g hf start goal mn.element hwf hreach
              (getNeighbors g mn.element) (fun nb h => h) st1 hc1 hcur
          rw [← hst2] at hcore' hvis' hexp' hlen' hsm' hall' hcm' hgc'
          have hclosed' : ∀ x ∈ st2.exploredOrder, ∀ nb ∈ getNeighbors g x,
              (alookup st2.cost nb.1).isSome = true := by
            rw [show st2.exploredOrder = st1.exploredOrder from hexp']
            intro x hx nb hnb
            rcases List.mem_append.mp hx with hx | hx
            · exact hcm' _ (hclosed x hx nb hnb)
            · obtain rfl : x = mn.element := by simpa using hx
              exact hall' nb hnb
          have hm' : bestMeasure g start st2 < fuel := by
            have hu : unvisitedCount g start st1.visited + 1 ≤
                unvisitedCount g start st.visited := by
              have := unvisitedCount_cons_lt g start mn.element st.visited
                (hc.pq_cand mn hmn) hcv
              show unvisitedCount g start (mn.element :: st.visited) + 1 ≤
                unvisitedCount g start st.visited
              omega
            have hmul : (edgeTotal g + 1) * unvisitedCount g start st1.visited +
                (edgeTotal g + 1) ≤
                (edgeTotal g + 1) * unvisitedCount g start st.visited := by
              have h1 : (edgeTotal g + 1) * unvisitedCount g start st1.visited +
                  (edgeTotal g + 1) =
                  (edgeTotal g + 1) *
                    (unvisitedCount g start st1.visited + 1) := by
                ring
              rw [h1]
              exact Nat.mul_le_mul (Nat.le_refl _) hu
            have hnlen := neighbors_length_le g mn.element
            have hst1len : st1.pq.items.length = tl.length := hlen2
            have hst2m : bestMeasure g start st2 =
                st2.pq.items.length + (edgeTotal g + 1) *
                  unvisitedCount g start st1.visited := by
              unfold bestMeasure
              rw [hvis']
            have hstm : bestMeasure g start st =
                tl.length + 1 + (edgeTotal g + 1) *
                  unvisitedCount g start st.visited := by
              unfold bestMeasure
              rw [hitems]
              simp [Nat.add_comm, Nat.add_assoc, Nat.add_left_comm]
            omega
          obtain ⟨r, hr, hposts⟩ := ih st2 ⟨hcore', hclosed'⟩ hm'
          refine ⟨r, ?_, hposts⟩
          simp only [bestLoop, hdq, if_neg hcv, if_neg hg]
          exact hr

/-- The initial `ucs`/`astar` state satisfies the loop invariant, whatever
priority the start entry carries. -/
theorem bestInit_inv (g : Graph) (start goal : String)
    (hstart : hasNode g start) (P : Nat) :
    BestInv g start goal
      ⟨PQueue.empty.enqueue start P, [], [(start, none)], [(start, 0)], []⟩ := by
  have hitems : (PQueue.empty.enqueue start P).items = [PQItem.mk start P] := rfl
  refine ⟨?_, ?_⟩
  · constructor
    · intro it hit
      rw [hitems] at hit
      obtain rfl : it = PQItem.mk start P := by simpa using hit
      exact reachable_refl g start
    · intro it hit
      rw [hitems] at hit
      obtain rfl : it = PQItem.mk start P := by simpa using hit
      exact hstart
    · intro it hit
      rw [hitems] at hit
      obtain rfl : it = PQItem.mk start P := by simpa using hit
      exact List.mem_cons_self _ _
    · intro it hit
      rw [hitems] at hit
      obtain rfl : it = PQItem.mk start P := by simpa using hit
      rw [alookup_cons_self]
      rfl
    · intro x
      simp
    · simp
    · intro x hx
      simp at hx
    · intro x hx
      simp at hx
    · simp
    · refine Or.inr ⟨PQItem.mk start P, ?_, rfl⟩
      rw [hitems]
      exact List.mem_cons_self _ _
    · exact alookup_cons_self
    · exact alookup_cons_self
    · intro x
      by_cases hxs : x = start
      · subst hxs
        rw [alookup_cons_self, alookup_cons_self]
        exact ⟨fun _ => rfl, fun _ => rfl⟩
      · rw [alookup_cons_ne (fun h => hxs h.symm),
          alookup_cons_ne (fun h => hxs h.symm)]
        simp [alookup]
    · intro x u hxu
      by_cases hxs : x = start
      · subst hxs
        rw [alookup_cons_self] at hxu
        exact Option.noConfusion (Option.some.inj hxu)
      · rw [alookup_cons_ne (fun h => hxs h.symm)] at hxu
        simp [alookup] at hxu
    · intro x gx hcx
      by_cases hxs : x = start
      · subst hxs
        rw [alookup_cons_self] at hcx
        obtain rfl := Option.some.inj hcx
        exact ⟨0, [x], ChainTo.base alookup_cons_self, le_refl _⟩
      · rw [alookup_cons_ne (fun h => hxs h.symm)] at hcx
        simp [alookup] at hcx
    · intro x hcx
      by_cases hxs : x = start
      · subst hxs
        refine Or.inr ⟨PQItem.mk x P, ?_, rfl⟩
        rw [hitems]
        exact List.mem_cons_self _ _
      · rw [alookup_cons_ne (fun h => hxs h.symm)] at hcx
        simp [alookup] at hcx
  · intro x hx
    simp at hx

/-- The initial `ucs`/`astar` state is within the fuel budget. -/
theorem bestInit_measure (g : Graph) (start : String) (P : Nat) :
    bestMeasure g start
      ⟨PQueue.empty.enqueue start P, [], [(start, none)], [(start, 0)], []⟩ <
      searchFuel g start := by
  have hitems : (PQueue.empty.enqueue start P).items = [PQItem.mk start P] := rfl
  have h1 := unvisitedCount_le g start []
  have h2 := (searchFuel_big g start).1
  have h3 : (edgeTotal g + 1) * unvisitedCount g start [] ≤
      (edgeTotal g + 1) * (candList g start).dedup.length :=
    Nat.mul_le_mul (Nat.le_refl _) h1
  show (PQueue.empty.enqueue start P).items.length +
    (edgeTotal g + 1) * unvisitedCount g start [] < searchFuel g start
  rw [hitems]
  simp only [List.length_cons, List.length_nil]
  omega

/-- Facts about a completed `ucs` run that hold with no assumptions beyond
well-formedness: termination, soundness and completeness (optimality of the
returned cost is proved separately). -/
theorem ucs_spec (g : Graph) (start goal : String) (hwf : Wf g)
    (hstart : hasNode g start) :
    bestLoop g (fun _ => 0) start goal (searchFuel g start)
        ⟨PQueue.empty.enqueue start 0, [], [(start, none)], [(start, 0)], []⟩ =
      some (ucs g start goal) ∧
    (ucs g start goal).exploredOrder.Nodup ∧
    (∀ x ∈ (ucs g start goal).exploredOrder, Reachable g start x) ∧
    (∀ x ∈ (ucs g start goal).exploredOrder, hasNode g x) ∧
    (ucs g start goal).nodesExplored = (ucs g start goal).exploredOrder.length ∧
    ((ucs g start goal).found = true →
      goal ∈ (ucs g start goal).exploredOrder ∧
      IsPath g start goal (ucs g start goal).path) ∧
    ((ucs g start goal).found = false → (ucs g start goal).path = [] ∧
      (ucs g start goal).pathCost = 0 ∧
      goal ∉ (ucs g start goal).exploredOrder ∧
      ∀ x, Reachable g start x → x ∈ (ucs g start goal).exploredOrder) := by
  obtain ⟨r, hr, hposts⟩ :=
    bestLoop_spec g (fun _ => 0) start goal hwf (searchFuel g start) _
      (bestInit_inv g start goal hstart 0) (bestInit_measure g start 0)
  have hb : ucs g start goal = r := by
    unfold ucs
    rw [hr]
    rfl
  rw [hb]
  exact ⟨hr, hposts⟩

/-- Facts about a completed `astar` run that hold with no assumptions on the
heuristic: termination, soundness, completeness, and validity of the returned
path (its cost field is related to the path weight only under consistency). -/
theorem astar_spec (g : Graph) (start goal : String) (hwf : Wf g)
    (hstart : hasNode g start) :
    bestLoop g (hFor g) start goal (searchFuel g start)
        ⟨PQueue.empty.enqueue start (hFor g start), [], [(start, none)],
          [(start, 0)], []⟩ = some (astar g start goal) ∧
    (astar g start goal).exploredOrder.Nodup ∧
    (∀ x ∈ (astar g start goal).exploredOrder, Reachable g start x) ∧
    (∀ x ∈ (astar g start goal).exploredOrder, hasNode g x) ∧
    (astar g start goal).nodesExplored =
      (astar g start goal).exploredOrder.length ∧
    ((astar g start goal).found = true →
      goal ∈ (astar g start goal).exploredOrder ∧
      IsPath g start goal (astar g start goal).path) ∧
    ((astar g start goal).found = false → (astar g start goal).path = [] ∧
      (astar g start goal).pathCost = 0 ∧
      goal ∉ (astar g start goal).exploredOrder ∧
      ∀ x, Reachable g start x → x ∈ (astar g start goal).exploredOrder) := by
  obtain ⟨r, hr, hposts⟩ :=
    bestLoop_spec g (hFor g) start goal hwf (searchFuel g start) _
      (bestInit_inv g start goal hstart (hFor g start))
      (bestInit_measure g start (hFor g start))
  have hb : astar g start goal = r := by
    unfold astar
    rw [hr]
    rfl
  rw [hb]
  exact ⟨hr, hposts⟩

/-! ### One-iteration runs (`start = goal`) -/

theorem searchFuel_pos (g : Graph) (s : String) : 0 < searchFuel g s := by
  unfold searchFuel
  omega

theorem walkChain_self (v : String) :
    walkChain [(v, (none : Option String))] 2 v [] = [v] := by
  simp only [walkChain, alookup_cons_self]

/-- `buildResult` at `start = goal` with the one-entry parent map. -/
theorem buildResult_self (g : Graph) (v : String)
    (cm : Option (List (String × Nat))) (hcm : cm = none ∨ cm = some [(v, 0)]) :
    buildResult g v v [(v, none)] [v] true cm = ⟨true, [v], 0, 1, [v]⟩ := by
  unfold buildResult
  rw [if_pos (by rw [alookup_cons_self]; rfl)]
  have hw : walkChain [(v, (none : Option String))]
      ([(v, (none : Option String))].length + 1) v [] = [v] := walkChain_self v
  rcases hcm with rfl | rfl
  · simp only [hw]
    rfl
  · simp only [hw, alookup_cons_self]
    rfl

theorem bfs_self (g : Graph) (v : String) :
    bfs g v v = ⟨true, [v], 0, 1, [v]⟩ := by
  unfold bfs
  obtain ⟨n, hn⟩ : ∃ n, searchFuel g v = n + 1 :=
    ⟨searchFuel g v - 1, by have := searchFuel_pos g v; omega⟩
  rw [hn]
  simp only [bfsLoop]
  rw [if_pos trivial]
  simp only [List.nil_append]
  rw [buildResult_self g v none (Or.inl rfl)]
  rfl

theorem dfs_self (g : Graph) (v : String) :
    dfs g v v = ⟨true, [v], 0, 1, [v]⟩ := by
  unfold dfs
  obtain ⟨n, hn⟩ : ∃ n, searchFuel g v = n + 1 :=
    ⟨searchFuel g v - 1, by have := searchFuel_pos g v; omega⟩
  rw [hn]
  simp only [dfsLoop]
  rw [if_pos trivial]
  simp only [List.nil_append]
  rw [buildResult_self g v none (Or.inl rfl)]
  rfl

theorem dequeue_singleton (v : String) (p : Nat) :
    (PQueue.mk [PQItem.mk v p]).dequeue = (some v, PQueue.mk []) := rfl

theorem ucs_self (g : Graph) (v : String) :
    ucs g v v = ⟨true, [v], 0, 1, [v]⟩ := by
  unfold ucs
  obtain ⟨n, hn⟩ : ∃ n, searchFuel g v = n + 1 :=
    ⟨searchFuel g v - 1, by have := searchFuel_pos g v; omega⟩
  rw [hn]
  have hq : PQueue.empty.enqueue v 0 = PQueue.mk [PQItem.mk v 0] := rfl
  rw [hq]
  simp only [bestLoop, dequeue_singleton]
  rw [if_pos trivial]
  simp only [List.nil_append]
  rw [buildResult_self g v (some [(v, 0)]) (Or.inr rfl)]
  rfl

theorem astar_self (g : Graph) (v : String) :
    astar g v v = ⟨true, [v], 0, 1, [v]⟩ := by
  unfold astar
  obtain ⟨n, hn⟩ : ∃ n, searchFuel g v = n + 1 :=
    ⟨searchFuel g v - 1, by have := searchFuel_pos g v; omega⟩
  rw [hn]
  have hq : PQueue.empty.enqueue v (hFor g v) =
      PQueue.mk [PQItem.mk v (hFor g v)] := rfl
  rw [hq]
  simp only [bestLoop, dequeue_singleton]
  rw [if_pos trivial]
  simp only [List.nil_append]
  rw [buildResult_self g v (some [(v, 0)]) (Or.inr rfl)]
  rfl

theorem greedy_self (g : Graph) (v : String) :
    greedy g v v = ⟨true, [v], 0, 1, [v]⟩ := by
  unfold greedy
  obtain ⟨n, hn⟩ : ∃ n, searchFuel g v = n + 1 :=
    ⟨searchFuel g v - 1, by have := searchFuel_pos g v; omega⟩
  rw [hn]
  have hq : PQueue.empty.enqueue v (hFor g v) =
      PQueue.mk [PQItem.mk v (hFor g v)] := rfl
  rw [hq]
  simp only [greedyLoop, dequeue_singleton]
  rw [if_pos trivial]
  simp only [List.nil_append]
  rw [buildResult_self g v (some [(v, 0)]) (Or.inr rfl)]
  rfl

/-! ### Claims C5, C6, C7 -/

/-- When `start ≠ goal` is reachable, `start` has an outgoing edge, so
well-formedness puts it in the node map. -/
theorem reachable_ne_hasNode {g : Graph} {start goal : String} (hwf : Wf g)
    (hne : start ≠ goal) (h : Reachable g start goal) : hasNode g start := by
  rcases Relation.ReflTransGen.cases_head h with heq | ⟨c, hedge, -⟩
  · exact absurd heq hne
  · obtain ⟨adjl, ha, -⟩ := edges_entry_of_hasEdge hedge
    exact (hwf.2.2 (start, adjl) (alookup_mem ha)).1

theorem nodup_subset_length_le {l₁ l₂ : List String} (h : l₁.Nodup)
    (hs : ∀ x ∈ l₁, x ∈ l₂) : l₁.length ≤ l₂.length := by
  calc l₁.length = l₁.toFinset.card := (List.toFinset_card_of_nodup h).symm
    _ ≤ l₂.toFinset.card := Finset.card_le_card
        (fun a ha => List.mem_toFinset.mpr (hs a (List.mem_toFinset.mp ha)))
    _ ≤ l₂.length := l₂.toFinset_card_le

theorem hasNode_mem_nodeKeys {g : Graph} {v : String} (h : hasNode g v) :
    v ∈ nodeKeys g := alookup_isSome_mem h

/-- C5: on every well-formed graph, whenever `goal` is reachable from `start`
along directed edges, each of the five strategies returns `found = true` with
`goal` in its explored order. -/
theorem claim_C5 (g : Graph) (start goal : String) (hwf : Wf g)
    (hreach : Reachable g start goal) :
    ((bfs g start goal).found = true ∧
      goal ∈ (bfs g start goal).exploredOrder) ∧
    ((dfs g start goal).found = true ∧
      goal ∈ (dfs g start goal).exploredOrder) ∧
    ((ucs g start goal).found = true ∧
      goal ∈ (ucs g start goal).exploredOrder) ∧
    ((astar g start goal).found = true ∧
      goal ∈ (astar g start goal).exploredOrder) ∧
    ((greedy g start goal).found = true ∧
      goal ∈ (greedy g start goal).exploredOrder) := by
  by_cases hsg : start = goal
  · subst hsg
    rw [bfs_self, dfs_self, ucs_self, astar_self, greedy_self]
    refine ⟨⟨rfl, ?_⟩, ⟨rfl, ?_⟩, ⟨rfl, ?_⟩, ⟨rfl, ?_⟩, ⟨rfl, ?_⟩⟩ <;>
      exact List.mem_cons_self _ _
  · have hstart := reachable_ne_hasNode hwf hsg hreach
    refine ⟨?_, ?_, ?_, ?_, ?_⟩
    · obtain ⟨-, -, -, -, -, hfound, hnfound⟩ := bfs_spec g start goal hwf hstart
      cases hf : (bfs g start goal).found
      · obtain ⟨-, -, hgn, hall⟩ := hnfound hf
        exact absurd (hall goal hreach) hgn
      · exact ⟨rfl, (hfound hf).1⟩
    · obtain ⟨-, -, -, -, -, hfound, hnfound⟩ := dfs_spec g start goal hwf hstart
      cases hf : (dfs g start goal).found
      · obtain ⟨-, -, hgn, hall⟩ := hnfound hf
        exact absurd (hall goal hreach) hgn
      · exact ⟨rfl, (hfound hf).1⟩
    · obtain ⟨-, -, -, -, -, hfound, hnfound⟩ := ucs_spec g start goal hwf hstart
      cases hf : (ucs g start goal).found
      · obtain ⟨-, -, hgn, hall⟩ := hnfound hf
        exact absurd (hall goal hreach) hgn
      · exact ⟨rfl, (hfound hf).1⟩
    · obtain ⟨-, -, -, -, -, hfound, hnfound⟩ :=
        astar_spec g start goal hwf hstart
      cases hf : (astar g start goal).found
      · obtain ⟨-, -, hgn, hall⟩ := hnfound hf
        exact absurd (hall goal hreach) hgn
      · exact ⟨rfl, (hfound hf).1⟩
    · obtain ⟨-, -, -, -, -, hfound, hnfound⟩ :=
        greedy_spec g start goal hwf hstart
      cases hf : (greedy g start goal).found
      · obtain ⟨-, -, hgn, hall⟩ := hnfound hf
        exact absurd (hall goal hreach) hgn
      · exact ⟨rfl, (hfound hf).1⟩

/-- Witness for C5 at a concrete instance. -/
theorem claim_C5_wit :
    Wf twoGraph ∧ Reachable twoGraph "X" "X" ∧
    (((bfs twoGraph "X" "X").found = true ∧
      "X" ∈ (bfs twoGraph "X" "X").exploredOrder) ∧
    ((dfs twoGraph "X" "X").found = true ∧
      "X" ∈ (dfs twoGraph "X" "X").exploredOrder) ∧
    ((ucs twoGraph "X" "X").found = true ∧
      "X" ∈ (ucs twoGraph "X" "X").exploredOrder) ∧
    ((astar twoGraph "X" "X").found = true ∧
      "X" ∈ (astar twoGraph "X" "X").exploredOrder) ∧
    ((greedy twoGraph "X" "X").found = true ∧
      "X" ∈ (greedy twoGraph "X" "X").exploredOrder)) :=
  ⟨by decide, Relation.ReflTransGen.refl,
    claim_C5 twoGraph "X" "X" (by decide) Relation.ReflTransGen.refl⟩

/-- On `twoGraph` the vertex `Y` is not reachable from `X`: `X` has no
outgoing edges at all. -/
theorem twoGraph_unreach : ¬ Reachable twoGraph "X" "Y" := by
  intro h
  rcases Relation.ReflTransGen.cases_head h with heq | ⟨c, hedge, -⟩
  · exact absurd heq (by decide)
  · have hnone : edgeCost? twoGraph "X" c = none := rfl
    unfold hasEdge at hedge
    rw [hnone] at hedge
    exact absurd hedge (by simp)

/-- C6: on every well-formed graph with `start` a vertex, when `goal` is not
reachable from `start`, each of the five strategies reports `found = false`
with an empty path, zero path cost, and an explored order holding exactly the
vertices reachable from `start`. -/
theorem claim_C6 (g : Graph) (start goal : String) (hwf : Wf g)
    (hstart : hasNode g start) (hunreach : ¬ Reachable g start goal) :
    ((bfs g start goal).found = false ∧ (bfs g start goal).path = [] ∧
      (bfs g start goal).pathCost = 0 ∧
      ∀ x, x ∈ (bfs g start goal).exploredOrder ↔ Reachable g start x) ∧
    ((dfs g start goal).found = false ∧ (dfs g start goal).path = [] ∧
      (dfs g start goal).pathCost = 0 ∧
      ∀ x, x ∈ (dfs g start goal).exploredOrder ↔ Reachable g start x) ∧
    ((ucs g start goal).found = false ∧ (ucs g start goal).path = [] ∧
      (ucs g start goal).pathCost = 0 ∧
      ∀ x, x ∈ (ucs g start goal).exploredOrder ↔ Reachable g start x) ∧
    ((astar g start goal).found = false ∧ (astar g start goal).path = [] ∧
      (astar g start goal).pathCost = 0 ∧
      ∀ x, x ∈ (astar g start goal).exploredOrder ↔ Reachable g start x) ∧
    ((greedy g start goal).found = false ∧ (greedy g start goal).path = [] ∧
      (greedy g start goal).pathCost = 0 ∧
      ∀ x, x ∈ (greedy g start goal).exploredOrder ↔ Reachable g start x) := by
  refine ⟨?_, ?_, ?_, ?_, ?_⟩
  · obtain ⟨-, -, hre, -, -, hfound, hnfound⟩ := bfs_spec g start goal hwf hstart
    cases hf : (bfs g start goal).found
    · obtain ⟨hp, hcost, -, hall⟩ := hnfound hf
      exact ⟨rfl, hp, hcost, fun x => ⟨hre x, hall x⟩⟩
    · exact absurd (hre goal (hfound hf).1) hunreach
  · obtain ⟨-, -, hre, -, -, hfound, hnfound⟩ := dfs_spec g start goal hwf hstart
    cases hf : (dfs g start goal).found
    · obtain ⟨hp, hcost, -, hall⟩ := hnfound hf
      exact ⟨rfl, hp, hcost, fun x => ⟨hre x, hall x⟩⟩
    · exact absurd (hre goal (hfound hf).1) hunreach
  · obtain ⟨-, -, hre, -, -, hfound, hnfound⟩ := ucs_spec g start goal hwf hstart
    cases hf : (ucs g start goal).found
    · obtain ⟨hp, hcost, -, hall⟩ := hnfound hf
      exact ⟨rfl, hp, hcost, fun x => ⟨hre x, hall x⟩⟩
    · exact absurd (hre goal (hfound hf).1) hunreach
  · obtain ⟨-, -, hre, -, -, hfound, hnfound⟩ :=
      astar_spec g start goal hwf hstart
    cases hf : (astar g start goal).found
    · obtain ⟨hp, hcost, -, hall⟩ := hnfound hf
      exact ⟨rfl, hp, hcost, fun x => ⟨hre x, hall x⟩⟩
    · exact absurd (hre goal (hfound hf).1) hunreach
  · obtain ⟨-, -, hre, -, -, hfound, hnfound⟩ :=
      greedy_spec g start goal hwf hstart
    cases hf : (greedy g start goal).found
    · obtain ⟨hp, hcost, -, hall⟩ := hnfound hf
      exact ⟨rfl, hp, hcost, fun x => ⟨hre x, hall x⟩⟩
    · exact absurd (hre goal (hfound hf).1) hunreach

/-- Witness for C6 at a concrete instance. -/
theorem claim_C6_wit :
    Wf twoGraph ∧ hasNode twoGraph "X" ∧ ¬ Reachable twoGraph "X" "Y" ∧
    (((bfs twoGraph "X" "Y").found = false ∧ (bfs twoGraph "X" "Y").path = [] ∧
      (bfs twoGraph "X" "Y").pathCost = 0 ∧
      ∀ x, x ∈ (bfs twoGraph "X" "Y").exploredOrder ↔ Reachable twoGraph "X" x) ∧
    ((dfs twoGraph "X" "Y").found = false ∧ (dfs twoGraph "X" "Y").path = [] ∧
      (dfs twoGraph "X" "Y").pathCost = 0 ∧
      ∀ x, x ∈ (dfs twoGraph "X" "Y").exploredOrder ↔ Reachable twoGraph "X" x) ∧
    ((ucs twoGraph "X" "Y").found = false ∧ (ucs twoGraph "X" "Y").path = [] ∧
      (ucs twoGraph "X" "Y").pathCost = 0 ∧
      ∀ x, x ∈ (ucs twoGraph "X" "Y").exploredOrder ↔ Reachable twoGraph "X" x) ∧
    ((astar twoGraph "X" "Y").found = false ∧
      (astar twoGraph "X" "Y").path = [] ∧
      (astar twoGraph "X" "Y").pathCost = 0 ∧
      ∀ x, x ∈ (astar twoGraph "X" "Y").exploredOrder ↔
        Reachable twoGraph "X" x) ∧
    ((greedy twoGraph "X" "Y").found = false ∧
      (greedy twoGraph "X" "Y").path = [] ∧
      (greedy twoGraph "X" "Y").pathCost = 0 ∧
      ∀ x, x ∈ (greedy twoGraph "X" "Y").exploredOrder ↔
        Reachable twoGraph "X" x)) :=
  ⟨by decide, by decide, twoGraph_unreach,
    claim_C6 twoGraph "X" "Y" (by decide) (by decide) twoGraph_unreach⟩

/-- C7: on every well-formed graph with `start` and `goal` vertices, each of
the five strategies terminates (its loop returns a result within the supplied
fuel), no vertex repeats in the explored order, and the explored count is at
most the number of vertices. -/
theorem claim_C7 (g : Graph) (start goal : String) (hwf : Wf g)
    (hstart : hasNode g start) (hgoal : hasNode g goal) :
    (bfsLoop g start goal (searchFuel g start)
        ⟨[start], [start], [(start, none)], []⟩ = some (bfs g start goal) ∧
      (bfs g start goal).exploredOrder.Nodup ∧
      (bfs g start goal).nodesExplored ≤ (nodeKeys g).length) ∧
    (dfsLoop g start goal (searchFuel g start)
        ⟨[start], [], [(start, none)], []⟩ = some (dfs g start goal) ∧
      (dfs g start goal).exploredOrder.Nodup ∧
      (dfs g start goal).nodesExplored ≤ (nodeKeys g).length) ∧
    (bestLoop g (fun _ => 0) start goal (searchFuel g start)
        ⟨PQueue.empty.enqueue start 0, [], [(start, none)], [(start, 0)], []⟩ =
        some (ucs g start goal) ∧
      (ucs g start goal).exploredOrder.Nodup ∧
      (ucs g start goal).nodesExplored ≤ (nodeKeys g).length) ∧
    (bestLoop g (hFor g) start goal (searchFuel g start)
        ⟨PQueue.empty.enqueue start (hFor g start), [], [(start, none)],
          [(start, 0)], []⟩ = some (astar g start goal) ∧
      (astar g start goal).exploredOrder.Nodup ∧
      (astar g start goal).nodesExplored ≤ (nodeKeys g).length) ∧
    (greedyLoop g start goal (searchFuel g start)
        ⟨PQueue.empty.enqueue start (hFor g start), [], [(start, none)],
          [(start, 0)], []⟩ = some (greedy g start goal) ∧
      (greedy g start goal).exploredOrder.Nodup ∧
      (greedy g start goal).nodesExplored ≤ (nodeKeys g).length) := by
  refine ⟨?_, ?_, ?_, ?_, ?_⟩
  · obtain ⟨hloop, hnd, -, hnode, hcnt, -, -⟩ := bfs_spec g start goal hwf hstart
    refine ⟨hloop, hnd, ?_⟩
    rw [hcnt]
    exact nodup_subset_length_le hnd
      (fun x hx => hasNode_mem_nodeKeys (hnode x hx))
  · obtain ⟨hloop, hnd, -, hnode, hcnt, -, -⟩ := dfs_spec g start goal hwf hstart
    refine ⟨hloop, hnd, ?_⟩
    rw [hcnt]
    exact nodup_subset_length_le hnd
      (fun x hx => hasNode_mem_nodeKeys (hnode x hx))
  · obtain ⟨hloop, hnd, -, hnode, hcnt, -, -⟩ := ucs_spec g start goal hwf hstart
    refine ⟨hloop, hnd, ?_⟩
    rw [hcnt]
    exact nodup_subset_length_le hnd
      (fun x hx => hasNode_mem_nodeKeys (hnode x hx))
  · obtain ⟨hloop, hnd, -, hnode, hcnt, -, -⟩ :=
      astar_spec g start goal hwf hstart
    refine ⟨hloop, hnd, ?_⟩
    rw [hcnt]
    exact nodup_subset_length_le hnd
      (fun x hx => hasNode_mem_nodeKeys (hnode x hx))
  · obtain ⟨hloop, hnd, -, hnode, hcnt, -, -⟩ :=
      greedy_spec g start goal hwf hstart
    refine ⟨hloop, hnd, ?_⟩
    rw [hcnt]
    exact nodup_subset_length_le hnd
      (fun x hx => hasNode_mem_nodeKeys (hnode x hx))

/-- Witness for C7 at a concrete instance. -/
theorem claim_C7_wit :
    Wf twoGraph ∧ hasNode twoGraph "X" ∧ hasNode twoGraph "Y" ∧
    ((bfsLoop twoGraph "X" "Y" (searchFuel twoGraph "X")
        ⟨["X"], ["X"], [("X", none)], []⟩ = some (bfs twoGraph "X" "Y") ∧
      (bfs twoGraph "X" "Y").exploredOrder.Nodup ∧
      (bfs twoGraph "X" "Y").nodesExplored ≤ (nodeKeys twoGraph).length) ∧
    (dfsLoop twoGraph "X" "Y" (searchFuel twoGraph "X")
        ⟨["X"], [], [("X", none)], []⟩ = some (dfs twoGraph "X" "Y") ∧
      (dfs twoGraph "X" "Y").exploredOrder.Nodup ∧
      (dfs twoGraph "X" "Y").nodesExplored ≤ (nodeKeys twoGraph).length) ∧
    (bestLoop twoGraph (fun _ => 0) "X" "Y" (searchFuel twoGraph "X")
        ⟨PQueue.empty.enqueue "X" 0, [], [("X", none)], [("X", 0)], []⟩ =
        some (ucs twoGraph "X" "Y") ∧
      (ucs twoGraph "X" "Y").exploredOrder.Nodup ∧
      (ucs twoGraph "X" "Y").nodesExplored ≤ (nodeKeys twoGraph).length) ∧
    (bestLoop twoGraph (hFor twoGraph) "X" "Y" (searchFuel twoGraph "X")
        ⟨PQueue.empty.enqueue "X" (hFor twoGraph "X"), [], [("X", none)],
          [("X", 0)], []⟩ = some (astar twoGraph "X" "Y") ∧
      (astar twoGraph "X" "Y").exploredOrder.Nodup ∧
      (astar twoGraph "X" "Y").nodesExplored ≤ (nodeKeys twoGraph).length) ∧
    (greedyLoop twoGraph "X" "Y" (searchFuel twoGraph "X")
        ⟨PQueue.empty.enqueue "X" (hFor twoGraph "X"), [], [("X", none)],
          [("X", 0)], []⟩ = some (greedy twoGraph "X" "Y") ∧
      (greedy twoGraph "X" "Y").exploredOrder.Nodup ∧
      (greedy twoGraph "X" "Y").nodesExplored ≤ (nodeKeys twoGraph).length)) :=
  ⟨by decide, by decide, by decide,
    claim_C7 twoGraph "X" "Y" (by decide) (by decide) (by decide)⟩

/-! ### Claim C10 -/

/-- C10: on every graph containing a vertex `v`, each of the five strategies
called with `start = goal = v` returns `found = true`, `path = [v]`,
`pathCost = 0`, `exploredOrder = [v]` and `nodesExplored = 1`. -/
theorem claim_C10 (g : Graph) (v : String) (hv : hasNode g v) :
    bfs g v v = ⟨true, [v], 0, 1, [v]⟩ ∧
    dfs g v v = ⟨true, [v], 0, 1, [v]⟩ ∧
    ucs g v v = ⟨true, [v], 0, 1, [v]⟩ ∧
    astar g v v = ⟨true, [v], 0, 1, [v]⟩ ∧
    greedy g v v = ⟨true, [v], 0, 1, [v]⟩ :=
  ⟨bfs_self g v, dfs_self g v, ucs_self g v, astar_self g v, greedy_self g v⟩

/-- Witness for C10 at a concrete instance. -/
theorem claim_C10_wit :
    hasNode twoGraph "X" ∧
    (bfs twoGraph "X" "X" = ⟨true, ["X"], 0, 1, ["X"]⟩ ∧
    dfs twoGraph "X" "X" = ⟨true, ["X"], 0, 1, ["X"]⟩ ∧
    ucs twoGraph "X" "X" = ⟨true, ["X"], 0, 1, ["X"]⟩ ∧
    astar twoGraph "X" "X" = ⟨true, ["X"], 0, 1, ["X"]⟩ ∧
    greedy twoGraph "X" "X" = ⟨true, ["X"], 0, 1, ["X"]⟩) :=
  ⟨by decide, claim_C10 twoGraph "X" (by decide)⟩

/-! ### Claim C8 -/

/-- `greedy`'s neighbor loop never rewrites a discovered vertex's predecessor,
nor the cost recorded together with it. -/
theorem greedyRelax_firstWrite :
    ∀ (nbs : List (String × Nat × Nat)) (current : String) (acc : BestState)
      (x : String) (o : Option String),
      alookup acc.parent x = some o →
      alookup (nbs.foldl (greedyVisit current) acc).parent x = some o ∧
      ∀ w : Nat, alookup acc.cost x = some w →
        alookup (nbs.foldl (greedyVisit current) acc).cost x = some w := by
  intro nbs
  induction nbs with
  | nil => intro current acc x o hp; exact ⟨hp, fun w hw => hw⟩
  | cons nb rest ih =>
    intro current acc x o hp
    rw [List.foldl_cons]
    have hstep : alookup (greedyVisit current acc nb).parent x = some o ∧
        ∀ w : Nat, alookup acc.cost x = some w →
          alookup (greedyVisit current acc nb).cost x = some w := by
      by_cases hv : nb.1 ∈ acc.visited
      · have hres : greedyVisit current acc nb = acc := by
          unfold greedyVisit
          rw [if_pos hv]
        rw [hres]
        exact ⟨hp, fun w hw => hw⟩
      · by_cases hpi : (alookup acc.parent nb.1).isSome = true
        · have hres : greedyVisit current acc nb =
              { acc with pq := acc.pq.enqueue nb.1 nb.2.2 } := by
            unfold greedyVisit
            rw [if_neg hv, if_pos hpi]
          rw [hres]
          exact ⟨hp, fun w hw => hw⟩
        · have hres : greedyVisit current acc nb =
              ⟨acc.pq.enqueue nb.1 nb.2.2, acc.visited,
                (nb.1, some current) :: acc.parent,
                (nb.1, (alookup acc.cost current).getD 0 + nb.2.1) :: acc.cost,
                acc.exploredOrder⟩ := by
            unfold greedyVisit
            rw [if_neg hv, if_neg hpi]
          have hxk : nb.1 ≠ x := by
            intro h
            rw [h, hp] at hpi
            exact hpi rfl
          rw [hres]
          constructor
          · show alookup ((nb.1, some current) :: acc.parent) x = some o
            rw [alookup_cons_ne hxk]
            exact hp
          · intro w hw
            show alookup ((nb.1, _) :: acc.cost) x = some w
            rw [alookup_cons_ne hxk]
            exact hw
    obtain ⟨hp₁, hc₁⟩ := hstep
    obtain ⟨hp', hc'⟩ := ih current _ x o hp₁
    refine ⟨hp', ?_⟩
    intro w hw
    exact hc' w (hc₁ w hw)

/-- C8: greedy's predecessor and cost entries are first-write-wins — once a
vertex is discovered, later discoveries never rewrite them — so the reported
`pathCost` of a found goal is exactly the accumulated edge cost along the
first-discovery predecessor chain, which need not be minimal (on `grGraph`
greedy reports 11 while a path of weight 2 exists). -/
theorem claim_C8 :
    (∀ (g : Graph) (current : String) (st : BestState) (x : String)
        (o : Option String),
      alookup st.parent x = some o →
      alookup (greedyRelax g current st).parent x = some o ∧
      ∀ w : Nat, alookup st.cost x = some w →
        alookup (greedyRelax g current st).cost x = some w) ∧
    (∀ (g : Graph) (start goal : String), Wf g → hasNode g start →
      (greedy g start goal).found = true →
      (greedy g start goal).pathCost =
        pathWeight g (greedy g start goal).path) ∧
    (IsPath grGraph "S" "G" ["S", "A", "G"] ∧
      pathWeight grGraph ["S", "A", "G"] <
        (greedy grGraph "S" "G").pathCost) := by
  refine ⟨?_, ?_, ?_, ?_⟩
  · intro g current st x o hp
    exact greedyRelax_firstWrite (getNeighbors g current) current st x o hp
  · intro g start goal hwf hstart hf
    obtain ⟨-, -, -, -, -, hfound, -⟩ := greedy_spec g start goal hwf hstart
    exact (hfound hf).2.2
  · refine ⟨rfl, rfl, ?_⟩
    rw [List.chain'_cons, List.chain'_cons]
    exact ⟨by decide, by decide, List.chain'_singleton _⟩
  · decide

/-- Witness for C8's run-level clauses at a concrete instance. -/
theorem claim_C8_wit :
    Wf grGraph ∧ hasNode grGraph "S" ∧ (greedy grGraph "S" "G").found = true ∧
    (greedy grGraph "S" "G").pathCost =
      pathWeight grGraph (greedy grGraph "S" "G").path :=
  ⟨by decide, by decide, by decide,
    claim_C8.2.1 grGraph "S" "G" (by decide) (by decide) (by decide)⟩

/-! ### The optimality argument for UCS / A* under a consistent key -/

/-- A path either is the trivial one-vertex path or decomposes into a shorter
path followed by one edge. -/
theorem isPath_snoc_cases {g : Graph} {s v : String} {P : List String}
    (h : IsPath g s v P) :
    (P = [s] ∧ v = s) ∨
    ∃ P₀ u c, P = P₀ ++ [v] ∧ IsPath g s u P₀ ∧ edgeCost? g u v = some c ∧
      pathWeight g P = pathWeight g P₀ + c := by
  induction P using List.reverseRecOn with
  | nil => exact absurd rfl (isPath_ne_nil h)
  | append_singleton P₀ a _ =>
    obtain ⟨hh, hl, hch⟩ := h
    have hav : a = v := by
      rw [List.getLast?_append_cons] at hl
      simpa using Option.some.inj hl
    subst hav
    cases hP₀ : P₀ with
    | nil =>
      subst hP₀
      left
      have has : a = s := by simpa using hh
      exact ⟨by simp [has], has⟩
    | cons b t =>
      right
      subst hP₀
      have hhead : b = s := by simpa using hh
      obtain ⟨hu, hulast⟩ : ∃ u, (b :: t).getLast? = some u :=
        ⟨(b :: t).getLast (by simp), List.getLast?_eq_getLast _ (by simp)⟩
      rw [List.chain'_append] at hch
      obtain ⟨hch₀, -, hlink⟩ := hch
      have hedge : hasEdge g hu a := by
        have := hlink hu hulast a rfl
        exact this
      obtain ⟨c, hc⟩ := Option.isSome_iff_exists.mp hedge
      refine ⟨b :: t, hu, c, rfl, ⟨by simpa using hhead, hulast, hch₀⟩, hc, ?_⟩
      rw [pathWeight_append_last g (b :: t) hu a hulast, hc]
      rfl

/-- The key lemma behind Dijkstra/A* optimality: with a consistent key, when
the heap root is about to be expanded, its priority is at most the weight of
any path to any unvisited vertex plus that vertex's key. -/
theorem pop_min (g : Graph) (hf : String → Nat) (start goal : String)
    (hcons : ∀ u v c, edgeCost? g u v = some c → hf u ≤ c + hf v)
    (st : BestState) (hc : BestCore g start goal st)
    (ho : BestOpt g hf start st) (mn : PQItem String) (tl : List (PQItem String))
    (hitems : st.pq.items = mn :: tl) :
    ∀ (P : List String) (v : String), IsPath g start v P → v ∉ st.visited →
      mn.priority ≤ pathWeight g P + hf v := by
  have hheap : heapProp (mn :: tl) := hitems ▸ ho.heap
  suffices H : ∀ (n : Nat) (P : List String) (v : String), P.length ≤ n →
      IsPath g start v P → v ∉ st.visited →
      mn.priority ≤ pathWeight g P + hf v by
    intro P v hP hv
    exact H P.length P v (le_refl _) hP hv
  intro n
  induction n with
  | zero =>
    intro P v hlen hP _
    have := isPath_ne_nil hP
    cases P with
    | nil => exact absurd rfl this
    | cons a t => simp at hlen
  | succ n ih =>
    intro P v hlen hP hv
    rcases isPath_snoc_cases hP with ⟨rfl, rfl⟩ | ⟨P₀, u, c, rfl, hP₀, hec, hw⟩
    · obtain ⟨it, hit, helem, hprio⟩ :=
        ho.unvisited_entry v 0 hc.start_cost hv
      have hroot := heapProp_root_min hheap it (by rw [← hitems]; exact hit)
      show mn.priority ≤ pathWeight g [v] + hf v
      have hpw : pathWeight g [v] = 0 := rfl
      omega
    · by_cases hu : u ∈ st.visited
      · obtain ⟨gu, hgu, hub⟩ := ho.visited_lb u hu
        have hP₀w := hub P₀ hP₀
        have hnbmem : (v, c, hFor g v) ∈ getNeighbors g u := by
          have hedge : hasEdge g u v := by
            unfold hasEdge
            rw [hec]
            rfl
          obtain ⟨adjl, ha, -⟩ := edges_entry_of_hasEdge hedge
          have hvc : (v, c) ∈ adjl := by
            apply alookup_mem
            have h2 : edgeCost? g u v = alookup adjl v := by
              unfold edgeCost?
              rw [ha]
              rfl
            rw [← h2]
            exact hec
          unfold getNeighbors
          rw [ha]
          exact List.mem_map.mpr ⟨(v, c), hvc, rfl⟩
        obtain ⟨gu', gn, hgu', hgn, hrel⟩ := ho.relaxed u hu _ hnbmem
        rw [hgu] at hgu'
        obtain rfl := Option.some.inj hgu'
        have hrel' : gn ≤ gu + c := hrel
        have hgn' : alookup st.cost v = some gn := hgn
        obtain ⟨it, hit, helem, hprio⟩ := ho.unvisited_entry v gn hgn' hv
        have hroot := heapProp_root_min hheap it (by rw [← hitems]; exact hit)
        rw [hw]
        omega
      · have hlen₀ : P₀.length ≤ n := by
          have : (P₀ ++ [v]).length = P₀.length + 1 := by simp
          omega
        have hih := ih P₀ u hlen₀ hP₀ hu
        have hstep := hcons u v c hec
        rw [hw]
        omega

/-- Under the optimality invariants, one pass of the relaxation loop keeps the
heap ordered, keeps priorities above cost-plus-key, never touches a visited
vertex's cost, only lowers bounded costs, leaves every processed neighbor
relaxed against `current`'s final cost, and keeps canonical frontier entries
for unvisited discovered vertices. -/
theorem bestVisitOpt_fold (g : Graph) (hf : String → Nat)
    (start goal current : String) (hwf : Wf g) :
    ∀ (nbs : List (String × Nat × Nat)), (∀ nb ∈ nbs, nb ∈ getNeighbors g current) →
      ∀ (acc : BestState) (gcur : Nat), BestCore g start goal acc →
        alookup acc.cost current = some gcur →
        current ∈ acc.visited →
        heapProp acc.pq.items →
        (∀ it ∈ acc.pq.items, ∃ gx, alookup acc.cost it.element = some gx ∧
          gx + hf it.element ≤ it.priority) →
        (∀ x ∈ acc.visited, ∃ gx, alookup acc.cost x = some gx ∧
          ∀ p, IsPath g start x p → gx ≤ pathWeight g p) →
        (∀ x gx, alookup acc.cost x = some gx → x ∉ acc.visited →
          ∃ it ∈ acc.pq.items, it.element = x ∧ it.priority = gx + hf x) →
        heapProp (nbs.foldl (bestVisit hf current) acc).pq.items ∧
        (∀ it ∈ (nbs.foldl (bestVisit hf current) acc).pq.items,
          ∃ gx, alookup (nbs.foldl (bestVisit hf current) acc).cost it.element =
              some gx ∧ gx + hf it.element ≤ it.priority) ∧
        (∀ x ∈ acc.visited,
          alookup (nbs.foldl (bestVisit hf current) acc).cost x =
            alookup acc.cost x) ∧
        (∀ (x : String) (B : Nat),
          (∃ gx, alookup acc.cost x = some gx ∧ gx ≤ B) →
          ∃ gx', alookup (nbs.foldl (bestVisit hf current) acc).cost x =
            some gx' ∧ gx' ≤ B) ∧
        (∀ nb ∈ nbs, ∃ gn,
          alookup (nbs.foldl (bestVisit hf current) acc).cost nb.1 = some gn ∧
          gn ≤ gcur + nb.2.1) ∧
        (∀ x gx,
          alookup (nbs.foldl (bestVisit hf current) acc).cost x = some gx →
          x ∉ acc.visited →
          ∃ it ∈ (nbs.foldl (bestVisit hf current) acc).pq.items,
            it.element = x ∧ it.priority = gx + hf x) := by
  intro nbs
  induction nbs with
  | nil =>
    intro _ acc gcur hc hgcur hcurv hheap hlb hvlb huv
    exact ⟨hheap, hlb, fun x _ => rfl, fun x B hB => hB, by simp, huv⟩
  | cons nb rest ih =>
    intro hmem acc gcur hc hgcur hcurv hheap hlb hvlb huv
    rw [List.foldl_cons]
    have hnb := hmem nb (List.mem_cons_self _ _)
    have hecost := mem_getNeighbors_cost hwf hnb
    have hgd : (alookup acc.cost current).getD 0 = gcur := by
      rw [hgcur]
      rfl
    have hstep : heapProp (bestVisit hf current acc nb).pq.items ∧
        (∀ it ∈ (bestVisit hf current acc nb).pq.items,
          ∃ gx, alookup (bestVisit hf current acc nb).cost it.element =
              some gx ∧ gx + hf it.element ≤ it.priority) ∧
        (∀ x ∈ acc.visited,
          alookup (bestVisit hf current acc nb).cost x = alookup acc.cost x) ∧
        (∀ (x : String) (B : Nat),
          (∃ gx, alookup acc.cost x = some gx ∧ gx ≤ B) →
          ∃ gx', alookup (bestVisit hf current acc nb).cost x = some gx' ∧
            gx' ≤ B) ∧
        (∃ gn, alookup (bestVisit hf current acc nb).cost nb.1 = some gn ∧
          gn ≤ gcur + nb.2.1) ∧
        (∀ x gx, alookup (bestVisit hf current acc nb).cost x = some gx →
          x ∉ acc.visited →
          ∃ it ∈ (bestVisit hf current acc nb).pq.items,
            it.element = x ∧ it.priority = gx + hf x) := by
      have hwrite : ∀ (hks : ∀ gk, alookup acc.cost nb.1 = some gk →
            gcur + nb.2.1 < gk),
          (bestImproves acc current nb = true) →
          heapProp (bestVisit hf current acc nb).pq.items ∧
          (∀ it ∈ (bestVisit hf current acc nb).pq.items,
            ∃ gx, alookup (bestVisit hf current acc nb).cost it.element =
                some gx ∧ gx + hf it.element ≤ it.priority) ∧
          (∀ x ∈ acc.visited,
            alookup (bestVisit hf current acc nb).cost x = alookup acc.cost x) ∧
          (∀ (x : String) (B : Nat),
            (∃ gx, alookup acc.cost x = some gx ∧ gx ≤ B) →
            ∃ gx', alookup (bestVisit hf current acc nb).cost x = some gx' ∧
              gx' ≤ B) ∧
          (∃ gn, alookup (bestVisit hf current acc nb).cost nb.1 = some gn ∧
            gn ≤ gcur + nb.2.1) ∧
          (∀ x gx, alookup (bestVisit hf current acc nb).cost x = some gx →
            x ∉ acc.visited →
            ∃ it ∈ (bestVisit hf current acc nb).pq.items,
              it.element = x ∧ it.priority = gx + hf x) := by
        intro hks himpb
        have hnv : nb.1 ∉ acc.visited := by
          intro hnv
          obtain ⟨gx, hgx, hbound⟩ := hvlb nb.1 hnv
          have hlt := hks gx hgx
          obtain ⟨wc, lc, hch, hwc⟩ := hc.grounded current gcur hgcur
          obtain ⟨hpathc, hwceq⟩ := chainTo_isPath hch
          have hpath : IsPath g start nb.1 (lc ++ [nb.1]) :=
            isPath_append_edge hpathc hecost
          have hwp : pathWeight g (lc ++ [nb.1]) = wc + nb.2.1 := by
            rw [pathWeight_append_last g lc current nb.1 hpathc.2.1, hecost,
              hwceq]
            rfl
          have := hbound (lc ++ [nb.1]) hpath
          omega
        have hres : bestVisit hf current acc nb =
            { acc with
              cost := (nb.1, gcur + nb.2.1) :: acc.cost
              parent := (nb.1, some current) :: acc.parent
              pq := acc.pq.enqueue nb.1 (gcur + nb.2.1 + hf nb.1) } := by
          unfold bestVisit
          rw [if_pos himpb, hgd]
        rw [hres]
        have hperm := enqueue_items_perm acc.pq nb.1 (gcur + nb.2.1 + hf nb.1)
        refine ⟨?_, ?_, ?_, ?_, ?_, ?_⟩
        · exact enqueue_heapProp acc.pq nb.1 (gcur + nb.2.1 + hf nb.1) hheap
        · intro it hit
          rcases List.mem_cons.mp (hperm.mem_iff.mp hit) with rfl | hit'
          · exact ⟨gcur + nb.2.1, alookup_cons_self, le_refl _⟩
          · obtain ⟨gx, hgx, hle⟩ := hlb it hit'
            by_cases hx : it.element = nb.1
            · rw [hx] at hgx ⊢
              have hlt := hks gx hgx
              refine ⟨gcur + nb.2.1, alookup_cons_self, ?_⟩
              rw [hx] at hle
              omega
            · refine ⟨gx, ?_, hle⟩
              rw [alookup_cons_ne (fun h => hx h.symm)]
              exact hgx
        · intro x hx
          have hxn : x ≠ nb.1 := fun h => hnv (h ▸ hx)
          show alookup ((nb.1, gcur + nb.2.1) :: acc.cost) x = alookup acc.cost x
          rw [alookup_cons_ne (fun h => hxn h.symm)]
        · intro x B hB
          obtain ⟨gx, hgx, hle⟩ := hB
          by_cases hx : x = nb.1
          · subst hx
            have hlt := hks gx hgx
            refine ⟨gcur + nb.2.1, alookup_cons_self, by omega⟩
          · refine ⟨gx, ?_, hle⟩
            show alookup ((nb.1, gcur + nb.2.1) :: acc.cost) x = some gx
            rw [alookup_cons_ne (fun h => hx h.symm)]
            exact hgx
        · exact ⟨gcur + nb.2.1, alookup_cons_self, le_refl _⟩
        · intro x gx hgx hxv
          by_cases hx : x = nb.1
          · subst hx
            rw [alookup_cons_self] at hgx
            obtain rfl := Option.some.inj hgx
            exact ⟨PQItem.mk nb.1 (gcur + nb.2.1 + hf nb.1),
              hperm.mem_iff.mpr (List.mem_cons_self _ _), rfl, rfl⟩
          · rw [alookup_cons_ne (fun h => hx h.symm)] at hgx
            obtain ⟨it, hit, helem, hprio⟩ := huv x gx hgx hxv
            exact ⟨it, hperm.mem_iff.mpr (List.mem_cons_of_mem _ hit), helem,
              hprio⟩
      cases hcn : alookup acc.cost nb.1 with
      | none =>
        have himpb : bestImproves acc current nb = true := by
          unfold bestImproves
          rw [hcn]
        exact hwrite (fun gk hgk => absurd (hcn ▸ hgk) (by simp)) himpb
      | some gnb =>
        by_cases himp : (alookup acc.cost current).getD 0 + nb.2.1 < gnb
        · have himpb : bestImproves acc current nb = true := by
            unfold bestImproves
            rw [hcn]
            exact decide_eq_true himp
          refine hwrite ?_ himpb
          intro gk hgk
          rw [hcn] at hgk
          obtain rfl := Option.some.inj hgk
          rw [hgd] at himp
          exact himp
        · have himpb : bestImproves acc current nb = false := by
            unfold bestImproves
            rw [hcn]
            exact decide_eq_false himp
          have hres : bestVisit hf current acc nb = acc := by
            unfold bestVisit
            rw [himpb]
            rfl
          rw [hres]
          rw [hgd] at himp
          refine ⟨hheap, hlb, fun x _ => rfl, fun x B hB => hB, ?_, huv⟩
          exact ⟨gnb, hcn, by omega⟩
    obtain ⟨hheap₁, hlb₁, hvc₁, hbd₁, hnb₁, huv₁⟩ := hstep
    have hreach : Reachable g start current :=
      hc.exp_reach current ((hc.visited_eq current).mp hcurv)
    have hbase := bestVisit_fold g hf start goal current hwf hreach [nb]
      (fun nb' hnb' => by
        obtain rfl : nb' = nb := by simpa using hnb'
        exact hnb) acc hc (by rw [hgcur]; rfl)
    rw [show ([nb] : List (String × Nat × Nat)).foldl (bestVisit hf current) acc
      = bestVisit hf current acc nb from rfl] at hbase
    obtain ⟨hc₁, hveq, -, -, -, -, -, -⟩ := hbase
    have hgcur₁ : alookup (bestVisit hf current acc nb).cost current =
        some gcur := by
      rw [hvc₁ current hcurv]
      exact hgcur
    have hcurv₁ : current ∈ (bestVisit hf current acc nb).visited := by
      rw [hveq]
      exact hcurv
    have hvlb₁ : ∀ x ∈ (bestVisit hf current acc nb).visited,
        ∃ gx, alookup (bestVisit hf current acc nb).cost x = some gx ∧
          ∀ p, IsPath g start x p → gx ≤ pathWeight g p := by
      rw [hveq]
      intro x hx
      obtain ⟨gx, hgx, hb⟩ := hvlb x hx
      refine ⟨gx, ?_, hb⟩
      rw [hvc₁ x hx]
      exact hgx
    obtain ⟨hheap', hlb', hvc', hbd', hrel', huv'⟩ :=
      ih (fun nb' hnb' => hmem _ (List.mem_cons_of_mem _ hnb')) _ gcur hc₁
        hgcur₁ hcurv₁ hheap₁ hlb₁ hvlb₁
        (fun x gx hgx hxv => huv₁ x gx hgx (by rw [← hveq]; exact hxv))
    refine ⟨hheap', hlb', ?_, ?_, ?_, ?_⟩
    · intro x hx
      rw [hvc' x (by rw [hveq]; exact hx), hvc₁ x hx]
    · intro x B hB
      exact hbd' x B (hbd₁ x B hB)
    · intro nb' hnbmem
      rcases List.mem_cons.mp hnbmem with rfl | hmem'
      · obtain ⟨gn, hgn, hle⟩ := hnb₁
        exact hbd' nb'.1 (gcur + nb'.2.1) ⟨gn, hgn, hle⟩
      · exact hrel' _ hmem'
    · intro x gx hgx hxv
      exact huv' x gx hgx (by rw [hveq]; exact hxv)

set_option maxRecDepth 4000 in
/-- With a consistent priority key, the `ucs`/`astar` loop is in addition
optimal: a found goal's reported `pathCost` is both the returned path's exact
weight and the minimum weight over all start-goal paths. -/
theorem bestLoopOpt_spec (g : Graph) (hf : String → Nat) (start goal : String)
    (hwf : Wf g)
    (hcons : ∀ u v c, edgeCost? g u v = some c → hf u ≤ c + hf v) :
    ∀ (fuel : Nat) (st : BestState),
      BestInv g start goal st → BestOpt g hf start st →
      bestMeasure g start st < fuel →
      ∃ r, bestLoop g hf start goal fuel st = some r ∧
        (r.found = true → goal ∈ r.exploredOrder ∧ IsPath g start goal r.path ∧
          r.pathCost = pathWeight g r.path ∧
          IsMinCost g start goal r.pathCost) ∧
        (r.found = false → r.path = [] ∧ r.pathCost = 0 ∧ goal ∉ r.exploredOrder ∧
          ∀ x, Reachable g start x → x ∈ r.exploredOrder) := by
  intro fuel
  induction fuel with
  | zero => intro st hinv _ hm; omega
  | succ fuel ih =>
    intro st hinv ho hm
    obtain ⟨hc, hclosed⟩ := hinv
    cases hitems : st.pq.items with
    | nil =>
      have hd := dequeue_nil st.pq hitems
      have hstep : bestLoop g hf start goal (fuel + 1) st =
          some (buildResult g start goal st.parent st.exploredOrder false none) := by
        simp only [bestLoop, hd]
      rw [buildResult_notfound] at hstep
      refine ⟨_, hstep, ?_, ?_⟩
      · intro h
        exact absurd h (by simp)
      · intro _
        refine ⟨rfl, rfl, hc.goal_not, ?_⟩
        have hstart_exp : start ∈ st.exploredOrder := by
          rcases hc.start_in with hs | ⟨it, hit, _⟩
          · exact (hc.visited_eq start).mp hs
          · rw [hitems] at hit
            simp at hit
        intro x hx
        induction hx with
        | refl => exact hstart_exp
        | tail hru hredge ihx =>
          rename_i u x'
          obtain ⟨adjl, ha, hvsome⟩ := edges_entry_of_hasEdge hredge
          obtain ⟨c, hcc⟩ := Option.isSome_iff_exists.mp hvsome
          have hnbmem : (x', c, hFor g x') ∈ getNeighbors g u := by
            unfold getNeighbors
            rw [ha]
            exact List.mem_map_of_mem _ (alookup_mem hcc)
          have hcsome := hclosed u ihx _ hnbmem
          rcases hc.cost_cov x' hcsome with hh | ⟨it, hit, _⟩
          · exact (hc.visited_eq x').mp hh
          · rw [hitems] at hit
            simp at hit
    | cons mn tl =>
      obtain ⟨hd1, hdperm0⟩ := dequeue_shape st.pq mn tl hitems
      obtain ⟨pq2, hdq⟩ : ∃ pq2, st.pq.dequeue = (some mn.element, pq2) :=
        ⟨st.pq.dequeue.2, Prod.ext hd1 rfl⟩
      have hpq2 : st.pq.dequeue.2 = pq2 := congrArg Prod.snd hdq
      have hdperm : pq2.items.Perm tl := by
        rw [hdq] at hdperm0
        exact hdperm0
      have hmn : mn ∈ st.pq.items := by
        rw [hitems]
        exact List.mem_cons_self _ _
      have hmempq : ∀ it ∈ pq2.items, it ∈ st.pq.items := by
        intro it hit
        rw [hitems]
        exact List.mem_cons_of_mem _ (hdperm.mem_iff.mp hit)
      have hlen2 : pq2.items.length = tl.length := hdperm.length_eq
      have hheap2 : heapProp pq2.items := by
        rw [← hpq2]
        exact dequeue_heapProp st.pq ho.heap
      by_cases hcv : mn.element ∈ st.visited
      · set st1 : BestState := { st with pq := pq2 }
        have hc1 : BestCore g start goal st1 := by
          constructor
          · intro it hit
            exact hc.pq_reach it (hmempq it hit)
          · intro it hit
            exact hc.pq_node it (hmempq it hit)
          · intro it hit
            exact hc.pq_cand it (hmempq it hit)
          · intro it hit
            exact hc.pq_dom it (hmempq it hit)
          · exact hc.visited_eq
          · exact hc.explored_nodup
          · exact hc.exp_reach
          · exact hc.exp_node
          · exact hc.goal_not
          · rcases hc.start_in with hs | ⟨it, hit, he⟩
            · exact Or.inl hs
            · rw [hitems] at hit
              rcases List.mem_cons.mp hit with rfl | hit'
              · exact Or.inl (he ▸ hcv)
              · exact Or.inr ⟨it, hdperm.mem_iff.mpr hit', he⟩
          · exact hc.start_parent
          · exact hc.start_cost
          · exact hc.dom_eq
          · exact hc.edge_mono
          · exact hc.grounded
          · intro x hcx
            rcases hc.cost_cov x hcx with hh | ⟨it, hit, he⟩
            · exact Or.inl hh
            · rw [hitems] at hit
              rcases List.mem_cons.mp hit with rfl | hit'
              · exact Or.inl (he ▸ hcv)
              · exact Or.inr ⟨it, hdperm.mem_iff.mpr hit', he⟩
        have ho1 : BestOpt g hf start st1 := by
          constructor
          · exact hheap2
          · intro it hit
            exact ho.entries_lb it (hmempq it hit)
          · exact ho.visited_lb
          · exact ho.relaxed
          · intro x gx hgx hxv
            obtain ⟨it, hit, helem, hprio⟩ := ho.unvisited_entry x gx hgx hxv
            rw [hitems] at hit
            rcases List.mem_cons.mp hit with rfl | hit'
            · exact absurd (helem ▸ hcv) hxv
            · exact ⟨it, hdperm.mem_iff.mpr hit', helem, hprio⟩
        have hclosed1 : ∀ x ∈ st1.exploredOrder, ∀ nb ∈ getNeighbors g x,
            (alookup st1.cost nb.1).isSome = true := hclosed
        have hm1 : bestMeasure g start st1 < fuel := by
          have h1 : bestMeasure g start st1 + 1 = bestMeasure g start st := by
            unfold bestMeasure
            rw [hitems]
            show pq2.items.length + _ + 1 = tl.length + 1 + _
            rw [hlen2, show st1.visited = st.visited from rfl]
            omega
          omega
        obtain ⟨r, hr, hposts⟩ := ih st1 ⟨hc1, hclosed1⟩ ho1 hm1
        refine ⟨r, ?_, hposts⟩
        simp only [bestLoop, hdq, if_pos hcv]
        exact hr
      · have hcne : mn.element ∉ st.exploredOrder :=
          fun h => hcv ((hc.visited_eq mn.element).mpr h)
        obtain ⟨gcur, hgcur⟩ := Option.isSome_iff_exists.mp
          ((hc.dom_eq mn.element).mp (hc.pq_dom mn hmn))
        have hminb : ∀ P, IsPath g start mn.element P →
            gcur ≤ pathWeight g P := by
          intro P hP
          have h1 := pop_min g hf start goal hcons st hc ho mn tl hitems
            P mn.element hP hcv
          obtain ⟨gx, hgx, hle⟩ := ho.entries_lb mn hmn
          rw [hgcur] at hgx
          obtain rfl := Option.some.inj hgx
          omega
        by_cases hg : mn.element = goal
        · obtain ⟨w, l, hch, hwle⟩ := hc.grounded mn.element gcur hgcur
          have hchg : ChainTo g st.parent start goal w l := hg ▸ hch
          obtain ⟨hpathl, hwl⟩ := chainTo_isPath hchg
          have hgoalcost : alookup st.cost goal = some gcur := hg ▸ hgcur
          have hminbg : ∀ P, IsPath g start goal P → gcur ≤ pathWeight g P := by
            intro P hP
            exact hminb P (hg ▸ hP)
          have hweq : w = gcur := by
            have h1 := hminbg l hpathl
            omega
          obtain ⟨hf', hp, he, hn, hcost⟩ :=
            @buildResult_found g start goal st.parent
              (st.exploredOrder ++ [mn.element]) (some st.cost) w l hchg
          have hstep : bestLoop g hf start goal (fuel + 1) st =
              some (buildResult g start goal st.parent
                (st.exploredOrder ++ [mn.element]) true (some st.cost)) := by
            simp only [bestLoop, hdq, if_neg hcv, if_pos hg]
          refine ⟨_, hstep, ?_, ?_⟩
          · intro _
            have hpc : (buildResult g start goal st.parent
                (st.exploredOrder ++ [mn.element]) true
                (some st.cost)).pathCost = gcur := by
              rw [hcost]
              show (alookup st.cost goal).getD 0 = gcur
              rw [hgoalcost]
              rfl
            refine ⟨?_, ?_, ?_, ?_⟩
            · rw [he]
              exact List.mem_append_right _ (by simp [hg])
            · rw [hp]
              exact hpathl
            · rw [hpc, hp, hwl]
              omega
            · rw [hpc]
              exact ⟨⟨l, hpathl, by omega⟩, hminbg⟩
          · intro h
            rw [hf'] at h
            exact absurd h (by simp)
        · have hreach : Reachable g start mn.element := hc.pq_reach mn hmn
          set st1 : BestState :=
            { st with
                pq := pq2
                visited := mn.element :: st.visited
                exploredOrder := st.exploredOrder ++ [mn.element] }
          set st2 : BestState := bestRelax g hf mn.element st1
          have hst2 : st2 = (getNeighbors g mn.element).foldl
              (bestVisit hf mn.element) st1 := rfl
          have hc1 : BestCore g start goal st1 := by
            constructor
            · intro it hit
              exact hc.pq_reach it (hmempq it hit)
            · intro it hit
              exact hc.pq_node it (hmempq it hit)
            · intro it hit
              exact hc.pq_cand it (hmempq it hit)
            · intro it hit
              exact hc.pq_dom it (hmempq it hit)
            · intro x
              show x ∈ mn.element :: st.visited ↔
                x ∈ st.exploredOrder ++ [mn.element]
              rw [List.mem_cons, hc.visited_eq x, List.mem_append]
              simp only [List.mem_singleton]
              tauto
            · simp [List.nodup_append, hc.explored_nodup, hcne]
            · intro x hx
              rcases List.mem_append.mp hx with hx | hx
              · exact hc.exp_reach x hx
              · obtain rfl : x = mn.element := by simpa using hx
                exact hreach
            · intro x hx
              rcases List.mem_append.mp hx with hx | hx
              · exact hc.exp_node x hx
              · obtain rfl : x = mn.element := by simpa using hx
                exact hc.pq_node _ hmn
            · simp only [List.mem_append, List.mem_singleton]
              push_neg
              exact ⟨hc.goal_not, fun hcg => hg hcg.symm⟩
            · rcases hc.start_in with hs | ⟨it, hit, he⟩
              · exact Or.inl (List.mem_cons_of_mem _ hs)
              · rw [hitems] at hit
                rcases List.mem_cons.mp hit with rfl | hit'
                · exact Or.inl (he ▸ List.mem_cons_self _ _)
                · exact Or.inr ⟨it, hdperm.mem_iff.mpr hit', he⟩
            · exact hc.start_parent
            · exact hc.start_cost
            · exact hc.dom_eq
            · exact hc.edge_mono
            · exact hc.grounded
            · intro x hcx
              rcases hc.cost_cov x hcx with hh | ⟨it, hit, he⟩
              · exact Or.inl (List.mem_cons_of_mem _ hh)
              · rw [hitems] at hit
                rcases List.mem_cons.mp hit with rfl | hit'
                · exact Or.inl (he ▸ List.mem_cons_self _ _)
                · exact Or.inr ⟨it, hdperm.mem_iff.mpr hit', he⟩
          have hcur1 : alookup st1.cost mn.element = some gcur := hgcur
          have hcurv1 : mn.element ∈ st1.visited := List.mem_cons_self _ _
          have hlb1 : ∀ it ∈ st1.pq.items, ∃ gx,
              alookup st1.cost it.element = some gx ∧
              gx + hf it.element ≤ it.priority := by
            intro it hit
            exact ho.entries_lb it (hmempq it hit)
          have hvlb1 : ∀ x ∈ st1.visited, ∃ gx,
              alookup st1.cost x = some gx ∧
              ∀ p, IsPath g start x p → gx ≤ pathWeight g p := by
            intro x hx
            rcases List.mem_cons.mp hx with rfl | hx'
            · exact ⟨gcur, hgcur, hminb⟩
            · exact ho.visited_lb x hx'
          have huv1 : ∀ x gx, alookup st1.cost x = some gx →
              x ∉ st1.visited → ∃ it ∈ st1.pq.items,
                it.element = x ∧ it.priority = gx + hf x := by
            intro x gx hgx hxv
            have hxv' : x ∉ st.visited := fun h =>
              hxv (List.mem_cons_of_mem _ h)
            have hxm : x ≠ mn.element := fun h =>
              hxv (h ▸ List.mem_cons_self _ _)
            obtain ⟨it, hit, helem, hprio⟩ := ho.unvisited_entry x gx hgx hxv'
            rw [hitems] at hit
            rcases List.mem_cons.mp hit with rfl | hit'
            · exact absurd helem.symm hxm
            · exact ⟨it, hdperm.mem_iff.mpr hit', helem, hprio⟩
          obtain ⟨hcore', hvis', hexp', hlen', hsm', hall', hcm', hgc'⟩ :=
            bestVisit_fold g hf start goal mn.element hwf hreach
              (getNeighbors g mn.element) (fun nb h => h) st1 hc1
              (by rw [hcur1]; rfl)
          obtain ⟨hheapO, hlbO, hvcO, hbdO, hrelO, huvO⟩ :=
            bestVisitOpt_fold g hf start goal mn.element hwf
              (getNeighbors g mn.element) (fun nb h => h) st1 gcur hc1 hcur1
              hcurv1 hheap2 hlb1 hvlb1 huv1
          rw [← hst2] at hcore' hvis' hexp' hlen' hsm' hall' hcm' hgc'
          rw [← hst2] at hheapO hlbO hvcO hbdO hrelO huvO
          have hclosed' : ∀ x ∈ st2.exploredOrder, ∀ nb ∈ getNeighbors g x,
              (alookup st2.cost nb.1).isSome = true := by
            rw [show st2.exploredOrder = st1.exploredOrder from hexp']
            intro x hx nb hnb
            rcases List.mem_append.mp hx with hx | hx
            · exact hcm' _ (hclosed x hx nb hnb)
            · obtain rfl : x = mn.element := by simpa using hx
              exact hall' nb hnb
          have ho2 : BestOpt g hf start st2 := by
            constructor
            · exact hheapO
            · exact hlbO
            · rw [show st2.visited = st1.visited from hvis']
              intro x hx
              obtain ⟨gx, hgx, hb⟩ := hvlb1 x hx
              refine ⟨gx, ?_, hb⟩
              rw [hvcO x hx]
              exact hgx
            · rw [show st2.visited = st1.visited from hvis']
              intro x hx nb hnb
              rcases List.mem_cons.mp hx with rfl | hx'
              · obtain ⟨gn, hgn, hle⟩ := hrelO nb hnb
                refine ⟨gcur, gn, ?_, hgn, hle⟩
                rw [hvcO mn.element hcurv1]
                exact hgcur
              · obtain ⟨gx, gn, hgx, hgn, hle⟩ := ho.relaxed x hx' nb hnb
                obtain ⟨gn', hgn', hle'⟩ :=
                  hbdO nb.1 (gx + nb.2.1) ⟨gn, hgn, hle⟩
                refine ⟨gx, gn', ?_, hgn', hle'⟩
                rw [hvcO x (List.mem_cons_of_mem _ hx')]
                exact hgx
            · intro x gx hgx hxv
              exact huvO x gx hgx
                (by rw [show st2.visited = st1.visited from hvis'] at hxv
                    exact hxv)
          have hm' : bestMeasure g start st2 < fuel := by
            have hu : unvisitedCount g start st1.visited + 1 ≤
                unvisitedCount g start st.visited := by
              have := unvisitedCount_cons_lt g start mn.element st.visited
                (hc.pq_cand mn hmn) hcv
              show unvisitedCount g start (mn.element :: st.visited) + 1 ≤
                unvisitedCount g start st.visited
              omega
            have hmul : (edgeTotal g + 1) * unvisitedCount g start st1.visited +
                (edgeTotal g + 1) ≤
                (edgeTotal g + 1) * unvisitedCount g start st.visited := by
              have h1 : (edgeTotal g + 1) * unvisitedCount g start st1.visited +
                  (edgeTotal g + 1) =
                  (edgeTotal g + 1) *
                    (unvisitedCount g start st1.visited + 1) := by
                ring
              rw [h1]
              exact Nat.mul_le_mul (Nat.le_refl _) hu
            have hnlen := neighbors_length_le g mn.element
            have hst1len : st1.pq.items.length = tl.length := hlen2
            have hst2m : bestMeasure g start st2 =
                st2.pq.items.length + (edgeTotal g + 1) *
                  unvisitedCount g start st1.visited := by
              unfold bestMeasure
              rw [hvis']
            have hstm : bestMeasure g start st =
                tl.length + 1 + (edgeTotal g + 1) *
                  unvisitedCount g start st.visited := by
              unfold bestMeasure
              rw [hitems]
              simp [Nat.add_comm, Nat.add_assoc, Nat.add_left_comm]
            omega
          obtain ⟨r, hr, hposts⟩ := ih st2 ⟨hcore', hclosed'⟩ ho2 hm'
          refine ⟨r, ?_, hposts⟩
          simp only [bestLoop, hdq, if_neg hcv, if_neg hg]
          exact hr

/-- The initial `ucs`/`astar` state carries the optimality invariants when the
start entry's priority is its key value. -/
theorem bestInit_opt (g : Graph) (hf : String → Nat) (start : String) :
    BestOpt g hf start
      ⟨PQueue.empty.enqueue start (hf start), [], [(start, none)],
        [(start, 0)], []⟩ := by
  have hitems : (PQueue.empty.enqueue start (hf start)).items =
      [PQItem.mk start (hf start)] := rfl
  constructor
  · rw [show (⟨PQueue.empty.enqueue start (hf start), [], [(start, none)],
      [(start, 0)], []⟩ : BestState).pq.items = [PQItem.mk start (hf start)]
      from hitems]
    intro i hi x y hx hy
    cases i with
    | zero => omega
    | succ j =>
      rw [show ([PQItem.mk start (hf start)] : List (PQItem String))[j + 1]? =
        none by simp] at hx
      exact Option.noConfusion hx
  · intro it hit
    rw [hitems] at hit
    obtain rfl : it = PQItem.mk start (hf start) := by simpa using hit
    exact ⟨0, alookup_cons_self, by simp⟩
  · intro x hx
    simp at hx
  · intro x hx
    simp at hx
  · intro x gx hgx _
    by_cases hxs : x = start
    · subst hxs
      rw [alookup_cons_self] at hgx
      obtain rfl := Option.some.inj hgx
      refine ⟨PQItem.mk x (hf x), ?_, rfl, by simp⟩
      rw [hitems]
      exact List.mem_cons_self _ _
    · rw [alookup_cons_ne (fun h => hxs h.symm)] at hgx
      simp [alookup] at hgx

/-- Optimality facts about a completed `ucs` run: a found goal's cost is the
returned path's exact weight and the minimum over all start-goal paths. -/
theorem ucs_opt_spec (g : Graph) (start goal : String) (hwf : Wf g)
    (hstart : hasNode g start) :
    ((ucs g start goal).found = true →
      goal ∈ (ucs g start goal).exploredOrder ∧
      IsPath g start goal (ucs g start goal).path ∧
      (ucs g start goal).pathCost = pathWeight g (ucs g start goal).path ∧
      IsMinCost g start goal (ucs g start goal).pathCost) ∧
    ((ucs g start goal).found = false → (ucs g start goal).path = [] ∧
      (ucs g start goal).pathCost = 0 ∧
      goal ∉ (ucs g start goal).exploredOrder ∧
      ∀ x, Reachable g start x → x ∈ (ucs g start goal).exploredOrder) := by
  obtain ⟨r, hr, hposts⟩ :=
    bestLoopOpt_spec g (fun _ => 0) start goal hwf
      (fun u v c _ => Nat.zero_le _) (searchFuel g start) _
      (bestInit_inv g start goal hstart 0)
      (bestInit_opt g (fun _ => 0) start) (bestInit_measure g start 0)
  have hb : ucs g start goal = r := by
    unfold ucs
    rw [hr]
    rfl
  rw [hb]
  exact hposts

/-- Optimality facts about a completed `astar` run under a consistent
heuristic. -/
theorem astar_opt_spec (g : Graph) (start goal : String) (hwf : Wf g)
    (hstart : hasNode g start) (hcons : Consistent g) :
    ((astar g start goal).found = true →
      goal ∈ (astar g start goal).exploredOrder ∧
      IsPath g start goal (astar g start goal).path ∧
      (astar g start goal).pathCost = pathWeight g (astar g start goal).path ∧
      IsMinCost g start goal (astar g start goal).pathCost) ∧
    ((astar g start goal).found = false → (astar g start goal).path = [] ∧
      (astar g start goal).pathCost = 0 ∧
      goal ∉ (astar g start goal).exploredOrder ∧
      ∀ x, Reachable g start x → x ∈ (astar g start goal).exploredOrder) := by
  obtain ⟨r, hr, hposts⟩ :=
    bestLoopOpt_spec g (hFor g) start goal hwf hcons (searchFuel g start) _
      (bestInit_inv g start goal hstart (hFor g start))
      (bestInit_opt g (hFor g) start)
      (bestInit_measure g start (hFor g start))
  have hb : astar g start goal = r := by
    unfold astar
    rw [hr]
    rfl
  rw [hb]
  exact hposts

/-! ### Claims C1 and C3 -/

/-- `twoGraph` (no edges) vacuously has a consistent heuristic. -/
theorem twoGraph_consistent : Consistent twoGraph := by
  intro u v c h
  exfalso
  unfold edgeCost? at h
  have hadj : (alookup twoGraph.edges u).getD [] = [] := by
    show (alookup [("X", ([] : List (String × Nat))), ("Y", [])] u).getD [] = []
    simp only [alookup]
    split_ifs <;> rfl
  rw [hadj] at h
  rw [show alookup ([] : List (String × Nat)) v = none from rfl] at h
  exact Option.noConfusion h

/-- `G` is reachable from `S` in `cexGraph` (via `B`). -/
theorem cexReach : Reachable cexGraph "S" "G" :=
  Relation.ReflTransGen.tail
    (Relation.ReflTransGen.tail Relation.ReflTransGen.refl
      (by decide : hasEdge cexGraph "S" "B"))
    (by decide : hasEdge cexGraph "B" "G")

/-- The weight-5 route `S → A → B → G` in `cexGraph`. -/
theorem cexPath : IsPath cexGraph "S" "G" ["S", "A", "B", "G"] := by
  refine ⟨rfl, rfl, ?_⟩
  rw [List.chain'_cons, List.chain'_cons, List.chain'_cons]
  exact ⟨by decide, by decide, by decide, List.chain'_singleton _⟩

/-- `cexGraph`'s heuristic is admissible for goal `G`: every vertex except `A`
carries `h = 0`, and every `A → G` path runs `A → B → G` with weight 4 =
`h(A)`. -/
theorem cex_admissible : Admissible cexGraph "G" := by
  intro v p hp
  by_cases hA : v = "A"
  · subst hA
    rw [show hFor cexGraph "A" = 4 from by decide]
    obtain ⟨hh, hl, hch⟩ := hp
    cases p with
    | nil => exact Option.noConfusion hh
    | cons a q =>
      obtain rfl : a = "A" := by simpa using hh
      cases q with
      | nil => exact absurd (show "A" = "G" by simpa using hl) (by decide)
      | cons b r =>
        rw [List.chain'_cons] at hch
        obtain ⟨hab, hch2⟩ := hch
        obtain rfl : b = "B" := by
          unfold hasEdge edgeCost? at hab
          rw [show alookup cexGraph.edges "A" = some [("B", 1)] from rfl] at hab
          by_cases hbB : "B" = b
          · exact hbB.symm
          · exfalso
            have hnone : alookup ((some [("B", (1 : Nat))]).getD []) b =
                none := by
              show alookup [("B", (1 : Nat))] b = none
              simp only [alookup]
              rw [if_neg hbB]
            rw [hnone] at hab
            simp at hab
        cases r with
        | nil => exact absurd (show "B" = "G" by simpa using hl) (by decide)
        | cons cc s =>
          rw [List.chain'_cons] at hch2
          obtain ⟨hbc, -⟩ := hch2
          obtain rfl : cc = "G" := by
            unfold hasEdge edgeCost? at hbc
            rw [show alookup cexGraph.edges "B" = some [("G", 3)] from rfl]
              at hbc
            by_cases hcG : "G" = cc
            · exact hcG.symm
            · exfalso
              have hnone : alookup ((some [("G", (3 : Nat))]).getD []) cc =
                  none := by
                show alookup [("G", (3 : Nat))] cc = none
                simp only [alookup]
                rw [if_neg hcG]
              rw [hnone] at hbc
              simp at hbc
          have h1 : pathWeight cexGraph ("A" :: "B" :: "G" :: s) =
              (edgeCost? cexGraph "A" "B").getD 0 +
              ((edgeCost? cexGraph "B" "G").getD 0 +
                pathWeight cexGraph ("G" :: s)) := rfl
          rw [h1, show (edgeCost? cexGraph "A" "B").getD 0 = 1 from by decide,
            show (edgeCost? cexGraph "B" "G").getD 0 = 3 from by decide]
          omega
  · have h0 : hFor cexGraph v = 0 := by
      by_cases hS : v = "S"
      · rw [hS]
        decide
      · by_cases hB : v = "B"
        · rw [hB]
          decide
        · by_cases hG : v = "G"
          · rw [hG]
            decide
          · unfold hFor getNode
            have hnone : alookup cexGraph.nodes v = none := by
              show alookup [("S", GNode.mk "S" 0 0 0), ("A", GNode.mk "A" 0 0 4),
                ("B", GNode.mk "B" 0 0 0), ("G", GNode.mk "G" 0 0 0)] v = none
              simp only [alookup]
              rw [if_neg (fun h => hS h.symm), if_neg (fun h => hA h.symm),
                if_neg (fun h => hB h.symm), if_neg (fun h => hG h.symm)]
            rw [hnone]
            rfl
    rw [h0]
    exact Nat.zero_le _

/-- C1 (amended): on well-formed graph stores, `ucs` always returns the true
minimum path cost for a reachable goal; `astar` does so whenever the stored
heuristic is consistent.  Admissibility alone is not enough for this `astar`
(see the counterexample): it marks vertices visited at pop time and never
re-expands them. -/
theorem claim_C1 :
    (∀ (g : Graph) (start goal : String), Wf g → Reachable g start goal →
      (ucs g start goal).found = true ∧
      IsMinCost g start goal (ucs g start goal).pathCost) ∧
    (∀ (g : Graph) (start goal : String), Wf g → Consistent g →
      Reachable g start goal →
      (astar g start goal).found = true ∧
      IsMinCost g start goal (astar g start goal).pathCost) := by
  constructor
  · intro g start goal hwf hreach
    by_cases hsg : start = goal
    · subst hsg
      rw [ucs_self]
      exact ⟨rfl, ⟨[start], isPath_singleton g start, rfl⟩,
        fun p _ => Nat.zero_le _⟩
    · have hstart := reachable_ne_hasNode hwf hsg hreach
      obtain ⟨hfound, hnfound⟩ := ucs_opt_spec g start goal hwf hstart
      cases hfb : (ucs g start goal).found
      · obtain ⟨-, -, hgn, hall⟩ := hnfound hfb
        exact absurd (hall goal hreach) hgn
      · exact ⟨rfl, (hfound hfb).2.2.2⟩
  · intro g start goal hwf hcons hreach
    by_cases hsg : start = goal
    · subst hsg
      rw [astar_self]
      exact ⟨rfl, ⟨[start], isPath_singleton g start, rfl⟩,
        fun p _ => Nat.zero_le _⟩
    · have hstart := reachable_ne_hasNode hwf hsg hreach
      obtain ⟨hfound, hnfound⟩ := astar_opt_spec g start goal hwf hstart hcons
      cases hfb : (astar g start goal).found
      · obtain ⟨-, -, hgn, hall⟩ := hnfound hfb
        exact absurd (hall goal hreach) hgn
      · exact ⟨rfl, (hfound hfb).2.2.2⟩

/-- C1 as frozen is false for `astar`: on `cexGraph` the heuristic is
admissible and the goal reachable, yet the returned `pathCost` (7) exceeds the
true minimum (5, along `S → A → B → G`). -/
theorem claim_C1_cex :
    Admissible cexGraph "G" ∧ Reachable cexGraph "S" "G" ∧
    ¬ IsMinCost cexGraph "S" "G" (astar cexGraph "S" "G").pathCost := by
  refine ⟨cex_admissible, cexReach, ?_⟩
  intro hmin
  have h5 := hmin.2 ["S", "A", "B", "G"] cexPath
  have hpc : (astar cexGraph "S" "G").pathCost = 7 := by decide
  have hw : pathWeight cexGraph ["S", "A", "B", "G"] = 5 := by decide
  omega

/-- Witness for C1 at concrete instances. -/
theorem claim_C1_wit :
    Wf cexGraph ∧ Reachable cexGraph "S" "G" ∧
    ((ucs cexGraph "S" "G").found = true ∧
      IsMinCost cexGraph "S" "G" (ucs cexGraph "S" "G").pathCost) ∧
    Wf twoGraph ∧ Consistent twoGraph ∧ Reachable twoGraph "X" "X" ∧
    ((astar twoGraph "X" "X").found = true ∧
      IsMinCost twoGraph "X" "X" (astar twoGraph "X" "X").pathCost) :=
  ⟨by decide, cexReach, claim_C1.1 cexGraph "S" "G" (by decide) cexReach,
   by decide, twoGraph_consistent, Relation.ReflTransGen.refl,
   claim_C1.2 twoGraph "X" "X" (by decide) twoGraph_consistent
     Relation.ReflTransGen.refl⟩

/-- C3 (amended): whenever a strategy reports `found`, the returned path's
consecutive pairs are store edges from `start` to `goal`; the reported
`pathCost` equals the path's exact edge-cost sum for `bfs`, `dfs`, `ucs` and
`greedy` unconditionally, and for `astar` under a consistent heuristic — but
not for `astar` in general (see the counterexample). -/
theorem claim_C3 :
    (∀ (g : Graph) (start goal : String), Wf g → hasNode g start →
      (bfs g start goal).found = true →
      IsPath g start goal (bfs g start goal).path ∧
      (bfs g start goal).pathCost = pathWeight g (bfs g start goal).path) ∧
    (∀ (g : Graph) (start goal : String), Wf g → hasNode g start →
      (dfs g start goal).found = true →
      IsPath g start goal (dfs g start goal).path ∧
      (dfs g start goal).pathCost = pathWeight g (dfs g start goal).path) ∧
    (∀ (g : Graph) (start goal : String), Wf g → hasNode g start →
      (ucs g start goal).found = true →
      IsPath g start goal (ucs g start goal).path ∧
      (ucs g start goal).pathCost = pathWeight g (ucs g start goal).path) ∧
    (∀ (g : Graph) (start goal : String), Wf g → hasNode g start →
      (greedy g start goal).found = true →
      IsPath g start goal (greedy g start goal).path ∧
      (greedy g start goal).pathCost =
        pathWeight g (greedy g start goal).path) ∧
    (∀ (g : Graph) (start goal : String), Wf g → hasNode g start →
      (astar g start goal).found = true →
      IsPath g start goal (astar g start goal).path) ∧
    (∀ (g : Graph) (start goal : String), Wf g → hasNode g start →
      Consistent g → (astar g start goal).found = true →
      (astar g start goal).pathCost =
        pathWeight g (astar g start goal).path) := by
  refine ⟨?_, ?_, ?_, ?_, ?_, ?_⟩
  · intro g start goal hwf hstart hf
    obtain ⟨-, -, -, -, -, hfound, -⟩ := bfs_spec g start goal hwf hstart
    exact ⟨(hfound hf).2.1, (hfound hf).2.2⟩
  · intro g start goal hwf hstart hf
    obtain ⟨-, -, -, -, -, hfound, -⟩ := dfs_spec g start goal hwf hstart
    exact ⟨(hfound hf).2.1, (hfound hf).2.2⟩
  · intro g start goal hwf hstart hf
    obtain ⟨hfound, -⟩ := ucs_opt_spec g start goal hwf hstart
    exact ⟨(hfound hf).2.1, (hfound hf).2.2.1⟩
  · intro g start goal hwf hstart hf
    obtain ⟨-, -, -, -, -, hfound, -⟩ := greedy_spec g start goal hwf hstart
    exact ⟨(hfound hf).2.1, (hfound hf).2.2⟩
  · intro g start goal hwf hstart hf
    obtain ⟨-, -, -, -, -, hfound, -⟩ := astar_spec g start goal hwf hstart
    exact (hfound hf).2
  · intro g start goal hwf hstart hcons hf
    obtain ⟨hfound, -⟩ := astar_opt_spec g start goal hwf hstart hcons
    exact (hfound hf).2.2.1

/-- C3 as frozen is false for `astar`: on `cexGraph` the search succeeds but
reports `pathCost = 7` while its own returned path's edge-cost sum is 5 (`B`'s
entry is improved after `B` was expanded, re-routing the goal's recorded path
but leaving its recorded cost stale). -/
theorem claim_C3_cex :
    (astar cexGraph "S" "G").found = true ∧
    (astar cexGraph "S" "G").pathCost ≠
      pathWeight cexGraph (astar cexGraph "S" "G").path := by
  constructor
  · decide
  · decide

/-- Witness for C3 at a concrete instance. -/
theorem claim_C3_wit :
    Wf twoGraph ∧ hasNode twoGraph "X" ∧ Consistent twoGraph ∧
    (bfs twoGraph "X" "X").found = true ∧
    (IsPath twoGraph "X" "X" (bfs twoGraph "X" "X").path ∧
      (bfs twoGraph "X" "X").pathCost =
        pathWeight twoGraph (bfs twoGraph "X" "X").path) ∧
    (IsPath twoGraph "X" "X" (dfs twoGraph "X" "X").path ∧
      (dfs twoGraph "X" "X").pathCost =
        pathWeight twoGraph (dfs twoGraph "X" "X").path) ∧
    (IsPath twoGraph "X" "X" (ucs twoGraph "X" "X").path ∧
      (ucs twoGraph "X" "X").pathCost =
        pathWeight twoGraph (ucs twoGraph "X" "X").path) ∧
    (IsPath twoGraph "X" "X" (greedy twoGraph "X" "X").path ∧
      (greedy twoGraph "X" "X").pathCost =
        pathWeight twoGraph (greedy twoGraph "X" "X").path) ∧
    IsPath twoGraph "X" "X" (astar twoGraph "X" "X").path ∧
    (astar twoGraph "X" "X").pathCost =
      pathWeight twoGraph (astar twoGraph "X" "X").path :=
  ⟨by decide, by decide, twoGraph_consistent, by decide,
   claim_C3.1 twoGraph "X" "X" (by decide) (by decide) (by decide),
   claim_C3.2.1 twoGraph "X" "X" (by decide) (by decide) (by decide),
   claim_C3.2.2.1 twoGraph "X" "X" (by decide) (by decide) (by decide),
   claim_C3.2.2.2.1 twoGraph "X" "X" (by decide) (by decide) (by decide),
   claim_C3.2.2.2.2.1 twoGraph "X" "X" (by decide) (by decide) (by decide),
   claim_C3.2.2.2.2.2 twoGraph "X" "X" (by decide) (by decide)
     twoGraph_consistent (by decide)⟩

/-- C9: `dequeue()` on an empty `PriorityQueue` returns `null`, leaves the
queue unchanged, and `isEmpty()` still reports `true` afterwards. -/
theorem claim_C9 {α : Type} (q : PQueue α) (h : q.isEmpty = true) :
    q.dequeue = (none, q) ∧ q.dequeue.2.isEmpty = true := by
  obtain ⟨items⟩ := q
  cases items with
  | nil => exact ⟨rfl, rfl⟩
  | cons a l => simp [PQueue.isEmpty] at h

/-- Witness for C9 at the concrete empty queue of strings. -/
theorem claim_C9_wit :
    (PQueue.empty : PQueue String).isEmpty = true ∧
    (PQueue.empty : PQueue String).dequeue = (none, PQueue.empty) ∧
    ((PQueue.empty : PQueue String).dequeue.2).isEmpty = true :=
  ⟨rfl, (claim_C9 PQueue.empty rfl).1, (claim_C9 PQueue.empty rfl).2⟩

/-- C4: after any finite sequence of `enqueue(element, priority)` calls on a
fresh `PriorityQueue`, repeatedly calling `dequeue` yields the elements in
non-decreasing order of their priorities (the logged root pairs have
non-decreasing priorities and their elements are exactly the successive
`dequeue` outputs), and after `n` enqueues followed by `n` dequeues
`isEmpty()` returns `true`. -/
theorem claim_C4 {α : Type} (ps : List (α × Nat)) :
    List.Chain' (fun a b => a ≤ b)
      ((drainPairs ps.length (buildQueue ps)).map Prod.snd) ∧
    dequeueSeq ps.length (buildQueue ps) =
      (drainPairs ps.length (buildQueue ps)).map Prod.fst ∧
    (dequeueN ps.length (buildQueue ps)).isEmpty = true := by
  refine ⟨?_, dequeueSeq_eq_drainPairs _ _, ?_⟩
  · rw [List.chain'_map]
    exact drainPairs_sorted _ _ (buildQueue_heapProp ps)
  · have h := dequeueN_items_nil ps.length (buildQueue ps) (buildQueue_length ps)
    simp [PQueue.isEmpty, h]

/-- C2: on the default fixture graph, `ucs("A","Goal")` and `astar("A","Goal")`
both report `pathCost = 8`, and A* explores no more nodes than UCS. -/
theorem claim_C2 :
    (ucs defaultGraph "A" "Goal").pathCost = 8 ∧
    (astar defaultGraph "A" "Goal").pathCost = 8 ∧
    (astar defaultGraph "A" "Goal").nodesExplored ≤
      (ucs defaultGraph "A" "Goal").nodesExplored :=
  ⟨by decide, by decide, by decide⟩

end PathFinder
